import Mathlib

/-!
Verification of the ParallelSort repository (parallelFor.hpp, parallelSort.hpp).

Shallow embedding conventions:
* C++ `double` arithmetic is modelled by exact rational arithmetic (ℚ); the
  quantities the code computes with doubles (segment deltas, merge spacings,
  llround arguments) are modelled by the same formulas over ℚ.
* `llround` is modelled for nonnegative arguments (the only arguments the
  program produces) as floor (q + 1/2), i.e. round half away from zero.
* Buffers (`T*` arrays) are modelled as total functions ℕ → α; a store of a
  run of elements is `writeAt`.  Concurrently launched workers write disjoint
  index ranges, so the fork-join execution is modelled by folding the worker
  bodies in launch order.
* Comparators are boolean relations α → α → Bool; the strict-weak-ordering
  precondition is the structure SWO below.
* `std::sort` is modelled as a sequential comparison sort
  (`List.insertionSort` on the reflexive negation of the comparator);
  the repository only relies on it producing some sorted permutation.
-/

-- rational arithmetic must evaluate inside the kernel for the concrete
-- instances below; these operations are irreducible by default
attribute [local semireducible] Rat.mul Rat.add Rat.inv Rat.sub

/-- llround on ℚ (exact model of C llround for nonnegative arguments). -/
def llrZ (q : ℚ) : ℤ := Int.floor (q + 1 / 2)

/-- llround, stored into a size_t / used as a ℕ index (all reachable uses are
nonnegative). -/
def llrN (q : ℚ) : ℕ := (llrZ q).toNat

/-- Strict weak ordering assumptions on a boolean comparator: irreflexive,
transitive, and with transitive induced "less or equivalent" relation. -/
structure SWO (c : α → α → Bool) : Prop where
  irrefl : ∀ a, c a a = false
  trans : ∀ a b d, c a b = true → c b d = true → c a d = true
  leTrans : ∀ a b d, c b a = false → c d b = false → c d a = false

/-- sortedness of a list under the comparator: no later element is strictly
below an earlier one (non-descending order). -/
def SortedLe (c : α → α → Bool) (l : List α) : Prop :=
  List.Pairwise (fun a b => c b a = false) l

/-- The contiguous slice [i, j) of a buffer, as a list. -/
def sliceH (f : ℕ → α) (i j : ℕ) : List α :=
  (List.range (j - i)).map fun k => f (i + k)

/-- Store the run xs into the buffer f starting at position p. -/
def writeAt (f : ℕ → α) (p : ℕ) (xs : List α) : ℕ → α := fun q =>
  if p ≤ q ∧ q - p < xs.length then xs.getD (q - p) (f q) else f q

/-- The list of integers [b, e). -/
def rangeZ (b e : ℤ) : List ℤ :=
  (List.range (e - b).toNat).map fun k : ℕ => b + (k : ℤ)

/-- integer division rounding up (iDivUp in parallelSort.hpp). -/
def iDivUp (a b : ℕ) : ℕ :=
  if a % b = 0 then a / b else a / b + 1

-- ------------------------------------------------------------------
-- the reference sequential merge (specification-level merge): takes the
-- head of the first list unless the head of the second is strictly below it
-- ------------------------------------------------------------------

/-- sequential two-way merge; on an equivalent pair the element of the first
list is copied first.  Defined through a structural fuel (the total length)
so that it evaluates inside the kernel. -/
def mergeSeqF (c : α → α → Bool) : ℕ → List α → List α → List α
  | 0, as, bs => as ++ bs
  | _ + 1, [], bs => bs
  | _ + 1, a :: as, [] => a :: as
  | f + 1, a :: as, b :: bs =>
    if c b a = true then b :: mergeSeqF c f (a :: as) bs
    else a :: mergeSeqF c f as (b :: bs)

/-- sequential two-way merge of two lists. -/
def mergeSeq (c : α → α → Bool) (as bs : List α) : List α :=
  mergeSeqF c (as.length + bs.length) as bs

-- ------------------------------------------------------------------
-- the model of std::sort: a sequential comparison sort.  std::sort is
-- unstable and its permutation on equivalent keys is unspecified; the code
-- only relies on it producing a sorted permutation of its input.
-- ------------------------------------------------------------------

/-- model of std::sort(first, last, compFunc). -/
def stdSort (c : α → α → Bool) (l : List α) : List α :=
  List.insertionSort (fun a b => c b a = false) l

-- ------------------------------------------------------------------
-- sortedness of an index range of a buffer
-- ------------------------------------------------------------------

/-- the buffer positions [lo, hi) are in non-descending order. -/
def RangeSorted (c : α → α → Bool) (src : ℕ → α) (lo hi : ℕ) : Prop :=
  ∀ i j, lo ≤ i → i ≤ j → j < hi → c (src j) (src i) = false

-- ------------------------------------------------------------------
-- mergeFF (parallelSort.hpp lines 42-60)
-- ------------------------------------------------------------------

/-- One of the two compare-and-copy loops of mergeFF.  The "primary" range
[pBeg, pEnd] bounds the loop (`while (pBeg <= pEnd)`); the "secondary" range
head sBeg is compared against the primary head and the primary element is
copied when the secondary head is not strictly below it.  Exactly one index
advances per emitted element.  fuel bounds the iteration count: the C loop
terminates within (primary length + secondary length) iterations whenever the
documented preconditions hold (it reads out of bounds when they do not).
Returns the emitted run together with the final secondary index. -/
def ffLoop (c : α → α → Bool) (src : ℕ → α) :
    ℕ → ℕ → ℕ → ℕ → List α × ℕ
  | 0, _, _, sBeg => ([], sBeg)
  | fuel + 1, pBeg, pEnd, sBeg =>
    if pBeg ≤ pEnd then
      if c (src sBeg) (src pBeg) = false then
        let r := ffLoop c src fuel (pBeg + 1) pEnd sBeg
        (src pBeg :: r.1, r.2)
      else
        let r := ffLoop c src fuel pBeg pEnd (sBeg + 1)
        (src sBeg :: r.1, r.2)
    else ([], sBeg)

/-- The run of values mergeFF writes to dst[dBeg], dst[dBeg+1], ...
(parallelSort.hpp lines 44-59): the ends are compared once; the range that
will be exhausted first drives the compare-and-copy loop and the remainder of
the other range is then copied. -/
def mergeFFrun (c : α → α → Bool) (src : ℕ → α) (aBeg aEnd bBeg bEnd : ℕ) :
    List α :=
  let fuel := (aEnd + 1 - aBeg) + (bEnd + 1 - bBeg)
  if c (src aEnd) (src bEnd) = true then
    let r := ffLoop c src fuel aBeg aEnd bBeg
    r.1 ++ sliceH src r.2 (bEnd + 1)
  else
    let r := ffLoop c src fuel bBeg bEnd aBeg
    r.1 ++ sliceH src r.2 (aEnd + 1)

/-- mergeFF as a destination-buffer transformer (the run is written at
consecutive positions dBeg, dBeg+1, ...). -/
def mergeFF (c : α → α → Bool) (dst src : ℕ → α)
    (aBeg aEnd bBeg bEnd dBeg : ℕ) : ℕ → α :=
  writeAt dst dBeg (mergeFFrun c src aBeg aEnd bBeg bEnd)

instance sortedLeDecidable (c : α → α → Bool) (l : List α) :
    Decidable (SortedLe c l) :=
  inferInstanceAs (Decidable (List.Pairwise _ l))

/-- the natural ascending comparator on ℕ, used by concrete instances. -/
def natLt : ℕ → ℕ → Bool := fun a b => decide (a < b)

-- ------------------------------------------------------------------
-- parallelFor (parallelFor.hpp lines 24-62) and parallelForNoWait
-- (lines 70-100): segment bounds and invocation indices
-- ------------------------------------------------------------------

/-- The launch loop of parallelFor: k more workers to launch, current
(sBeg, sEnd) state; each launch records the segment [sBeg, llround(sEnd))
and advances sBeg := llround(sEnd), sEnd += seg_size (lines 39-55).
Returns the recorded segments and the final (sBeg, sEnd) state. -/
def pfLoop (s : ℚ) : ℕ → ℤ → ℚ → List (ℤ × ℤ) × ℤ × ℚ
  | 0, sBeg, sEnd => ([], sBeg, sEnd)
  | k + 1, sBeg, sEnd =>
    let r := pfLoop s k (llrZ sEnd) (sEnd + s)
    ((sBeg, llrZ sEnd) :: r.1, r.2)

/-- n = end - begin (iteration count of parallelFor). -/
def pfN (b e : ℤ) : ℕ := (e - b).toNat

/-- the clamped segment count (line 31: if (n < num_segs) num_segs = n). -/
def pfM (b e : ℤ) (ns : ℕ) : ℕ := if pfN b e < ns then pfN b e else ns

/-- seg_size = (double)n / (double)num_segs (line 38). -/
def pfS (b e : ℤ) (ns : ℕ) : ℚ := ((pfN b e : ℚ)) / ((pfM b e ns : ℚ))

/-- lower bound of the final segment, the one run on the calling thread
(line 57). -/
def lastSegLo (b e : ℤ) (ns : ℕ) : ℤ :=
  (pfLoop (pfS b e ns) (pfM b e ns - 1) 0 (pfS b e ns)).2.1

/-- upper bound of the final segment (llround(sEnd) at line 57). -/
def lastSegHi (b e : ℤ) (ns : ℕ) : ℤ :=
  llrZ (pfLoop (pfS b e ns) (pfM b e ns - 1) 0 (pfS b e ns)).2.2

/-- the [lb, le) segment bounds of parallelFor(begin, end, fn, num_segs) in
launch order: num_segs - 1 worker segments, then the calling thread's final
segment.  An empty range returns immediately with no segments (line 29). -/
def pfSegs (b e : ℤ) (ns : ℕ) : List (ℤ × ℤ) :=
  if pfN b e = 0 then []
  else (pfLoop (pfS b e ns) (pfM b e ns - 1) 0 (pfS b e ns)).1
    ++ [(lastSegLo b e ns, lastSegHi b e ns)]

/-- all indices at which fn is invoked, in launch order (fn receives
begin + i for each i in each segment [lb, le)). -/
def pfIndices (b e : ℤ) (ns : ℕ) : List ℤ :=
  (pfSegs b e ns).flatMap fun p => (rangeZ p.1 p.2).map fun i => b + i

/-- interpolated segment boundary i: llround(i * seg_size). -/
def pfBound (s : ℚ) (i : ℕ) : ℤ := llrZ ((i : ℚ) * s)

-- ------------------------------------------------------------------
-- parallelFor with failing callbacks (C6): the worker bodies store their
-- outcome in their future; the join loop (parallelFor.hpp lines 60-61 and
-- 105-106) calls wait(), which does not re-raise a stored exception
-- ------------------------------------------------------------------

/-- the body loop `for (i = lb; i < le; i++) fn(begin + i)` of one segment
when fn may fail: it stops at the first failure (an exception unwinds the
loop) and yields that failure. -/
def runSegF (fn : ℤ → Except ε Unit) : ℕ → ℤ → Except ε Unit
  | 0, _ => Except.ok ()
  | k + 1, lb =>
    match fn lb with
    | Except.error x => Except.error x
    | Except.ok _ => runSegF fn k (lb + 1)

/-- the loop over the segment [lb, le): le - lb iterations starting at lb. -/
def runSeg (fn : ℤ → Except ε Unit) (lb le : ℤ) : Except ε Unit :=
  runSegF fn (le - lb).toNat lb

/-- parallelFor with failing callbacks.  The launched workers' outcomes are
stored in their futures; the final segment runs on the calling thread, so
its failure propagates; the join loop then waits on each future with
wait() — not get() — which discards any stored exception. -/
def parallelForE (b e : ℤ) (fn : ℤ → Except ε Unit) (ns : ℕ) :
    Except ε Unit :=
  if pfN b e = 0 then Except.ok ()
  else
    let futures := ((pfLoop (pfS b e ns) (pfM b e ns - 1) 0 (pfS b e ns)).1).map
      fun p => runSeg (fun i => fn (b + i)) p.1 p.2
    match runSeg (fun i => fn (b + i)) (lastSegLo b e ns) (lastSegHi b e ns) with
    | Except.error x => Except.error x
    | Except.ok _ =>
      -- futures[seg].wait() for each launched worker: the stored results
      -- are never read back
      let _ := futures
      Except.ok ()

/-- parallelForFinish (parallelFor.hpp lines 102-108): waits on every stored
future with wait() and frees the vector; stored failures are discarded and
the function always returns normally. -/
def parallelForFinishE (futures : List (Except ε Unit)) : Except ε Unit :=
  Except.ok ()

-- ------------------------------------------------------------------
-- parallelSort's thread resolution and merge-round bookkeeping
-- (parallelSort.hpp lines 237-252 and 270-330)
-- ------------------------------------------------------------------

/-- the effective thread count of parallelSort (lines 238-247): a requested
count of 0 resolves to the hardware concurrency hw; the count is then capped
by max_threads = max((len + 64) / 128, 1). -/
def effThreads (hw len req : ℕ) : ℕ :=
  min (if req = 0 then hw else req) (max ((len + 64) / 128) 1)

/-- delta = double(len) / double(threads) (line 252). -/
def sortDelta (len t : ℕ) : ℚ := (len : ℚ) / (t : ℚ)

/-- phase-1 local sort boundary: lb of segment k is llround(k * delta)
(lines 256-257). -/
def localSegBound (len t k : ℕ) : ℕ := llrN ((k : ℚ) * sortDelta len t)

/-- number of elements sorted by local-sort worker k. -/
def localSegLen (len t k : ℕ) : ℕ :=
  localSegBound len t (k + 1) - localSegBound len t k

/-- delta at the start of global merge pass r (each pass ends with
delta *= 2.0, lines 307 and 329; pass 0 starts from line 252's delta). -/
def roundDelta (len t r : ℕ) : ℚ := sortDelta len t * 2 ^ r

/-- loops = (int64)floor(len / (2.0 * delta)) (lines 288 and 309). -/
def roundLoops (len t r : ℕ) : ℕ :=
  (Int.floor ((len : ℚ) / (2 * roundDelta len t r))).toNat

/-- loStart = double(loops) * 2.0 * delta (lines 289 and 310). -/
def roundLoStart (len t r : ℕ) : ℚ :=
  (roundLoops len t r : ℚ) * 2 * roundDelta len t r

/-- whether the pass has a leftover merge task: llround(loStart) < len
(lines 290, 301, 311 and 323). -/
def roundHasLeftover (len t r : ℕ) : Bool :=
  llrZ (roundLoStart len t r) < (len : ℤ)

/-- tasks = loops plus the leftover task when present (lines 290 and 311). -/
def roundTasks (len t r : ℕ) : ℕ :=
  roundLoops len t r + (if roundHasLeftover len t r then 1 else 0)

/-- pmThreads = iDivUp(threads, tasks) (lines 291 and 312). -/
def roundPm (len t r : ℕ) : ℕ := iDivUp t (roundTasks len t r)

/-- loThreads = threads - loops * pmThreads (lines 292 and 313), computed in
int64 arithmetic. -/
def roundLo (len t r : ℕ) : ℤ :=
  (t : ℤ) - (roundLoops len t r : ℤ) * (roundPm len t r : ℤ)

/-- ceil(log2 t): the depth of the merge tree (line 270), computed through a
structural fuel so that it evaluates inside the kernel. -/
def clog2F : ℕ → ℕ → ℕ
  | 0, _ => 0
  | f + 1, t => if t ≤ 1 then 0 else clog2F f ((t + 1) / 2) + 1

/-- ceil(log2 t) (exact value of line 270's (int64_t)ceil(log2(threads))
for the representable range). -/
def clog2 (t : ℕ) : ℕ := clog2F t t

/-- the number of global merge passes: the for loop (line 277) runs
(depth+1)/2 iterations of two passes each. -/
def numPasses (t : ℕ) : ℕ := 2 * ((clog2 t + 1) / 2)

/-- the worker counts handed to the parallelMerge invocations of all merge
passes of parallelSort, in order: per pass, loops full-pair merges with
pmThreads workers each, then the leftover merge with loThreads workers when
present (lines 294-305 and 316-327). -/
def mergeCallThreads (len t : ℕ) : List ℤ :=
  (List.range (numPasses t)).flatMap fun r =>
    List.replicate (roundLoops len t r) ((roundPm len t r : ℤ))
      ++ (if roundHasLeftover len t r then [roundLo len t r] else [])

-- ------------------------------------------------------------------
-- mergePath / getMergePaths / parallelMerge (parallelSort.hpp lines 68-135)
-- ------------------------------------------------------------------

/-- the binary search loop of mergePath (lines 74-79).  The window [b, e)
shrinks every iteration, so a structural fuel of e - b suffices; the loop
probes mid = b + (e - b) / 2 and keeps the half where the merge path can
still cross. -/
def mpLoop (c : α → α → Bool) (valA valB : ℕ → α) (diag : ℤ) :
    ℕ → ℕ → ℕ → ℕ
  | 0, b, _ => b
  | fuel + 1, b, e =>
    if b < e then
      if c (valA (b + (e - b) / 2))
          (valB (diag - 1 - (b + (e - b) / 2 : ℕ)).toNat) = true then
        mpLoop c valA valB diag fuel (b + (e - b) / 2 + 1) e
      else
        mpLoop c valA valB diag fuel b (b + (e - b) / 2)
    else b

/-- mergePath (lines 68-81): the smallest index i in the window
[max(0, diag - bCount), min(diag, aCount)] with valA[i] not strictly below
valB[diag - 1 - i]; equivalently, the number of A elements among the first
diag outputs of the merge. -/
def mergePath (c : α → α → Bool) (valA : ℕ → α) (aCount : ℤ)
    (valB : ℕ → α) (bCount : ℤ) (diag : ℤ) : ℕ :=
  mpLoop c valA valB diag
    ((min diag aCount).toNat - (max 0 (diag - bCount)).toNat)
    (max 0 (diag - bCount)).toNat (min diag aCount).toNat

/-- aCount = aEnd - aBeg + 1 / bCount = bEnd - bBeg + 1, computed in int64
(lines 110-111). -/
def pmCount (x y : ℕ) : ℤ := (y : ℤ) - (x : ℤ) + 1

/-- spacing = double(aCount + bCount) / double(threads) (line 112). -/
def pmSpacing (aBeg aEnd bBeg bEnd threads : ℕ) : ℚ :=
  ((pmCount aBeg aEnd + pmCount bBeg bEnd : ℤ) : ℚ) / (threads : ℚ)

/-- the merge-path table mpi of getMergePaths (lines 84-97): mpi[0] = 0,
mpi[partitions] = aCount (the write at index partitions happens second, so
it wins when partitions = 0), and each interior entry is the mergePath of
the rounded diagonal llround(i * spacing).  The table is indexed off
src + aBeg and src + bBeg (line 113). -/
def pmMpi (c : α → α → Bool) (src : ℕ → α)
    (aBeg aEnd bBeg bEnd threads : ℕ) (i : ℕ) : ℕ :=
  if i = threads then (pmCount aBeg aEnd).toNat
  else if i = 0 then 0
  else mergePath c (fun x => src (aBeg + x)) (pmCount aBeg aEnd)
    (fun x => src (bBeg + x)) (pmCount bBeg bEnd)
    (llrZ ((i : ℚ) * pmSpacing aBeg aEnd bBeg bEnd threads))

/-- the run written by parallelMerge's worker `thread` (lines 115-133): the
source slices are derived from adjacent table entries and the rounded output
grid; a worker with an empty A (resp. B) slice degrades to a copy of the
other slice, otherwise it calls mergeFF. -/
def pmWorkerOut (c : α → α → Bool) (src : ℕ → α)
    (aBeg aEnd bBeg bEnd threads k : ℕ) : List α :=
  let grid := llrN ((k : ℚ) * pmSpacing aBeg aEnd bBeg bEnd threads)
  let a0 := pmMpi c src aBeg aEnd bBeg bEnd threads k + aBeg
  let a1 := pmMpi c src aBeg aEnd bBeg bEnd threads (k + 1) + aBeg
  let b0 := (grid - pmMpi c src aBeg aEnd bBeg bEnd threads k) + bBeg
  let b1 := (llrN (((k + 1 : ℕ) : ℚ) * pmSpacing aBeg aEnd bBeg bEnd threads)
    - pmMpi c src aBeg aEnd bBeg bEnd threads (k + 1)) + bBeg
  if a0 = a1 then sliceH src b0 b1
  else if b0 = b1 then sliceH src a0 a1
  else mergeFFrun c src a0 (a1 - 1) b0 (b1 - 1)

/-- where worker `thread` starts writing: wtid = dBeg + grid (line 123). -/
def pmWtid (c : α → α → Bool) (src : ℕ → α)
    (aBeg aEnd bBeg bEnd threads dBeg k : ℕ) : ℕ :=
  dBeg + llrN ((k : ℚ) * pmSpacing aBeg aEnd bBeg bEnd threads)

/-- parallelMerge (lines 105-135) as a destination-buffer transformer: the
table is computed, then one worker per thread index of
parallelFor(0, threads, ..., threads) writes its run; the workers write
pairwise disjoint ranges, so the fork-join is modelled by folding the worker
bodies in launch order. -/
def pmWrite (c : α → α → Bool) (dst src : ℕ → α)
    (aBeg aEnd bBeg bEnd dBeg threads : ℕ) : ℕ → α :=
  (pfIndices 0 (threads : ℤ) threads).foldl
    (fun buf th =>
      writeAt buf (pmWtid c src aBeg aEnd bBeg bEnd threads dBeg th.toNat)
        (pmWorkerOut c src aBeg aEnd bBeg bEnd threads th.toNat)) dst

/-- the concatenation, in worker order, of the runs of the threads of one
parallelMerge invocation. -/
def pmOut (c : α → α → Bool) (src : ℕ → α)
    (aBeg aEnd bBeg bEnd threads : ℕ) : List α :=
  (List.range threads).flatMap fun k =>
    pmWorkerOut c src aBeg aEnd bBeg bEnd threads k

/-- the rounded output diagonal of worker k, as an integer:
llround(thread * spacing) (lines 93 and 117). -/
def pmDiag (aBeg aEnd bBeg bEnd threads k : ℕ) : ℤ :=
  llrZ ((k : ℚ) * pmSpacing aBeg aEnd bBeg bEnd threads)

/-- grid_k = llround(thread * spacing) as a size_t (line 117). -/
def pmG (aBeg aEnd bBeg bEnd threads k : ℕ) : ℕ :=
  llrN ((k : ℚ) * pmSpacing aBeg aEnd bBeg bEnd threads)

/-- the number of B elements consumed before worker k's slice:
grid_k - mpi[k] (line 120). -/
def pmBC (c : α → α → Bool) (src : ℕ → α)
    (aBeg aEnd bBeg bEnd threads k : ℕ) : ℕ :=
  pmG aBeg aEnd bBeg bEnd threads k - pmMpi c src aBeg aEnd bBeg bEnd threads k

/-- the hypotheses of one parallelMerge invocation: a strict-weak-order
comparator, at least one worker, a non-empty A range, a possibly empty B
range, both ranges sorted in the source buffer. -/
structure PMCtx (c : α → α → Bool) (src : ℕ → α)
    (aBeg aEnd bBeg bEnd threads : ℕ) : Prop where
  swo : SWO c
  hth : 1 ≤ threads
  ha : aBeg ≤ aEnd
  hb : bBeg ≤ bEnd + 1
  haS : RangeSorted c src aBeg (aEnd + 1)
  hbS : RangeSorted c src bBeg (bEnd + 1)

-- ------------------------------------------------------------------
-- C2: the merge-path partition table and worker concatenation
-- ------------------------------------------------------------------

/-- a comparator on pairs that only inspects the first component: a strict
weak ordering with genuinely tied, distinguishable elements. -/
def c2cmp : ℕ × ℕ → ℕ × ℕ → Bool := fun x y => decide (x.1 < y.1)

/-- source buffer holding A = [(1,0),(2,0)] and B = [(2,1),(3,1)]: both
ranges sorted under c2cmp, with a tie between (2,0) and (2,1). -/
def c2src : ℕ → ℕ × ℕ := fun n => [(1, 0), (2, 0), (2, 1), (3, 1)].getD n (0, 0)

/-- source buffer for the C2 witness: A = [1,3], B = [2,4] under the
antisymmetric natural-number comparator. -/
def c2srcW : ℕ → ℕ := fun n => [1, 3, 2, 4].getD n 0

-- ------------------------------------------------------------------
-- the parallelSort orchestrator (parallelSort.hpp lines 236-334)
-- ------------------------------------------------------------------

/-- segment boundary of merge pass r: llround(j * delta_r) for the pass's
delta = (len/threads) * 2^r (lines 296-298 and 318-320 use j = 2i, 2i+1,
2i+2). -/
def roundBound (len t r j : ℕ) : ℕ := llrN ((j : ℚ) * roundDelta len t r)

/-- phase 1 (lines 255-259): threads local sorts; worker k std::sorts the
half-open segment [llround(k*delta), llround((k+1)*delta)) in place.  The
segments are pairwise disjoint, so the fork-join is modelled by folding the
workers in launch order. -/
def phase1 (c : α → α → Bool) (len t : ℕ) (buf : ℕ → α) : ℕ → α :=
  (List.range t).foldl (fun b k =>
    writeAt b (localSegBound len t k)
      (stdSort c
        (sliceH b (localSegBound len t k) (localSegBound len t (k + 1))))) buf

/-- one merge pass at level r (lines 294-306 or 316-328): loops full merges
of adjacent delta_r pairs, each with pmThreads workers, writing dst from lb
on; then, when llround(loStart) < len, the leftover merge of the remaining
segment-and-a-partial with loThreads workers.  All tasks read src and write
pairwise disjoint dst ranges, so the fork-join is modelled by folding them
in launch order. -/
def mergePass (c : α → α → Bool) (len t r : ℕ) (dst src : ℕ → α) : ℕ → α :=
  let afterMain := (List.range (roundLoops len t r)).foldl
    (fun b i =>
      pmWrite c b src (roundBound len t r (2 * i))
        (roundBound len t r (2 * i + 1) - 1)
        (roundBound len t r (2 * i + 1))
        (roundBound len t r (2 * i + 2) - 1)
        (roundBound len t r (2 * i))
        (roundPm len t r)) dst
  if roundHasLeftover len t r then
    pmWrite c afterMain src (llrN (roundLoStart len t r))
      (min len (llrN (roundLoStart len t r + roundDelta len t r)) - 1)
      (min len (llrN (roundLoStart len t r + roundDelta len t r)))
      (len - 1) (llrN (roundLoStart len t r)) (roundLo len t r).toNat
  else afterMain

/-- the double-pass merge loop (lines 277-331): n remaining passes starting
at round r; each pass merges from the current buffer into the other buffer
and the roles swap.  The first component is the buffer holding the data
after all n passes. -/
def sortPasses {α : Type u} (c : α → α → Bool) (len t : ℕ) :
    ℕ → ℕ → (ℕ → α) → (ℕ → α) → (ℕ → α) × (ℕ → α)
  | 0, _, buf, swp => (buf, swp)
  | n + 1, r, buf, swp =>
    sortPasses c len t n (r + 1) (mergePass c len t r swp buf) buf

/-- whether parallelSort allocates the scratch buffer: the allocation (line
268) is reached only when the threads <= 1 early return (line 261) is not
taken. -/
def usesScratch (hw len req : ℕ) : Bool := decide (1 < effThreads hw len req)

/-- parallelSort (lines 236-334) on a buffer model: resolve the effective
thread count, run the phase-1 local sorts in the caller's buffer, return it
if at most one thread remains; otherwise run the even number
numPasses = 2*ceil(depth/2) of merge passes, ping-ponging between the
caller's buffer and the scratch buffer.  The pass count is even, so the
authoritative data ends in the caller's buffer, which is returned. -/
def parallelSortBuf (c : α → α → Bool) (hw len req : ℕ)
    (buf swap0 : ℕ → α) : ℕ → α :=
  if effThreads hw len req ≤ 1 then phase1 c len (effThreads hw len req) buf
  else (sortPasses c len (effThreads hw len req)
    (numPasses (effThreads hw len req)) 0
    (phase1 c len (effThreads hw len req) buf) swap0).1

/-- buffer for the C1 witness: eight descending values, sorted with two
effective threads (hw = 2, req = 2, len = 256 gives effThreads = 2). -/
def c1buf : ℕ → ℕ := fun n => 256 - n

theorem SWO.asym {c : α → α → Bool} (h : SWO c) (a b : α) :
    c a b = true → c b a = false := by
  intro hab
  cases hba : c b a with
  | false => rfl
  | true => have := h.trans a b a hab hba; rw [h.irrefl] at this; cases this

/-- a < b and b ≤ d imply a < d (where x ≤ y is c y x = false). -/
theorem SWO.lt_of_lt_of_le {c : α → α → Bool} (h : SWO c) (a b d : α) :
    c a b = true → c d b = false → c a d = true := by
  intro hab hdb
  cases had : c a d with
  | true => rfl
  | false =>
    have := h.leTrans b d a hdb had
    rw [hab] at this; cases this

/-- a ≤ b and b < d imply a < d (where x ≤ y is c y x = false). -/
theorem SWO.lt_of_le_of_lt {c : α → α → Bool} (h : SWO c) (a b d : α) :
    c b a = false → c b d = true → c a d = true := by
  intro hba hbd
  cases had : c a d with
  | true => rfl
  | false =>
    have := h.leTrans d a b had hba
    rw [hbd] at this; cases this

-- ------------------------------------------------------------------
-- basic lemmas about llrZ / llrN
-- ------------------------------------------------------------------

theorem llrZ_intCast (n : ℤ) : llrZ (n : ℚ) = n := by
  unfold llrZ
  rw [Int.floor_eq_iff]
  constructor
  · norm_num
  · push_cast; norm_num

theorem llrZ_natCast (n : ℕ) : llrZ (n : ℚ) = n := by
  have := llrZ_intCast (n : ℤ)
  push_cast at this ⊢
  exact this

theorem llrN_natCast (n : ℕ) : llrN (n : ℚ) = n := by
  unfold llrN
  rw [llrZ_natCast]; simp

theorem llrZ_mono {p q : ℚ} (h : p ≤ q) : llrZ p ≤ llrZ q := by
  unfold llrZ
  exact Int.floor_le_floor (by linarith)

theorem llrZ_nonneg {q : ℚ} (h : 0 ≤ q) : 0 ≤ llrZ q := by
  unfold llrZ
  positivity

theorem llrN_mono {p q : ℚ} (h0 : 0 ≤ p) (h : p ≤ q) : llrN p ≤ llrN q := by
  unfold llrN
  exact Int.toNat_le_toNat (llrZ_mono h)

theorem llrZ_lt_iff {q : ℚ} {n : ℤ} : llrZ q < n ↔ q + 1 / 2 < n := by
  unfold llrZ
  rw [Int.floor_lt]

theorem le_llrZ_iff {q : ℚ} {n : ℤ} : n ≤ llrZ q ↔ (n : ℚ) ≤ q + 1 / 2 := by
  unfold llrZ
  rw [Int.le_floor]

/-- lower bound on the increment of llrZ: adding s advances the rounded value
by at least the floor of s. -/
theorem llrZ_add_ge (p s : ℚ) : llrZ p + Int.floor s ≤ llrZ (p + s) := by
  unfold llrZ
  rw [Int.le_floor]
  push_cast
  have h1 := Int.floor_le (p + 1 / 2)
  have h2 := Int.floor_le s
  linarith

/-- upper bound on the increment of llrZ. -/
theorem llrZ_add_le (p s : ℚ) : llrZ (p + s) ≤ llrZ p + Int.ceil s := by
  unfold llrZ
  have : p + s + 1 / 2 ≤ p + 1 / 2 + Int.ceil s := by
    have := Int.le_ceil s; linarith
  calc Int.floor (p + s + 1 / 2) ≤ Int.floor (p + 1 / 2 + Int.ceil s) :=
        Int.floor_le_floor this
    _ = Int.floor (p + 1 / 2) + Int.ceil s := Int.floor_add_int _ _

theorem llrN_le_of_le {q : ℚ} {n : ℕ} (h : q ≤ n) : llrN q ≤ n := by
  unfold llrN
  have : llrZ q ≤ (n : ℤ) := by
    unfold llrZ
    rw [Int.floor_le_iff]
    push_cast
    linarith
  omega

theorem le_llrN_of_le {q : ℚ} {n : ℕ} (h : (n : ℚ) ≤ q) : n ≤ llrN q := by
  unfold llrN
  have : (n : ℤ) ≤ llrZ q := le_llrZ_iff.2 (by push_cast; linarith)
  omega

-- ------------------------------------------------------------------
-- basic lemmas about sliceH / writeAt / rangeZ
-- ------------------------------------------------------------------

theorem sliceH_length (f : ℕ → α) (i j : ℕ) : (sliceH f i j).length = j - i := by
  simp [sliceH]

theorem sliceH_self (f : ℕ → α) (i : ℕ) : sliceH f i i = [] := by
  simp [sliceH]

theorem sliceH_empty (f : ℕ → α) {i j : ℕ} (h : j ≤ i) : sliceH f i j = [] := by
  simp [sliceH, Nat.sub_eq_zero_of_le h]

theorem getD_irrel : ∀ (xs : List α) (k : ℕ), k < xs.length →
    ∀ d1 d2, xs.getD k d1 = xs.getD k d2 := by
  intro xs
  induction xs with
  | nil => intro k h; simp at h
  | cons x t ih =>
    intro k h d1 d2
    cases k with
    | zero => rfl
    | succ m => simp only [List.getD_cons_succ]; exact ih m (by simpa using h) d1 d2

theorem getD_append_lt : ∀ (xs ys : List α) (k : ℕ), k < xs.length →
    ∀ d, (xs ++ ys).getD k d = xs.getD k d := by
  intro xs
  induction xs with
  | nil => intro ys k h; simp at h
  | cons x t ih =>
    intro ys k h d
    cases k with
    | zero => rfl
    | succ m =>
      simp only [List.cons_append, List.getD_cons_succ]
      exact ih ys m (by simpa using h) d

theorem getD_append_ge : ∀ (xs ys : List α) (k : ℕ), xs.length ≤ k →
    ∀ d, (xs ++ ys).getD k d = ys.getD (k - xs.length) d := by
  intro xs
  induction xs with
  | nil => intro ys k h d; simp
  | cons x t ih =>
    intro ys k h d
    cases k with
    | zero => simp at h
    | succ m =>
      simp only [List.cons_append, List.getD_cons_succ, List.length_cons]
      rw [ih ys m (by simpa using h) d]
      congr 1
      omega

theorem list_ext_getD : ∀ (xs ys : List α), xs.length = ys.length →
    (∀ k d, k < xs.length → xs.getD k d = ys.getD k d) → xs = ys := by
  intro xs
  induction xs with
  | nil =>
    intro ys hl _
    cases ys with
    | nil => rfl
    | cons y t => simp at hl
  | cons x t ih =>
    intro ys hl hg
    cases ys with
    | nil => simp at hl
    | cons y s =>
      have hx : x = y := hg 0 x (by simp)
      have ht : t = s := by
        apply ih s (by simpa using hl)
        intro k d hk
        have := hg (k + 1) d (by simpa using hk)
        simpa using this
      rw [hx, ht]

theorem sliceH_cons (f : ℕ → α) {i j : ℕ} (h : i < j) :
    sliceH f i j = f i :: sliceH f (i + 1) j := by
  unfold sliceH
  have hj : j - i = (j - (i + 1)) + 1 := by omega
  rw [hj, List.range_succ_eq_map, List.map_cons, List.map_map]
  congr 1
  apply List.map_congr_left
  intro k _
  simp only [Function.comp_apply]
  congr 1
  omega

theorem sliceH_append (f : ℕ → α) {i m j : ℕ} (h1 : i ≤ m) (h2 : m ≤ j) :
    sliceH f i j = sliceH f i m ++ sliceH f m j := by
  unfold sliceH
  have hj : j - i = (m - i) + (j - m) := by omega
  rw [hj, List.range_add, List.map_append]
  congr 1
  rw [List.map_map]
  apply List.map_congr_left
  intro k _
  simp [Function.comp_def]
  congr 1
  omega

theorem sliceH_congr {f g : ℕ → α} {i j : ℕ}
    (h : ∀ q, i ≤ q → q < j → f q = g q) : sliceH f i j = sliceH g i j := by
  unfold sliceH
  apply List.map_congr_left
  intro k hk
  simp only [List.mem_range] at hk
  exact h (i + k) (Nat.le_add_right _ _) (by omega)

theorem sliceH_get (f : ℕ → α) : ∀ (k i j : ℕ), k < j - i →
    ∀ d, (sliceH f i j).getD k d = f (i + k) := by
  intro k
  induction k with
  | zero =>
    intro i j h d
    rw [sliceH_cons f (by omega)]
    rfl
  | succ m ih =>
    intro i j h d
    rw [sliceH_cons f (by omega)]
    simp only [List.getD_cons_succ]
    rw [ih (i + 1) j (by omega) d]
    congr 1
    omega

theorem writeAt_lt {f : ℕ → α} {p : ℕ} {xs : List α} {q : ℕ} (h : q < p) :
    writeAt f p xs q = f q := by
  simp [writeAt]
  intro h1
  omega

theorem writeAt_ge {f : ℕ → α} {p : ℕ} {xs : List α} {q : ℕ}
    (h : p + xs.length ≤ q) : writeAt f p xs q = f q := by
  simp [writeAt]
  intro h1 h2
  omega

theorem writeAt_in {f : ℕ → α} {p : ℕ} {xs : List α} {q : ℕ} (h1 : p ≤ q)
    (h2 : q - p < xs.length) (d : α) : writeAt f p xs q = xs.getD (q - p) d := by
  simp only [writeAt, h1, h2, and_self, if_true]
  exact getD_irrel xs (q - p) h2 (f q) d

/-- reading back exactly the run that was written. -/
theorem sliceH_writeAt (f : ℕ → α) (p : ℕ) (xs : List α) :
    sliceH (writeAt f p xs) p (p + xs.length) = xs := by
  apply list_ext_getD
  · simp [sliceH_length]
  · intro k d hk
    rw [sliceH_length] at hk
    rw [sliceH_get _ _ _ _ (by omega), writeAt_in (Nat.le_add_right _ _) (by omega) d]
    congr 1
    omega

/-- two consecutive stores are one store of the concatenation. -/
theorem writeAt_writeAt (f : ℕ → α) (p : ℕ) (xs ys : List α) :
    writeAt (writeAt f p xs) (p + xs.length) ys = writeAt f p (xs ++ ys) := by
  funext q
  have hlen : (xs ++ ys).length = xs.length + ys.length := List.length_append xs ys
  by_cases h1 : q < p
  · rw [writeAt_lt (by omega), writeAt_lt h1, writeAt_lt h1]
  · by_cases h2 : q - p < xs.length
    · have e1 : writeAt (writeAt f p xs) (p + xs.length) ys q = (writeAt f p xs) q :=
        writeAt_lt (by omega)
      have e2 : writeAt f p xs q = xs.getD (q - p) (f q) :=
        writeAt_in (by omega) h2 (f q)
      have e3 : writeAt f p (xs ++ ys) q = (xs ++ ys).getD (q - p) (f q) :=
        writeAt_in (by omega) (by omega) (f q)
      rw [e1, e2, e3, getD_append_lt _ _ _ h2]
    · by_cases h3 : q - p < xs.length + ys.length
      · have e1 : writeAt (writeAt f p xs) (p + xs.length) ys q =
            ys.getD (q - (p + xs.length)) (f q) :=
          writeAt_in (by omega) (by omega) (f q)
        have e3 : writeAt f p (xs ++ ys) q = (xs ++ ys).getD (q - p) (f q) :=
          writeAt_in (by omega) (by omega) (f q)
        rw [e1, e3, getD_append_ge _ _ _ (by omega)]
        congr 1
        omega
      · have e1 : writeAt (writeAt f p xs) (p + xs.length) ys q = (writeAt f p xs) q :=
          writeAt_ge (by omega)
        have e2 : writeAt f p xs q = f q := writeAt_ge (by omega)
        have e3 : writeAt f p (xs ++ ys) q = f q := writeAt_ge (by omega)
        rw [e1, e2, e3]

theorem mergeSeqF_fuel (c : α → α → Bool) :
    ∀ (f g : ℕ) (as bs : List α), as.length + bs.length ≤ f →
      as.length + bs.length ≤ g → mergeSeqF c f as bs = mergeSeqF c g as bs := by
  intro f
  induction f with
  | zero =>
    intro g as bs hf _
    cases as with
    | cons a t => simp at hf
    | nil =>
      cases bs with
      | cons b t => simp at hf
      | nil => cases g <;> simp [mergeSeqF]
  | succ f ih =>
    intro g as bs hf hg
    cases as with
    | nil =>
      cases bs with
      | nil => cases g <;> simp [mergeSeqF]
      | cons b t =>
        cases g with
        | zero => simp at hg
        | succ g => rfl
    | cons a t =>
      cases bs with
      | nil =>
        cases g with
        | zero => simp at hg
        | succ g => rfl
      | cons b u =>
        cases g with
        | zero => simp at hg
        | succ g =>
          simp only [List.length_cons] at hf hg
          simp only [mergeSeqF]
          by_cases hc : c b a = true
          · simp only [hc, if_true]
            rw [ih g (a :: t) u (by simp; omega) (by simp; omega)]
          · have hc' : c b a = false := by revert hc; cases c b a <;> simp
            simp only [hc', Bool.false_eq_true, if_false]
            rw [ih g t (b :: u) (by simp; omega) (by simp; omega)]

theorem mergeSeq_nil_left (c : α → α → Bool) (bs : List α) :
    mergeSeq c [] bs = bs := by
  cases bs <;> simp [mergeSeq, mergeSeqF]

theorem mergeSeq_nil_right (c : α → α → Bool) (as : List α) :
    mergeSeq c as [] = as := by
  cases as <;> simp [mergeSeq, mergeSeqF]

theorem mergeSeq_cons_cons (c : α → α → Bool) (a b : α) (as bs : List α) :
    mergeSeq c (a :: as) (b :: bs) =
      if c b a = true then b :: mergeSeq c (a :: as) bs
      else a :: mergeSeq c as (b :: bs) := by
  have hL : (a :: as).length + (b :: bs).length = (as.length + bs.length + 1) + 1 := by
    simp
    omega
  unfold mergeSeq
  rw [hL]
  show (if c b a = true then b :: mergeSeqF c (as.length + bs.length + 1) (a :: as) bs
        else a :: mergeSeqF c (as.length + bs.length + 1) as (b :: bs)) = _
  cases hcb : c b a with
  | true =>
    simp only [hcb, if_true]
    congr 1
    exact mergeSeqF_fuel c (as.length + bs.length + 1) (as.length + 1 + bs.length)
      (a :: as) bs (by simp only [List.length_cons]; omega)
      (by simp only [List.length_cons]; omega)
  | false =>
    simp only [hcb, Bool.false_eq_true, if_false]
    rfl

theorem mergeSeq_perm (c : α → α → Bool) :
    ∀ as bs : List α, List.Perm (mergeSeq c as bs) (as ++ bs)
  | [], bs => by rw [mergeSeq_nil_left]; exact (List.nil_append bs) ▸ List.Perm.refl bs
  | a :: as, [] => by rw [mergeSeq_nil_right]; simp
  | a :: as, b :: bs => by
    rw [mergeSeq_cons_cons]
    by_cases h : c b a = true
    · simp only [h, if_true]
      have ih := mergeSeq_perm c (a :: as) bs
      have h1 : List.Perm (b :: mergeSeq c (a :: as) bs) (b :: (a :: as ++ bs)) :=
        List.Perm.cons b ih
      have h2 : List.Perm ((a :: as) ++ b :: bs) (b :: (a :: as ++ bs)) :=
        List.perm_middle
      exact h1.trans h2.symm
    · simp only [h, if_false]
      exact List.Perm.cons a (mergeSeq_perm c as (b :: bs))
termination_by as bs => as.length + bs.length

theorem mergeSeq_length (c : α → α → Bool) (as bs : List α) :
    (mergeSeq c as bs).length = as.length + bs.length := by
  have := (mergeSeq_perm c as bs).length_eq
  simpa using this

theorem mergeSeq_mem (c : α → α → Bool) (as bs : List α) (x : α) :
    x ∈ mergeSeq c as bs ↔ x ∈ as ∨ x ∈ bs := by
  rw [(mergeSeq_perm c as bs).mem_iff]
  simp

theorem mergeSeq_sorted {c : α → α → Bool} (h : SWO c) :
    ∀ as bs : List α, SortedLe c as → SortedLe c bs →
      SortedLe c (mergeSeq c as bs)
  | [], bs => by intro _ hbs; rw [mergeSeq_nil_left]; exact hbs
  | a :: as, [] => by intro has _; rw [mergeSeq_nil_right]; exact has
  | a :: as, b :: bs => by
    intro has hbs
    rw [mergeSeq_cons_cons]
    have has' := (List.pairwise_cons.1 has)
    have hbs' := (List.pairwise_cons.1 hbs)
    by_cases hc : c b a = true
    · simp only [hc, if_true]
      refine List.pairwise_cons.2 ⟨?_, ?_⟩
      · intro x hx
        rw [mergeSeq_mem] at hx
        rcases hx with hx | hx
        · rcases List.mem_cons.1 hx with rfl | hx
          · exact h.asym b x hc
          · exact h.asym b x (h.lt_of_lt_of_le b a x hc (has'.1 x hx))
        · exact hbs'.1 x hx
      · exact mergeSeq_sorted h (a :: as) bs has hbs'.2
    · simp only [hc, if_false]
      have hc' : c b a = false := by revert hc; cases c b a <;> simp
      refine List.pairwise_cons.2 ⟨?_, ?_⟩
      · intro x hx
        rw [mergeSeq_mem] at hx
        rcases hx with hx | hx
        · exact has'.1 x hx
        · rcases List.mem_cons.1 hx with rfl | hx
          · exact hc'
          · exact h.leTrans a b x hc' (hbs'.1 x hx)
      · exact mergeSeq_sorted h as (b :: bs) has'.2 hbs
termination_by as bs => as.length + bs.length

theorem stdSort_perm (c : α → α → Bool) (l : List α) :
    List.Perm (stdSort c l) l :=
  List.perm_insertionSort _ l

theorem stdSort_length (c : α → α → Bool) (l : List α) :
    (stdSort c l).length = l.length :=
  (stdSort_perm c l).length_eq

theorem stdSort_sorted {c : α → α → Bool} (h : SWO c) (l : List α) :
    SortedLe c (stdSort c l) := by
  haveI : IsTotal α (fun a b => c b a = false) := by
    constructor
    intro a b
    cases hab : c b a with
    | false => exact Or.inl rfl
    | true => exact Or.inr (h.asym b a hab)
  haveI : IsTrans α (fun a b => c b a = false) := by
    constructor
    intro a b d hab hbd
    exact h.leTrans a b d hab hbd
  exact List.sorted_insertionSort (fun a b => c b a = false) l

/-- two sorted lists that are permutations of each other agree element for
element, provided equivalent elements are equal (an antisymmetric
comparator). -/
theorem sorted_perm_eq {c : α → α → Bool}
    (hanti : ∀ a b : α, c a b = false → c b a = false → a = b)
    {l1 l2 : List α} (hp : List.Perm l1 l2) (h1 : SortedLe c l1)
    (h2 : SortedLe c l2) : l1 = l2 := by
  haveI : IsAntisymm α (fun a b => c b a = false) := by
    constructor
    intro a b hab hba
    exact (hanti b a hab hba).symm
  exact List.eq_of_perm_of_sorted hp h1 h2

theorem RangeSorted.mono {c : α → α → Bool} {src : ℕ → α} {lo hi lo' hi' : ℕ}
    (h : RangeSorted c src lo hi) (h1 : lo ≤ lo') (h2 : hi' ≤ hi) :
    RangeSorted c src lo' hi' := by
  intro i j hi1 hij hj1
  exact h i j (by omega) hij (by omega)

theorem sliceH_get_fin (f : ℕ → α) {i j : ℕ} (k : Fin (sliceH f i j).length) :
    (sliceH f i j).get k = f (i + k) := by
  have hk : (k : ℕ) < j - i := by
    have h0 := k.isLt
    have hl := sliceH_length f i j
    omega
  have h1 := List.getD_eq_get (sliceH f i j) (f i) k.isLt
  have h2 : (⟨(k : ℕ), k.isLt⟩ : Fin (sliceH f i j).length) = k := rfl
  rw [h2] at h1
  rw [← h1, sliceH_get f k i j hk (f i)]

theorem rangeSorted_iff_sortedLe {c : α → α → Bool} {src : ℕ → α} {lo hi : ℕ}
    (h : SWO c) : RangeSorted c src lo hi ↔ SortedLe c (sliceH src lo hi) := by
  constructor
  · intro hr
    rw [SortedLe, List.pairwise_iff_get]
    intro i j hij
    rw [sliceH_get_fin, sliceH_get_fin]
    have hj0 := j.isLt
    have hl := sliceH_length src lo hi
    have hij' : (i : ℕ) < (j : ℕ) := hij
    exact hr (lo + i) (lo + j) (by omega) (by omega) (by omega)
  · intro hs i j h1 h2 h3
    rcases Nat.eq_or_lt_of_le h2 with rfl | hij
    · exact h.irrefl (src i)
    · rw [SortedLe, List.pairwise_iff_get] at hs
      have hi' : i - lo < (sliceH src lo hi).length := by rw [sliceH_length]; omega
      have hj' : j - lo < (sliceH src lo hi).length := by rw [sliceH_length]; omega
      have hg := hs ⟨i - lo, hi'⟩ ⟨j - lo, hj'⟩ (by simp [Fin.lt_def]; omega)
      rw [sliceH_get_fin, sliceH_get_fin] at hg
      simp only at hg
      have ei : lo + (i - lo) = i := by omega
      have ej : lo + (j - lo) = j := by omega
      rw [ei, ej] at hg
      exact hg

theorem ffLoop_spec {c : α → α → Bool} (h : SWO c) (src : ℕ → α)
    (pEnd sEnd : ℕ) :
    ∀ fuel pBeg sBeg,
      pBeg ≤ pEnd + 1 → sBeg ≤ sEnd →
      (pEnd + 1 - pBeg) + (sEnd + 1 - sBeg) ≤ fuel →
      RangeSorted c src pBeg (pEnd + 1) →
      RangeSorted c src sBeg (sEnd + 1) →
      c (src sEnd) (src pEnd) = false →
      (ffLoop c src fuel pBeg pEnd sBeg).1
          ++ sliceH src (ffLoop c src fuel pBeg pEnd sBeg).2 (sEnd + 1)
        = mergeSeq c (sliceH src pBeg (pEnd + 1)) (sliceH src sBeg (sEnd + 1)) := by
  intro fuel
  induction fuel with
  | zero =>
    intro pBeg sBeg hp hs hf _ _ _
    omega
  | succ k ih =>
    intro pBeg sBeg hp hs hf hPS hSS hcap
    by_cases hpe : pBeg ≤ pEnd
    · by_cases hc : c (src sBeg) (src pBeg) = false
      · simp only [ffLoop, hpe, if_true, hc]
        rw [sliceH_cons src (show pBeg < pEnd + 1 by omega),
          sliceH_cons src (show sBeg < sEnd + 1 by omega),
          mergeSeq_cons_cons]
        rw [hc]
        simp only [Bool.false_eq_true, if_false, List.cons_append]
        rw [← sliceH_cons src (show sBeg < sEnd + 1 by omega)]
        congr 1
        exact ih (pBeg + 1) sBeg (by omega) hs (by omega)
          (hPS.mono (by omega) (by omega)) hSS hcap
      · have hc' : c (src sBeg) (src pBeg) = true := by
          revert hc; cases c (src sBeg) (src pBeg) <;> simp
        have hslt : sBeg < sEnd := by
          rcases Nat.eq_or_lt_of_le hs with rfl | hlt
          · exfalso
            have h1 : c (src pEnd) (src pBeg) = false :=
              hPS pBeg pEnd (by omega) hpe (by omega)
            have h2 : c (src sBeg) (src pBeg) = false :=
              h.leTrans (src pBeg) (src pEnd) (src sBeg) h1 hcap
            rw [hc'] at h2; cases h2
          · exact hlt
        simp only [ffLoop, hpe, if_true, hc', Bool.true_eq_false, if_false]
        rw [sliceH_cons src (show pBeg < pEnd + 1 by omega),
          sliceH_cons src (show sBeg < sEnd + 1 by omega),
          mergeSeq_cons_cons]
        rw [hc']
        simp only [if_true, List.cons_append]
        rw [← sliceH_cons src (show pBeg < pEnd + 1 by omega)]
        congr 1
        exact ih pBeg (sBeg + 1) hp (by omega) (by omega) hPS
          (hSS.mono (by omega) (by omega)) hcap
    · simp only [ffLoop, hpe, if_false]
      rw [sliceH_empty src (show pEnd + 1 ≤ pBeg by omega), mergeSeq_nil_left]
      simp

/-- mergeFF emits exactly the reference merge of the two slices; which slice
is preferred on ties is decided by the initial comparison of the two range
ends. -/
theorem mergeFFrun_eq {c : α → α → Bool} (h : SWO c) (src : ℕ → α)
    {aBeg aEnd bBeg bEnd : ℕ} (ha : aBeg ≤ aEnd) (hb : bBeg ≤ bEnd)
    (haS : RangeSorted c src aBeg (aEnd + 1))
    (hbS : RangeSorted c src bBeg (bEnd + 1)) :
    mergeFFrun c src aBeg aEnd bBeg bEnd =
      if c (src aEnd) (src bEnd) = true
      then mergeSeq c (sliceH src aBeg (aEnd + 1)) (sliceH src bBeg (bEnd + 1))
      else mergeSeq c (sliceH src bBeg (bEnd + 1)) (sliceH src aBeg (aEnd + 1)) := by
  by_cases hbr : c (src aEnd) (src bEnd) = true
  · simp only [mergeFFrun, hbr, if_true]
    exact ffLoop_spec h src aEnd bEnd _ aBeg bBeg (by omega) hb (by omega)
      haS hbS (h.asym _ _ hbr)
  · have hbr' : c (src aEnd) (src bEnd) = false := by
      revert hbr; cases c (src aEnd) (src bEnd) <;> simp
    simp only [mergeFFrun, hbr', Bool.false_eq_true, if_false]
    exact ffLoop_spec h src bEnd aEnd _ bBeg aBeg (by omega) ha (by omega)
      hbS haS hbr'

/-- C4: for every source buffer whose inclusive sub-ranges [aBeg,aEnd] and
[bBeg,bEnd] are each sorted under the strict-weak-order comparator, mergeFF
writes into the destination, starting at dBeg, a run of exactly
(aEnd-aBeg+1)+(bEnd-bBeg+1) elements that is sorted under the comparator and
is a permutation of the multiset union of the two input sub-ranges. -/
theorem C4_mergeFF_correct {c : α → α → Bool} (h : SWO c) (dst src : ℕ → α)
    {aBeg aEnd bBeg bEnd : ℕ} (dBeg : ℕ)
    (ha : aBeg ≤ aEnd) (hb : bBeg ≤ bEnd)
    (haS : RangeSorted c src aBeg (aEnd + 1))
    (hbS : RangeSorted c src bBeg (bEnd + 1)) :
    (mergeFFrun c src aBeg aEnd bBeg bEnd).length
        = (aEnd - aBeg + 1) + (bEnd - bBeg + 1)
    ∧ SortedLe c (mergeFFrun c src aBeg aEnd bBeg bEnd)
    ∧ List.Perm (mergeFFrun c src aBeg aEnd bBeg bEnd)
        (sliceH src aBeg (aEnd + 1) ++ sliceH src bBeg (bEnd + 1))
    ∧ mergeFF c dst src aBeg aEnd bBeg bEnd dBeg
        = writeAt dst dBeg (mergeFFrun c src aBeg aEnd bBeg bEnd) := by
  have hs1 : SortedLe c (sliceH src aBeg (aEnd + 1)) :=
    (rangeSorted_iff_sortedLe h).1 haS
  have hs2 : SortedLe c (sliceH src bBeg (bEnd + 1)) :=
    (rangeSorted_iff_sortedLe h).1 hbS
  have he := mergeFFrun_eq h src ha hb haS hbS
  have hperm : List.Perm (mergeFFrun c src aBeg aEnd bBeg bEnd)
      (sliceH src aBeg (aEnd + 1) ++ sliceH src bBeg (bEnd + 1)) := by
    rw [he]
    by_cases hbr : c (src aEnd) (src bEnd) = true
    · simp only [hbr, if_true]
      exact mergeSeq_perm c _ _
    · simp only [hbr, if_false]
      exact (mergeSeq_perm c _ _).trans (List.perm_append_comm)
  refine ⟨?_, ?_, hperm, rfl⟩
  · rw [hperm.length_eq]
    rw [List.length_append, sliceH_length, sliceH_length]
    omega
  · rw [he]
    by_cases hbr : c (src aEnd) (src bEnd) = true
    · simp only [hbr, if_true]
      exact mergeSeq_sorted h _ _ hs1 hs2
    · simp only [hbr, if_false]
      exact mergeSeq_sorted h _ _ hs2 hs1

theorem ffLoop_head (c : α → α → Bool) (src : ℕ → α)
    {fuel pBeg pEnd sBeg : ℕ} (hf : 1 ≤ fuel) (hp : pBeg ≤ pEnd) :
    (ffLoop c src fuel pBeg pEnd sBeg).1.head? =
      some (if c (src sBeg) (src pBeg) = false then src pBeg else src sBeg) := by
  obtain ⟨k, rfl⟩ : ∃ k, fuel = k + 1 := ⟨fuel - 1, by omega⟩
  by_cases hc : c (src sBeg) (src pBeg) = false
  · simp [ffLoop, hp, hc]
  · have hc' : c (src sBeg) (src pBeg) = true := by
      revert hc; cases c (src sBeg) (src pBeg) <;> simp
    simp [ffLoop, hp, hc', Bool.true_eq_false]

/-- C9: on a tie between the two ranges' current head elements, the branch of
mergeFF entered when compFunc(src[aEnd], src[bEnd]) holds copies the A head
first, and the other branch copies the B head first: the preference between
equal keys differs between the two loop directions. -/
theorem C9_mergeFF_tie {c : α → α → Bool} (src : ℕ → α)
    {aBeg aEnd bBeg bEnd : ℕ} (ha : aBeg ≤ aEnd) (hb : bBeg ≤ bEnd)
    (t1 : c (src aBeg) (src bBeg) = false)
    (t2 : c (src bBeg) (src aBeg) = false) :
    (c (src aEnd) (src bEnd) = true →
      (mergeFFrun c src aBeg aEnd bBeg bEnd).head? = some (src aBeg))
    ∧ (c (src aEnd) (src bEnd) = false →
      (mergeFFrun c src aBeg aEnd bBeg bEnd).head? = some (src bBeg)) := by
  constructor
  · intro hbr
    simp only [mergeFFrun, hbr, if_true]
    have hh := @ffLoop_head _ c src ((aEnd + 1 - aBeg) + (bEnd + 1 - bBeg))
      aBeg aEnd bBeg
      (show 1 ≤ (aEnd + 1 - aBeg) + (bEnd + 1 - bBeg) by omega) ha
    rw [t2, if_pos rfl] at hh
    cases hr1 : (ffLoop c src ((aEnd + 1 - aBeg) + (bEnd + 1 - bBeg)) aBeg aEnd bBeg).1 with
    | nil => rw [hr1] at hh; simp at hh
    | cons y t =>
      rw [hr1] at hh
      simp only [List.head?_cons, Option.some.injEq] at hh
      simp [hh]
  · intro hbr
    simp only [mergeFFrun, hbr, Bool.false_eq_true, if_false]
    have hh := @ffLoop_head _ c src ((aEnd + 1 - aBeg) + (bEnd + 1 - bBeg))
      bBeg bEnd aBeg
      (show 1 ≤ (aEnd + 1 - aBeg) + (bEnd + 1 - bBeg) by omega) hb
    rw [t1, if_pos rfl] at hh
    cases hr1 : (ffLoop c src ((aEnd + 1 - aBeg) + (bEnd + 1 - bBeg)) bBeg bEnd aBeg).1 with
    | nil => rw [hr1] at hh; simp at hh
    | cons y t =>
      rw [hr1] at hh
      simp only [List.head?_cons, Option.some.injEq] at hh
      simp [hh]

theorem swo_natLt : SWO natLt := by
  refine ⟨?_, ?_, ?_⟩
  · intro a; simp [natLt]
  · intro a b d hab hbd; simp only [natLt, decide_eq_true_eq] at *; omega
  · intro a b d hba hdb; simp only [natLt, decide_eq_false_iff_not] at *; omega

/-- C4 witness: merging [1,3,5,7] and [2,4,6,8]. -/
theorem C4_witness :
    (mergeFFrun natLt (fun i => [1,3,5,7,2,4,6,8].getD i 0) 0 3 4 7).length
        = (3 - 0 + 1) + (7 - 4 + 1)
    ∧ SortedLe natLt (mergeFFrun natLt (fun i => [1,3,5,7,2,4,6,8].getD i 0) 0 3 4 7)
    ∧ List.Perm (mergeFFrun natLt (fun i => [1,3,5,7,2,4,6,8].getD i 0) 0 3 4 7)
        (sliceH (fun i => [1,3,5,7,2,4,6,8].getD i 0) 0 (3 + 1)
          ++ sliceH (fun i => [1,3,5,7,2,4,6,8].getD i 0) 4 (7 + 1))
    ∧ mergeFF natLt (fun _ => 0) (fun i => [1,3,5,7,2,4,6,8].getD i 0) 0 3 4 7 0
        = writeAt (fun _ => 0) 0
            (mergeFFrun natLt (fun i => [1,3,5,7,2,4,6,8].getD i 0) 0 3 4 7) :=
  C4_mergeFF_correct swo_natLt (fun _ => 0) (fun i => [1,3,5,7,2,4,6,8].getD i 0) 0
    (by omega) (by omega)
    (by intro i j h1 h2 h3; interval_cases j <;> interval_cases i <;> decide)
    (by intro i j h1 h2 h3; interval_cases j <;> interval_cases i <;> decide)

/-- C9 witness: a tie 2/2 at the heads of [2,5] and [2,9]. -/
theorem C9_witness :
    (natLt ((fun i => [2,5,2,9].getD i 0) 1) ((fun i => [2,5,2,9].getD i 0) 3) = true →
      (mergeFFrun natLt (fun i => [2,5,2,9].getD i 0) 0 1 2 3).head?
        = some ((fun i => [2,5,2,9].getD i 0) 0))
    ∧ (natLt ((fun i => [2,5,2,9].getD i 0) 1) ((fun i => [2,5,2,9].getD i 0) 3) = false →
      (mergeFFrun natLt (fun i => [2,5,2,9].getD i 0) 0 1 2 3).head?
        = some ((fun i => [2,5,2,9].getD i 0) 2)) :=
  C9_mergeFF_tie (fun i => [2,5,2,9].getD i 0) (by omega) (by omega)
    (by decide) (by decide)

theorem llrZ_zero : llrZ 0 = 0 := by
  have := llrZ_natCast 0
  simpa using this

theorem pfBound_zero (s : ℚ) : pfBound s 0 = 0 := by
  unfold pfBound
  simpa using llrZ_zero

theorem pfLoop_closed (s : ℚ) :
    ∀ (k j : ℕ),
      pfLoop s k (pfBound s j) (((j : ℚ) + 1) * s) =
        ((List.range k).map (fun i => (pfBound s (j + i), pfBound s (j + i + 1))),
          pfBound s (j + k), ((j : ℚ) + (k : ℚ) + 1) * s) := by
  intro k
  induction k with
  | zero =>
    intro j
    simp [pfLoop]
  | succ k ih =>
    intro j
    have e1 : llrZ (((j : ℚ) + 1) * s) = pfBound s (j + 1) := by
      unfold pfBound
      push_cast
      ring_nf
    have e2 : ((j : ℚ) + 1) * s + s = (((j + 1 : ℕ) : ℚ) + 1) * s := by
      push_cast
      ring
    simp only [pfLoop]
    rw [e1, e2, ih (j + 1)]
    refine congrArg₂ _ ?_ ?_
    · rw [List.range_succ_eq_map, List.map_cons, List.map_map]
      refine congrArg₂ _ ?_ ?_
      · simp
      · apply List.map_congr_left
        intro i _
        simp only [Function.comp_apply]
        refine congrArg₂ _ ?_ ?_ <;> · congr 1; omega
    · refine congrArg₂ _ ?_ ?_
      · congr 1; omega
      · push_cast; ring

theorem pfSegs_eq (b e : ℤ) (ns : ℕ) (hn : pfN b e ≠ 0) (hns : 1 ≤ ns) :
    pfSegs b e ns = (List.range (pfM b e ns)).map
      (fun i => (pfBound (pfS b e ns) i, pfBound (pfS b e ns) (i + 1))) := by
  have hm : 1 ≤ pfM b e ns := by
    unfold pfM
    split <;> omega
  have hc := pfLoop_closed (pfS b e ns) (pfM b e ns - 1) 0
  rw [pfBound_zero] at hc
  have e0 : (((0 : ℕ) : ℚ) + 1) * pfS b e ns = pfS b e ns := by push_cast; ring
  rw [e0] at hc
  unfold pfSegs lastSegLo lastSegHi
  rw [if_neg hn, hc]
  simp only
  have e2 : llrZ ((((0 : ℕ) : ℚ) + ((pfM b e ns - 1 : ℕ) : ℚ) + 1) * pfS b e ns)
      = pfBound (pfS b e ns) (pfM b e ns) := by
    unfold pfBound
    congr 2
    push_cast [Nat.cast_sub hm]
    ring
  rw [e2]
  have e3 : pfM b e ns = (pfM b e ns - 1) + 1 := by omega
  conv_rhs => rw [e3]
  rw [List.range_succ, List.map_append]
  congr 1
  · apply List.map_congr_left
    intro i _
    simp
  · simp only [List.map_cons, List.map_nil]
    have e4 : (0 + (pfM b e ns - 1)) = pfM b e ns - 1 := by omega
    have e5 : pfM b e ns - 1 + 1 = pfM b e ns := by omega
    rw [e4, e5]

theorem rangeZ_length (b e : ℤ) : (rangeZ b e).length = (e - b).toNat := by
  simp [rangeZ]

theorem rangeZ_append {b m e : ℤ} (h1 : b ≤ m) (h2 : m ≤ e) :
    rangeZ b e = rangeZ b m ++ rangeZ m e := by
  unfold rangeZ
  have hsplit : (e - b).toNat = (m - b).toNat + (e - m).toNat := by omega
  rw [hsplit, List.range_add, List.map_append]
  congr 1
  rw [List.map_map]
  apply List.map_congr_left
  intro k _
  simp only [Function.comp_apply]
  push_cast
  omega

theorem rangeZ_mem {b e i : ℤ} : i ∈ rangeZ b e ↔ b ≤ i ∧ i < e := by
  unfold rangeZ
  rw [List.mem_map]
  constructor
  · rintro ⟨k, hk, rfl⟩
    rw [List.mem_range] at hk
    omega
  · intro ⟨h1, h2⟩
    refine ⟨(i - b).toNat, ?_, by omega⟩
    rw [List.mem_range]
    omega

theorem rangeZ_nodup (b e : ℤ) : (rangeZ b e).Nodup := by
  unfold rangeZ
  refine List.Nodup.map ?_ (List.nodup_range _)
  intro x y hxy
  have h2 : b + (x : ℤ) = b + (y : ℤ) := hxy
  omega

theorem rangeZ_count (b e i : ℤ) :
    (rangeZ b e).count i = if b ≤ i ∧ i < e then 1 else 0 := by
  split
  · next h =>
    exact List.count_eq_one_of_mem (rangeZ_nodup b e) (rangeZ_mem.2 h)
  · next h =>
    exact List.count_eq_zero_of_not_mem (fun hm => h (rangeZ_mem.1 hm))

theorem boundary_flatMap (B : ℕ → ℤ) (h0 : B 0 = 0)
    (hmono : ∀ i, B i ≤ B (i + 1)) :
    ∀ m, (List.range m).flatMap (fun i => rangeZ (B i) (B (i + 1)))
      = rangeZ 0 (B m) := by
  have hnn : ∀ i, 0 ≤ B i := by
    intro i
    induction i with
    | zero => omega
    | succ k ih => have := hmono k; omega
  intro m
  induction m with
  | zero => rw [h0]; simp [rangeZ]
  | succ m ih =>
    rw [List.range_succ, List.flatMap_append, ih]
    simp only [List.flatMap_cons, List.flatMap_nil, List.append_nil]
    exact (rangeZ_append (hnn m) (hmono m)).symm

theorem pfS_nonneg (b e : ℤ) (ns : ℕ) : 0 ≤ pfS b e ns := by
  unfold pfS
  positivity

theorem pfBound_mono {s : ℚ} (hs : 0 ≤ s) (i : ℕ) :
    pfBound s i ≤ pfBound s (i + 1) := by
  unfold pfBound
  apply llrZ_mono
  have : ((i : ℚ)) ≤ ((i + 1 : ℕ) : ℚ) := by push_cast; linarith
  exact mul_le_mul_of_nonneg_right this hs

theorem pfBound_final (b e : ℤ) (ns : ℕ) (hm : pfM b e ns ≠ 0) :
    pfBound (pfS b e ns) (pfM b e ns) = (pfN b e : ℤ) := by
  unfold pfBound pfS
  have hm' : ((pfM b e ns : ℕ) : ℚ) ≠ 0 := by
    simpa using hm
  have : ((pfM b e ns : ℕ) : ℚ) * ((pfN b e : ℚ) / ((pfM b e ns : ℕ) : ℚ))
      = (pfN b e : ℚ) := by
    field_simp
  rw [this, llrZ_natCast]

theorem rangeZ_shift (b z : ℤ) : (rangeZ 0 z).map (fun x => b + x) = rangeZ b (b + z) := by
  unfold rangeZ
  rw [List.map_map]
  have : (z - 0).toNat = (b + z - b).toNat := by omega
  rw [this]
  apply List.map_congr_left
  intro k _
  simp

theorem seg_len_lower {s : ℚ} (i : ℕ) :
    Int.floor s ≤ pfBound s (i + 1) - pfBound s i := by
  unfold pfBound
  have he : ((i + 1 : ℕ) : ℚ) * s = (i : ℚ) * s + s := by push_cast; ring
  rw [he]
  have := llrZ_add_ge ((i : ℚ) * s) s
  omega

theorem seg_len_upper {s : ℚ} (i : ℕ) :
    pfBound s (i + 1) - pfBound s i ≤ Int.ceil s := by
  unfold pfBound
  have he : ((i + 1 : ℕ) : ℚ) * s = (i : ℚ) * s + s := by push_cast; ring
  rw [he]
  have := llrZ_add_le ((i : ℚ) * s) s
  omega

theorem pfIndices_eq (b e : ℤ) (ns : ℕ) (hbe : b ≤ e) (hns : 1 ≤ ns) :
    pfIndices b e ns = rangeZ b e := by
  by_cases hn : pfN b e = 0
  · unfold pfIndices pfSegs
    rw [if_pos hn]
    have h0 : (e - b).toNat = 0 := hn
    simp [rangeZ, h0]
  · have hm : 1 ≤ pfM b e ns := by
      unfold pfM
      split <;> omega
    rw [pfIndices, pfSegs_eq b e ns hn hns]
    rw [List.flatMap_map]
    have hmono : ∀ i, pfBound (pfS b e ns) i ≤ pfBound (pfS b e ns) (i + 1) :=
      fun i => pfBound_mono (pfS_nonneg b e ns) i
    have hswap : (List.range (pfM b e ns)).flatMap
          (fun i => (rangeZ (pfBound (pfS b e ns) i) (pfBound (pfS b e ns) (i + 1))).map
            (fun x => b + x))
        = ((List.range (pfM b e ns)).flatMap
            (fun i => rangeZ (pfBound (pfS b e ns) i) (pfBound (pfS b e ns) (i + 1)))).map
              (fun x => b + x) :=
      (List.map_flatMap _ _ _).symm
    rw [hswap, boundary_flatMap _ (pfBound_zero _) hmono, pfBound_final b e ns (by omega),
      rangeZ_shift]
    have : b + ((pfN b e : ℕ) : ℤ) = e := by
      unfold pfN
      omega
    rw [this]

/-- C5: for every begin ≤ end and every segmentCount ≥ 1, parallelFor invokes
fn exactly once for each index in [begin, end) — the invocation list equals
the index range, so no index is skipped and none is visited twice; the
segment count is clamped to the range length when it exceeds it, and the
interpolated segment lengths differ from each other by at most one. -/
theorem C5_parallelFor (b e : ℤ) (ns : ℕ) (hbe : b ≤ e) (hns : 1 ≤ ns) :
    pfIndices b e ns = rangeZ b e
    ∧ (∀ i : ℤ, (pfIndices b e ns).count i = if b ≤ i ∧ i < e then 1 else 0)
    ∧ (pfSegs b e ns).length = min (pfN b e) ns
    ∧ (∀ p ∈ pfSegs b e ns, ∀ q ∈ pfSegs b e ns,
        p.2 - p.1 ≤ q.2 - q.1 + 1) := by
  have h1 := pfIndices_eq b e ns hbe hns
  refine ⟨h1, ?_, ?_, ?_⟩
  · intro i
    rw [h1, rangeZ_count]
  · by_cases hn : pfN b e = 0
    · unfold pfSegs
      rw [if_pos hn, hn]
      simp
    · rw [pfSegs_eq b e ns hn hns]
      rw [List.length_map, List.length_range]
      unfold pfM
      rcases Nat.lt_or_ge (pfN b e) ns with h | h
      · rw [if_pos h]; omega
      · rw [if_neg (by omega)]; omega
  · by_cases hn : pfN b e = 0
    · unfold pfSegs
      rw [if_pos hn]
      intro p hp
      simp at hp
    · rw [pfSegs_eq b e ns hn hns]
      intro p hp q hq
      rw [List.mem_map] at hp hq
      obtain ⟨i, _, rfl⟩ := hp
      obtain ⟨j, _, rfl⟩ := hq
      simp only
      have hu := seg_len_upper (s := pfS b e ns) i
      have hl := seg_len_lower (s := pfS b e ns) j
      have hc := Int.ceil_le_floor_add_one (pfS b e ns)
      omega

/-- C5 witness: forEach(0, 10, fn, 4). -/
theorem C5_witness :
    pfIndices 0 10 4 = rangeZ 0 10
    ∧ (∀ i : ℤ, (pfIndices 0 10 4).count i = if 0 ≤ i ∧ i < 10 then 1 else 0)
    ∧ (pfSegs 0 10 4).length = min (pfN 0 10) 4
    ∧ (∀ p ∈ pfSegs 0 10 4, ∀ q ∈ pfSegs 0 10 4,
        p.2 - p.1 ≤ q.2 - q.1 + 1) :=
  C5_parallelFor 0 10 4 (by omega) (by omega)

/-- C6 counterexample: with forEach(0, 2, fn, 2) and a callback that fails
at index 0 (which is executed by a launched worker, not the calling thread),
parallelFor returns normally: the failure is silently dropped, not re-raised
to the joining caller. -/
theorem C6_counterexample :
    ((fun i : ℤ => if i = 0 then Except.error 0 else Except.ok ()) 0
        = (Except.error 0 : Except ℕ Unit))
    ∧ (0 : ℤ) ∈ pfIndices 0 2 2
    ∧ parallelForE 0 2 (fun i : ℤ => if i = 0 then Except.error 0 else Except.ok ()) 2
        = Except.ok () := by
  refine ⟨rfl, ?_, ?_⟩
  · decide
  · rfl

/-- C6 amended: the join discards the launched workers' stored outcomes
(wait() without get()); the result of parallelFor is exactly the outcome of
the final segment, which runs on the calling thread, so the call returns
normally whenever that segment succeeds, regardless of any worker failure;
the async join parallelForFinish likewise always returns normally. -/
theorem C6_amended {ε : Type} (b e : ℤ) (fn : ℤ → Except ε Unit) (ns : ℕ)
    (hok : runSeg (fun i => fn (b + i)) (lastSegLo b e ns) (lastSegHi b e ns)
      = Except.ok ()) :
    parallelForE b e fn ns = Except.ok ()
    ∧ ∀ futures : List (Except ε Unit),
        parallelForFinishE futures = Except.ok () := by
  constructor
  · unfold parallelForE
    by_cases hn : pfN b e = 0
    · rw [if_pos hn]
    · rw [if_neg hn]
      simp only [hok]
  · intro futures
    rfl

/-- C6 amended witness: the same instance as the counterexample - the worker
running index 0 fails, the calling thread's segment succeeds, and the call
returns normally. -/
theorem C6_amended_witness :
    parallelForE 0 2 (fun i : ℤ => if i = 0 then Except.error 0 else Except.ok ()) 2
        = Except.ok ()
    ∧ ∀ futures : List (Except ℕ Unit),
        parallelForFinishE futures = Except.ok () :=
  C6_amended 0 2 (fun i : ℤ => if i = 0 then Except.error 0 else Except.ok ()) 2 rfl

theorem clog2F_spec : ∀ (f t : ℕ), t ≤ f + 1 → t ≤ 2 ^ clog2F f t := by
  intro f
  induction f with
  | zero =>
    intro t h
    simpa [clog2F] using h
  | succ f ih =>
    intro t h
    simp only [clog2F]
    split
    · next h1 => simpa using h1
    · next h1 =>
      have h2 : (t + 1) / 2 ≤ f + 1 := by omega
      have h3 := ih ((t + 1) / 2) h2
      have h4 : t ≤ 2 * ((t + 1) / 2) := by omega
      calc t ≤ 2 * ((t + 1) / 2) := h4
        _ ≤ 2 * 2 ^ clog2F f ((t + 1) / 2) := by omega
        _ = 2 ^ (clog2F f ((t + 1) / 2) + 1) := by rw [pow_succ]; ring

theorem clog2_spec (t : ℕ) : t ≤ 2 ^ clog2 t := clog2F_spec t t (by omega)

/-- the exact number of full-pair merge tasks of pass r: because delta is
len/t doubled r times, len / (2 delta) is exactly t / 2^(r+1). -/
theorem roundLoops_eq (len t r : ℕ) (hlen : 1 ≤ len) (ht : 1 ≤ t) :
    roundLoops len t r = t / 2 ^ (r + 1) := by
  unfold roundLoops roundDelta sortDelta
  have hlq : ((len : ℚ)) ≠ 0 := Nat.cast_ne_zero.2 (by omega)
  have htq : ((t : ℚ)) ≠ 0 := Nat.cast_ne_zero.2 (by omega)
  have h2r : ((2 : ℚ)) ^ r ≠ 0 := by positivity
  have hq : (len : ℚ) / (2 * ((len : ℚ) / (t : ℚ) * 2 ^ r))
      = (((t : ℤ)) : ℚ) / (((2 ^ (r + 1) : ℕ)) : ℚ) := by
    push_cast
    rw [pow_succ]
    field_simp
    ring
  rw [hq, Rat.floor_intCast_div_natCast]
  norm_cast

theorem iDivUp_le {a b m : ℕ} (hb : 0 < b) (h : a ≤ b * m) : iDivUp a b ≤ m := by
  unfold iDivUp
  split
  · next hmod =>
    have h1 : a / b ≤ (b * m) / b := Nat.div_le_div_right h
    rwa [Nat.mul_div_cancel_left m hb] at h1
  · next hmod =>
    have ha : a < b * m := by
      rcases Nat.lt_or_ge a (b * m) with h1 | h1
      · exact h1
      · have he : a = b * m := by omega
        subst he
        rw [Nat.mul_mod_right] at hmod
        exact absurd rfl hmod
    have h2 : a / b < m := by
      rw [Nat.div_lt_iff_lt_mul hb]
      calc a < b * m := ha
        _ = m * b := by ring
    omega

theorem iDivUp_le_self {a b : ℕ} (hb : 1 ≤ b) : iDivUp a b ≤ a := by
  unfold iDivUp
  split
  · next _ => exact Nat.div_le_self a b
  · next hmod =>
    have ha : 1 ≤ a := by
      rcases Nat.eq_zero_or_pos a with rfl | h
      · rw [Nat.zero_mod] at hmod
        exact absurd rfl hmod
      · exact h
    have hb2 : 2 ≤ b := by
      rcases Nat.lt_or_ge b 2 with h | h
      · have hb1 : b = 1 := by omega
        subst hb1
        rw [Nat.mod_one] at hmod
        exact absurd rfl hmod
      · exact h
    have := Nat.div_lt_self (by omega : 0 < a) (by omega : 1 < b)
    omega

/-- when the pass leaves a leftover segment, loops * 2^(r+1) falls short of
the thread count. -/
theorem leftover_lt (len t r : ℕ) (hlen : 1 ≤ len) (ht : 1 ≤ t)
    (hleft : roundHasLeftover len t r = true) :
    roundLoops len t r * 2 ^ (r + 1) < t := by
  have hL := roundLoops_eq len t r hlen ht
  have hle : roundLoops len t r * 2 ^ (r + 1) ≤ t := by
    rw [hL]
    exact Nat.div_mul_le_self t _
  rcases Nat.lt_or_ge (roundLoops len t r * 2 ^ (r + 1)) t with h | h
  · exact h
  · exfalso
    have heq : roundLoops len t r * 2 ^ (r + 1) = t := by omega
    have hP : llrZ (roundLoStart len t r) < (len : ℤ) := by
      unfold roundHasLeftover at hleft
      exact of_decide_eq_true hleft
    have htq : ((t : ℚ)) ≠ 0 := Nat.cast_ne_zero.2 (by omega)
    have hcast : ((roundLoops len t r : ℚ)) * 2 ^ (r + 1) = (t : ℚ) := by
      exact_mod_cast congrArg (fun x : ℕ => (x : ℚ)) heq
    have hst : roundLoStart len t r = (len : ℚ) := by
      unfold roundLoStart roundDelta sortDelta
      have he1 : (roundLoops len t r : ℚ) * 2 * ((len : ℚ) / (t : ℚ) * 2 ^ r)
          = ((roundLoops len t r : ℚ) * 2 ^ (r + 1)) * (len : ℚ) / (t : ℚ) := by
        rw [pow_succ]
        field_simp
        ring
      rw [he1, hcast]
      field_simp
    rw [hst, llrZ_natCast] at hP
    omega

/-- when the pass leaves a leftover segment, the leftover thread budget
threads - loops * iDivUp(threads, tasks) is positive. -/
theorem roundLo_pos (len t r : ℕ) (hlen : 1 ≤ len) (ht : 1 ≤ t)
    (hleft : roundHasLeftover len t r = true) :
    1 ≤ roundLo len t r := by
  have hL := roundLoops_eq len t r hlen ht
  have hlt := leftover_lt len t r hlen ht hleft
  have hm : 0 < 2 ^ (r + 1) := by positivity
  have htasks : roundTasks len t r = roundLoops len t r + 1 := by
    unfold roundTasks
    rw [hleft]
    simp
  have hq : roundPm len t r ≤ 2 ^ (r + 1) := by
    unfold roundPm
    rw [htasks]
    apply iDivUp_le (by omega)
    have h1 := Nat.div_add_mod t (2 ^ (r + 1))
    have h2 := Nat.mod_lt t hm
    have h3 : (roundLoops len t r + 1) * 2 ^ (r + 1)
        = 2 ^ (r + 1) * (t / 2 ^ (r + 1)) + 2 ^ (r + 1) := by
      rw [hL]
      ring
    omega
  have h5 : roundLoops len t r * roundPm len t r
      ≤ roundLoops len t r * 2 ^ (r + 1) :=
    Nat.mul_le_mul_left _ hq
  unfold roundLo
  have h6 : ((roundLoops len t r * roundPm len t r : ℕ) : ℤ)
      ≤ ((roundLoops len t r * 2 ^ (r + 1) : ℕ) : ℤ) := by exact_mod_cast h5
  have h7 : ((roundLoops len t r * 2 ^ (r + 1) : ℕ) : ℤ) < (t : ℤ) := by
    exact_mod_cast hlt
  push_cast at h6 h7 ⊢
  omega

/-- C10: in every merge pass of parallelSort's minimized-thread-launch loop,
whenever a leftover merge task exists (llround(loStart) < len), the leftover
thread budget loThreads = threads - loops * iDivUp(threads, tasks) is at
least 1, so the leftover parallelMerge always receives a positive worker
count. -/
theorem C10_leftover_budget (len t r : ℕ) (hlen : 1 ≤ len) (ht : 1 ≤ t)
    (hleft : roundHasLeftover len t r = true) :
    1 ≤ roundLo len t r :=
  roundLo_pos len t r hlen ht hleft

/-- C10 witness: len 384, three threads, first merge pass: one full pair and
a leftover, with leftover budget 1. -/
theorem C10_witness :
    1 ≤ roundLo 384 3 0 :=
  C10_leftover_budget 384 3 0 (by omega) (by omega) (by decide)

theorem effThreads_pos (hw len req : ℕ) (hhw : 1 ≤ hw) :
    1 ≤ effThreads hw len req := by
  unfold effThreads
  have h1 : 1 ≤ (if req = 0 then hw else req) := by split <;> omega
  have h2 : 1 ≤ max ((len + 64) / 128) 1 := le_max_right _ _
  exact le_min h1 h2

theorem effThreads_cap (hw len req : ℕ) (h2 : 2 ≤ effThreads hw len req) :
    128 * effThreads hw len req ≤ len + 64 := by
  have hmin : effThreads hw len req ≤ max ((len + 64) / 128) 1 := by
    unfold effThreads
    exact min_le_right _ _
  have hd : ((len + 64) / 128) * 128 ≤ len + 64 := Nat.div_mul_le_self _ _
  rcases le_or_lt ((len + 64) / 128) 1 with h | h
  · omega
  · have : effThreads hw len req ≤ (len + 64) / 128 := by omega
    omega

theorem localSegLen_ge (len t k : ℕ) (h2 : 2 ≤ t) (hcap : 128 * t ≤ len + 64) :
    96 ≤ localSegLen len t k := by
  have htq : (0 : ℚ) < (t : ℚ) := by
    have : (0 : ℕ) < t := by omega
    exact_mod_cast this
  have hδ : (96 : ℚ) ≤ sortDelta len t := by
    unfold sortDelta
    rw [le_div_iff htq]
    have h96 : 96 * t ≤ len := by omega
    exact_mod_cast h96
  have hδ0 : (0 : ℚ) ≤ sortDelta len t := le_trans (by norm_num) hδ
  have hfl : (96 : ℤ) ≤ Int.floor (sortDelta len t) := by
    rw [Int.le_floor]
    exact_mod_cast hδ
  unfold localSegLen localSegBound llrN
  have hcast : ((k + 1 : ℕ) : ℚ) * sortDelta len t
      = (k : ℚ) * sortDelta len t + sortDelta len t := by
    push_cast
    ring
  rw [hcast]
  have hstep := llrZ_add_ge ((k : ℚ) * sortDelta len t) (sortDelta len t)
  have hnn : 0 ≤ llrZ ((k : ℚ) * sortDelta len t) :=
    llrZ_nonneg (mul_nonneg (by positivity) hδ0)
  omega

/-- C7 counterexample: with len = 192 and requested threadCount 2 the
effective thread count is 2 ((192+64)/128 = 2) and local-sort segment 0
holds only 96 elements, fewer than the claimed minimum of 128. -/
theorem C7_counterexample :
    effThreads 8 192 2 = 2
    ∧ localSegLen 192 2 0 = 96
    ∧ ¬ (128 ≤ localSegLen 192 2 0) := by
  refine ⟨by decide, by decide, by decide⟩

/-- C7 amended: the effective thread count is at least 1 (threadCount 0
resolving to the hardware parallelism); whenever at least two threads remain
after the cap max_threads = max((len+64)/128, 1), the cap guarantees
128 * threads ≤ len + 64, and hence every worker's local-sort segment holds
at least 96 elements (not 128: the +64 rounding admits segments down to 96). -/
theorem C7_amended (hw len req : ℕ) (hhw : 1 ≤ hw) :
    1 ≤ effThreads hw len req
    ∧ (2 ≤ effThreads hw len req → 128 * effThreads hw len req ≤ len + 64)
    ∧ (2 ≤ effThreads hw len req →
        ∀ k, 96 ≤ localSegLen len (effThreads hw len req) k) :=
  ⟨effThreads_pos hw len req hhw,
   fun h2 => effThreads_cap hw len req h2,
   fun h2 k => localSegLen_ge len (effThreads hw len req) k h2
     (effThreads_cap hw len req h2)⟩

/-- C7 amended witness. -/
theorem C7_amended_witness :
    1 ≤ effThreads 8 1000 0
    ∧ (2 ≤ effThreads 8 1000 0 → 128 * effThreads 8 1000 0 ≤ 1000 + 64)
    ∧ (2 ≤ effThreads 8 1000 0 →
        ∀ k, 96 ≤ localSegLen 1000 (effThreads 8 1000 0) k) :=
  C7_amended 8 1000 0 (by omega)

/-- C8 counterexample: parallelSort enforces no 1024 cap.  Requesting 1025
threads on a 131200-element input leaves the effective thread count at 1025
((131200+64)/128 = 1025), and the late merge passes (loops = 0, a single
leftover task) invoke parallelMerge with all 1025 workers - one more than
the 1024-entry partition table mpi can hold. -/
theorem C8_counterexample :
    effThreads 1 131200 1025 = 1025
    ∧ (1025 : ℤ) ∈ mergeCallThreads 131200 (effThreads 1 131200 1025)
    ∧ ¬ ((1025 : ℤ) ≤ 1024) := by
  refine ⟨by decide, ?_, by decide⟩
  set_option maxRecDepth 10000 in decide

/-- C8 amended: parallelSort enforces no fixed 1024 cap before using the
partition table; what holds is that every parallelMerge invocation it issues
receives at most the effective thread count t of workers (pmThreads =
iDivUp(t, tasks) and loThreads = t - loops * pmThreads), so the 1024-entry
table mpi is kept in bounds exactly when t ≤ 1024 - a requested count above
1024 on a large enough input overruns it. -/
theorem C8_amended (len t : ℕ) :
    (∀ w ∈ mergeCallThreads len t, w ≤ (t : ℤ))
    ∧ (t ≤ 1024 → ∀ w ∈ mergeCallThreads len t, w ≤ 1024) := by
  have hmain : ∀ w ∈ mergeCallThreads len t, w ≤ (t : ℤ) := by
    intro w hw
    unfold mergeCallThreads at hw
    rw [List.mem_flatMap] at hw
    obtain ⟨r, _, hw⟩ := hw
    rw [List.mem_append] at hw
    rcases hw with hw | hw
    · rw [List.mem_replicate] at hw
      obtain ⟨hne, rfl⟩ := hw
      have htasks : 1 ≤ roundTasks len t r := by
        have h1 : roundLoops len t r ≤ roundTasks len t r :=
          Nat.le_add_right _ _
        omega
      have hpm : roundPm len t r ≤ t := by
        unfold roundPm
        exact iDivUp_le_self (by omega)
      exact_mod_cast hpm
    · by_cases hlo : roundHasLeftover len t r = true
      · rw [hlo] at hw
        simp only [if_true, List.mem_singleton] at hw
        subst hw
        unfold roundLo
        have h0 : 0 ≤ (roundLoops len t r : ℤ) * (roundPm len t r : ℤ) := by
          positivity
        omega
      · have hlo' : roundHasLeftover len t r = false := by
          revert hlo; cases roundHasLeftover len t r <;> simp
        rw [hlo'] at hw
        simp at hw
  refine ⟨hmain, fun hcap w hw => le_trans (hmain w hw) (by exact_mod_cast hcap)⟩

/-- the binary search loop, characterized: on a window [b, e) inside
[lo0, e0) on which the probe predicate is downward closed (from lo0), the
loop lands on the least index where the predicate fails, with the predicate
holding strictly below and failing from there to the end of the window. -/
theorem mpLoop_spec (c : α → α → Bool) (valA valB : ℕ → α) (diag : ℤ)
    (lo0 e0 : ℕ)
    (hdc : ∀ i j : ℕ, lo0 ≤ i → i ≤ j → j < e0 →
      c (valA j) (valB (diag - 1 - (j : ℕ)).toNat) = true →
      c (valA i) (valB (diag - 1 - (i : ℕ)).toNat) = true) :
    ∀ fuel b e : ℕ, lo0 ≤ b → b ≤ e → e ≤ e0 → e - b ≤ fuel →
      b ≤ mpLoop c valA valB diag fuel b e
      ∧ mpLoop c valA valB diag fuel b e ≤ e
      ∧ (∀ i, b ≤ i → i < mpLoop c valA valB diag fuel b e →
          c (valA i) (valB (diag - 1 - (i : ℕ)).toNat) = true)
      ∧ (∀ i, mpLoop c valA valB diag fuel b e ≤ i → i < e →
          c (valA i) (valB (diag - 1 - (i : ℕ)).toNat) = false) := by
  intro fuel
  induction fuel with
  | zero =>
    intro b e hlb hbe hee hf
    have hbe2 : b = e := by omega
    subst hbe2
    simp only [mpLoop]
    exact ⟨le_refl _, le_refl _, fun i h1 h2 => absurd h2 (by omega),
      fun i h1 h2 => absurd h2 (by omega)⟩
  | succ f ih =>
    intro b e hlb hbe hee hf
    by_cases hlt : b < e
    · by_cases hp : c (valA (b + (e - b) / 2))
        (valB (diag - 1 - (b + (e - b) / 2 : ℕ)).toNat) = true
      · have heq : mpLoop c valA valB diag (f + 1) b e
            = mpLoop c valA valB diag f (b + (e - b) / 2 + 1) e := by
          simp only [mpLoop, if_pos hlt, if_pos hp]
        obtain ⟨r1, r2, r3, r4⟩ := ih (b + (e - b) / 2 + 1) e
          (by omega) (by omega) hee (by omega)
        rw [heq]
        refine ⟨by omega, r2, ?_, r4⟩
        intro i hi1 hi2
        by_cases him : b + (e - b) / 2 + 1 ≤ i
        · exact r3 i him hi2
        · exact hdc i (b + (e - b) / 2) (by omega) (by omega) (by omega) hp
      · have heq : mpLoop c valA valB diag (f + 1) b e
            = mpLoop c valA valB diag f b (b + (e - b) / 2) := by
          simp only [mpLoop, if_pos hlt, if_neg hp]
        obtain ⟨r1, r2, r3, r4⟩ := ih b (b + (e - b) / 2)
          hlb (by omega) (by omega) (by omega)
        rw [heq]
        have hpf : c (valA (b + (e - b) / 2))
            (valB (diag - 1 - (b + (e - b) / 2 : ℕ)).toNat) = false := by
          revert hp
          cases c (valA (b + (e - b) / 2))
            (valB (diag - 1 - (b + (e - b) / 2 : ℕ)).toNat) <;> simp
        refine ⟨r1, by omega, r3, ?_⟩
        intro i hi1 hi2
        by_cases him : i < b + (e - b) / 2
        · exact r4 i hi1 him
        · by_cases hpi : c (valA i) (valB (diag - 1 - (i : ℕ)).toNat) = true
          · have hcon := hdc (b + (e - b) / 2) i (by omega) (by omega)
              (by omega) hpi
            rw [hcon] at hpf
            exact Bool.noConfusion hpf
          · revert hpi
            cases c (valA i) (valB (diag - 1 - (i : ℕ)).toNat) <;> simp
    · have hbe2 : b = e := by omega
      subst hbe2
      simp only [mpLoop, if_neg hlt]
      exact ⟨le_refl _, le_refl _, fun i h1 h2 => absurd h2 (by omega),
        fun i h1 h2 => absurd h2 (by omega)⟩

theorem pm_aCount {aBeg aEnd : ℕ} (ha : aBeg ≤ aEnd) :
    pmCount aBeg aEnd = ((aEnd + 1 - aBeg : ℕ) : ℤ) := by
  unfold pmCount; omega

theorem pm_bCount {bBeg bEnd : ℕ} (hb : bBeg ≤ bEnd + 1) :
    pmCount bBeg bEnd = ((bEnd + 1 - bBeg : ℕ) : ℤ) := by
  unfold pmCount; omega

theorem pmSpacing_eq {aBeg aEnd bBeg bEnd threads : ℕ}
    (ha : aBeg ≤ aEnd) (hb : bBeg ≤ bEnd + 1) :
    pmSpacing aBeg aEnd bBeg bEnd threads
      = (((aEnd + 1 - aBeg) + (bEnd + 1 - bBeg) : ℕ) : ℚ) / (threads : ℚ) := by
  unfold pmSpacing
  rw [pm_aCount ha, pm_bCount hb]
  push_cast
  ring_nf

theorem pmSpacing_nonneg {aBeg aEnd bBeg bEnd threads : ℕ}
    (ha : aBeg ≤ aEnd) (hb : bBeg ≤ bEnd + 1) :
    0 ≤ pmSpacing aBeg aEnd bBeg bEnd threads := by
  rw [pmSpacing_eq ha hb]
  positivity

theorem pmDiag_nonneg {aBeg aEnd bBeg bEnd threads k : ℕ}
    (ha : aBeg ≤ aEnd) (hb : bBeg ≤ bEnd + 1) :
    0 ≤ pmDiag aBeg aEnd bBeg bEnd threads k := by
  unfold pmDiag
  exact llrZ_nonneg (mul_nonneg (by positivity) (pmSpacing_nonneg ha hb))

theorem pmG_cast {aBeg aEnd bBeg bEnd threads k : ℕ}
    (ha : aBeg ≤ aEnd) (hb : bBeg ≤ bEnd + 1) :
    ((pmG aBeg aEnd bBeg bEnd threads k : ℕ) : ℤ)
      = pmDiag aBeg aEnd bBeg bEnd threads k := by
  unfold pmG llrN pmDiag
  exact Int.toNat_of_nonneg (pmDiag_nonneg ha hb)

theorem pmDiag_zero (aBeg aEnd bBeg bEnd threads : ℕ) :
    pmDiag aBeg aEnd bBeg bEnd threads 0 = 0 := by
  unfold pmDiag
  norm_num [llrZ_zero]

theorem pmG_zero (aBeg aEnd bBeg bEnd threads : ℕ) :
    pmG aBeg aEnd bBeg bEnd threads 0 = 0 := by
  unfold pmG llrN
  norm_num [llrZ_zero]

theorem pmDiag_mono {aBeg aEnd bBeg bEnd threads : ℕ}
    (ha : aBeg ≤ aEnd) (hb : bBeg ≤ bEnd + 1) {k k' : ℕ} (h : k ≤ k') :
    pmDiag aBeg aEnd bBeg bEnd threads k ≤ pmDiag aBeg aEnd bBeg bEnd threads k' := by
  unfold pmDiag
  exact llrZ_mono (by
    have hs := @pmSpacing_nonneg aBeg aEnd bBeg bEnd threads ha hb
    have hk : (k : ℚ) ≤ (k' : ℚ) := by exact_mod_cast h
    exact mul_le_mul_of_nonneg_right hk hs)

theorem pmG_mono {aBeg aEnd bBeg bEnd threads : ℕ}
    (ha : aBeg ≤ aEnd) (hb : bBeg ≤ bEnd + 1) {k k' : ℕ} (h : k ≤ k') :
    pmG aBeg aEnd bBeg bEnd threads k ≤ pmG aBeg aEnd bBeg bEnd threads k' := by
  have h1 := @pmG_cast aBeg aEnd bBeg bEnd threads k ha hb
  have h2 := @pmG_cast aBeg aEnd bBeg bEnd threads k' ha hb
  have h3 := @pmDiag_mono aBeg aEnd bBeg bEnd threads ha hb k k' h
  omega

theorem pmDiag_total {aBeg aEnd bBeg bEnd threads : ℕ}
    (ha : aBeg ≤ aEnd) (hb : bBeg ≤ bEnd + 1) (hth : 1 ≤ threads) :
    pmDiag aBeg aEnd bBeg bEnd threads threads
      = (((aEnd + 1 - aBeg) + (bEnd + 1 - bBeg) : ℕ) : ℤ) := by
  unfold pmDiag
  rw [pmSpacing_eq ha hb]
  have hth0 : (threads : ℚ) ≠ 0 := by
    have : (1 : ℚ) ≤ (threads : ℚ) := by exact_mod_cast hth
    intro hcon
    rw [hcon] at this
    norm_num at this
  rw [mul_div_cancel₀ _ hth0]
  exact llrZ_natCast _

theorem pmG_total {aBeg aEnd bBeg bEnd threads : ℕ}
    (ha : aBeg ≤ aEnd) (hb : bBeg ≤ bEnd + 1) (hth : 1 ≤ threads) :
    pmG aBeg aEnd bBeg bEnd threads threads
      = (aEnd + 1 - aBeg) + (bEnd + 1 - bBeg) := by
  have h1 := @pmG_cast aBeg aEnd bBeg bEnd threads threads ha hb
  have h2 := pmDiag_total ha hb hth
  omega

theorem pmDiag_le_total {aBeg aEnd bBeg bEnd threads : ℕ}
    (ha : aBeg ≤ aEnd) (hb : bBeg ≤ bEnd + 1) (hth : 1 ≤ threads)
    {k : ℕ} (hk : k ≤ threads) :
    pmDiag aBeg aEnd bBeg bEnd threads k
      ≤ (((aEnd + 1 - aBeg) + (bEnd + 1 - bBeg) : ℕ) : ℤ) := by
  rw [← pmDiag_total ha hb hth]
  exact pmDiag_mono ha hb hk

theorem pmMpi_zero {c : α → α → Bool} {src : ℕ → α}
    {aBeg aEnd bBeg bEnd threads : ℕ} (hth : 1 ≤ threads) :
    pmMpi c src aBeg aEnd bBeg bEnd threads 0 = 0 := by
  unfold pmMpi
  rw [if_neg (by omega), if_pos rfl]

theorem pmMpi_last {c : α → α → Bool} {src : ℕ → α}
    {aBeg aEnd bBeg bEnd threads : ℕ} (ha : aBeg ≤ aEnd) :
    pmMpi c src aBeg aEnd bBeg bEnd threads threads = aEnd + 1 - aBeg := by
  unfold pmMpi
  rw [if_pos rfl, pm_aCount ha]
  exact Int.toNat_natCast _

/-- characterization of an interior merge-path table entry: mpi[k] lies in
the search window, the probe predicate (A element strictly below the mirrored
B element on diagonal k) holds strictly below mpi[k] and fails from mpi[k] to
the window's top. -/
theorem pmMpi_char {c : α → α → Bool} {src : ℕ → α}
    {aBeg aEnd bBeg bEnd threads : ℕ}
    (H : PMCtx c src aBeg aEnd bBeg bEnd threads)
    {k : ℕ} (h1 : 1 ≤ k) (h2 : k < threads) :
    pmDiag aBeg aEnd bBeg bEnd threads k - ((bEnd + 1 - bBeg : ℕ) : ℤ)
        ≤ (pmMpi c src aBeg aEnd bBeg bEnd threads k : ℤ)
    ∧ (pmMpi c src aBeg aEnd bBeg bEnd threads k : ℤ)
        ≤ pmDiag aBeg aEnd bBeg bEnd threads k
    ∧ pmMpi c src aBeg aEnd bBeg bEnd threads k ≤ aEnd + 1 - aBeg
    ∧ (∀ i : ℕ,
        pmDiag aBeg aEnd bBeg bEnd threads k - ((bEnd + 1 - bBeg : ℕ) : ℤ) ≤ (i : ℤ) →
        i < pmMpi c src aBeg aEnd bBeg bEnd threads k →
        c (src (aBeg + i))
          (src (bBeg + (pmDiag aBeg aEnd bBeg bEnd threads k - 1 - (i : ℕ)).toNat)) = true)
    ∧ (∀ i : ℕ, pmMpi c src aBeg aEnd bBeg bEnd threads k ≤ i →
        (i : ℤ) < min (pmDiag aBeg aEnd bBeg bEnd threads k) ((aEnd + 1 - aBeg : ℕ) : ℤ) →
        c (src (aBeg + i))
          (src (bBeg + (pmDiag aBeg aEnd bBeg bEnd threads k - 1 - (i : ℕ)).toNat)) = false) := by
  obtain ⟨swo, hth, ha, hb, haS, hbS⟩ := H
  have hd0 : 0 ≤ pmDiag aBeg aEnd bBeg bEnd threads k := pmDiag_nonneg ha hb
  have hdT : pmDiag aBeg aEnd bBeg bEnd threads k
      ≤ (((aEnd + 1 - aBeg) + (bEnd + 1 - bBeg) : ℕ) : ℤ) :=
    pmDiag_le_total ha hb hth (le_of_lt h2)
  have haN : 1 ≤ aEnd + 1 - aBeg := by omega
  set d := pmDiag aBeg aEnd bBeg bEnd threads k with hdd
  set L := (max 0 (d - ((bEnd + 1 - bBeg : ℕ) : ℤ))).toNat with hL
  set Hi := (min d ((aEnd + 1 - aBeg : ℕ) : ℤ)).toNat with hHi
  have hM2 : pmMpi c src aBeg aEnd bBeg bEnd threads k
      = mpLoop c (fun x => src (aBeg + x)) (fun x => src (bBeg + x)) d
          (Hi - L) L Hi := by
    unfold pmMpi
    rw [if_neg (by omega), if_neg (by omega)]
    unfold mergePath
    rw [pm_aCount ha, pm_bCount hb]
    rfl
  have hLHi : L ≤ Hi := by omega
  have hdc : ∀ i j : ℕ, L ≤ i → i ≤ j → j < Hi →
      c (src (aBeg + j)) (src (bBeg + (d - 1 - (j : ℕ)).toNat)) = true →
      c (src (aBeg + i)) (src (bBeg + (d - 1 - (i : ℕ)).toNat)) = true := by
    intro i j hLi hij hjHi hPj
    have le1 : c (src (aBeg + j)) (src (aBeg + i)) = false :=
      haS (aBeg + i) (aBeg + j) (by omega) (by omega) (by omega)
    have le2 : c (src (bBeg + (d - 1 - (i : ℕ)).toNat))
        (src (bBeg + (d - 1 - (j : ℕ)).toNat)) = false :=
      hbS (bBeg + (d - 1 - (j : ℕ)).toNat) (bBeg + (d - 1 - (i : ℕ)).toNat)
        (by omega) (by omega) (by omega)
    have s1 : c (src (aBeg + i)) (src (bBeg + (d - 1 - (j : ℕ)).toNat)) = true :=
      swo.lt_of_le_of_lt _ _ _ le1 hPj
    exact swo.lt_of_lt_of_le _ _ _ s1 le2
  obtain ⟨r1, r2, r3, r4⟩ := mpLoop_spec c (fun x => src (aBeg + x))
    (fun x => src (bBeg + x)) d L Hi hdc (Hi - L) L Hi (le_refl L) hLHi
    (le_refl Hi) (le_refl _)
  rw [← hM2] at r1 r2 r3 r4
  refine ⟨by omega, by omega, by omega, ?_, ?_⟩
  · intro i h4a h4b
    exact r3 i (by omega) h4b
  · intro i h5a h5b
    exact r4 i h5a (by omega)

theorem pmMpi_le_aN {c : α → α → Bool} {src : ℕ → α}
    {aBeg aEnd bBeg bEnd threads : ℕ}
    (H : PMCtx c src aBeg aEnd bBeg bEnd threads)
    {k : ℕ} (hk : k ≤ threads) :
    pmMpi c src aBeg aEnd bBeg bEnd threads k ≤ aEnd + 1 - aBeg := by
  rcases Nat.eq_or_lt_of_le hk with rfl | hk2
  · rw [pmMpi_last H.ha]
  · rcases Nat.eq_zero_or_pos k with rfl | hk1
    · rw [pmMpi_zero H.hth]; omega
    · exact (pmMpi_char H hk1 hk2).2.2.1

theorem pmMpi_le_diag {c : α → α → Bool} {src : ℕ → α}
    {aBeg aEnd bBeg bEnd threads : ℕ}
    (H : PMCtx c src aBeg aEnd bBeg bEnd threads)
    {k : ℕ} (hk : k ≤ threads) :
    (pmMpi c src aBeg aEnd bBeg bEnd threads k : ℤ)
      ≤ pmDiag aBeg aEnd bBeg bEnd threads k := by
  rcases Nat.eq_or_lt_of_le hk with rfl | hk2
  · rw [pmMpi_last H.ha, pmDiag_total H.ha H.hb H.hth]
    omega
  · rcases Nat.eq_zero_or_pos k with rfl | hk1
    · rw [pmMpi_zero H.hth, pmDiag_zero]
      omega
    · exact (pmMpi_char H hk1 hk2).2.1

theorem pmMpi_ge_diag_sub {c : α → α → Bool} {src : ℕ → α}
    {aBeg aEnd bBeg bEnd threads : ℕ}
    (H : PMCtx c src aBeg aEnd bBeg bEnd threads)
    {k : ℕ} (hk : k ≤ threads) :
    pmDiag aBeg aEnd bBeg bEnd threads k - ((bEnd + 1 - bBeg : ℕ) : ℤ)
      ≤ (pmMpi c src aBeg aEnd bBeg bEnd threads k : ℤ) := by
  rcases Nat.eq_or_lt_of_le hk with rfl | hk2
  · rw [pmMpi_last H.ha, pmDiag_total H.ha H.hb H.hth]
    omega
  · rcases Nat.eq_zero_or_pos k with rfl | hk1
    · rw [pmMpi_zero H.hth, pmDiag_zero]
      omega
    · exact (pmMpi_char H hk1 hk2).1

theorem pmMpi_le_pmG {c : α → α → Bool} {src : ℕ → α}
    {aBeg aEnd bBeg bEnd threads : ℕ}
    (H : PMCtx c src aBeg aEnd bBeg bEnd threads)
    {k : ℕ} (hk : k ≤ threads) :
    pmMpi c src aBeg aEnd bBeg bEnd threads k
      ≤ pmG aBeg aEnd bBeg bEnd threads k := by
  have h1 := pmMpi_le_diag H hk
  have h2 := @pmG_cast aBeg aEnd bBeg bEnd threads k H.ha H.hb
  omega

theorem pmBC_cast {c : α → α → Bool} {src : ℕ → α}
    {aBeg aEnd bBeg bEnd threads : ℕ}
    (H : PMCtx c src aBeg aEnd bBeg bEnd threads)
    {k : ℕ} (hk : k ≤ threads) :
    ((pmBC c src aBeg aEnd bBeg bEnd threads k : ℕ) : ℤ)
      = pmDiag aBeg aEnd bBeg bEnd threads k
        - (pmMpi c src aBeg aEnd bBeg bEnd threads k : ℤ) := by
  have h1 := pmMpi_le_pmG H hk
  have h2 := @pmG_cast aBeg aEnd bBeg bEnd threads k H.ha H.hb
  unfold pmBC
  omega

theorem pmBC_le {c : α → α → Bool} {src : ℕ → α}
    {aBeg aEnd bBeg bEnd threads : ℕ}
    (H : PMCtx c src aBeg aEnd bBeg bEnd threads)
    {k : ℕ} (hk : k ≤ threads) :
    pmBC c src aBeg aEnd bBeg bEnd threads k ≤ bEnd + 1 - bBeg := by
  have h1 := pmBC_cast H hk
  have h2 := pmMpi_ge_diag_sub H hk
  omega

theorem pmBC_zero {c : α → α → Bool} {src : ℕ → α}
    {aBeg aEnd bBeg bEnd threads : ℕ} :
    pmBC c src aBeg aEnd bBeg bEnd threads 0 = 0 := by
  unfold pmBC
  rw [pmG_zero]
  omega

theorem pmBC_last {c : α → α → Bool} {src : ℕ → α}
    {aBeg aEnd bBeg bEnd threads : ℕ}
    (H : PMCtx c src aBeg aEnd bBeg bEnd threads) :
    pmBC c src aBeg aEnd bBeg bEnd threads threads = bEnd + 1 - bBeg := by
  unfold pmBC
  rw [pmG_total H.ha H.hb H.hth, pmMpi_last H.ha]
  omega

/-- the merge-path table is monotonic non-decreasing between consecutive
entries. -/
theorem pmMpi_mono_succ {c : α → α → Bool} {src : ℕ → α}
    {aBeg aEnd bBeg bEnd threads : ℕ}
    (H : PMCtx c src aBeg aEnd bBeg bEnd threads)
    {k : ℕ} (hk : k < threads) :
    pmMpi c src aBeg aEnd bBeg bEnd threads k
      ≤ pmMpi c src aBeg aEnd bBeg bEnd threads (k + 1) := by
  rcases Nat.eq_zero_or_pos k with rfl | hk1
  · rw [pmMpi_zero H.hth]
    omega
  rcases Nat.lt_or_ge (k + 1) threads with hk2 | hge
  swap
  · rw [show k + 1 = threads from by omega, pmMpi_last H.ha]
    exact pmMpi_le_aN H (le_of_lt hk)
  · by_contra hcon
    have hlt : pmMpi c src aBeg aEnd bBeg bEnd threads (k + 1)
        < pmMpi c src aBeg aEnd bBeg bEnd threads k := by omega
    obtain ⟨c1k, c2k, c3k, c4k, c5k⟩ := pmMpi_char H hk1 hk
    obtain ⟨c1s, c2s, c3s, c4s, c5s⟩ := pmMpi_char H (by omega) hk2
    have hdm : pmDiag aBeg aEnd bBeg bEnd threads k
        ≤ pmDiag aBeg aEnd bBeg bEnd threads (k + 1) :=
      pmDiag_mono H.ha H.hb (by omega)
    by_cases hcase : ((pmMpi c src aBeg aEnd bBeg bEnd threads (k + 1) : ℕ) : ℤ)
        < min (pmDiag aBeg aEnd bBeg bEnd threads (k + 1))
            ((aEnd + 1 - aBeg : ℕ) : ℤ)
    · have hnP := c5s (pmMpi c src aBeg aEnd bBeg bEnd threads (k + 1))
        (le_refl _) hcase
      have hP := c4k (pmMpi c src aBeg aEnd bBeg bEnd threads (k + 1))
        (by omega) hlt
      have le2 : c (src (bBeg + (pmDiag aBeg aEnd bBeg bEnd threads (k + 1) - 1
            - (pmMpi c src aBeg aEnd bBeg bEnd threads (k + 1) : ℕ)).toNat))
          (src (bBeg + (pmDiag aBeg aEnd bBeg bEnd threads k - 1
            - (pmMpi c src aBeg aEnd bBeg bEnd threads (k + 1) : ℕ)).toNat)) = false :=
      H.hbS _ _ (by omega) (by omega) (by omega)
      have hPs := H.swo.lt_of_lt_of_le _ _ _ hP le2
      rw [hPs] at hnP
      exact Bool.noConfusion hnP
    · omega

/-- the merge-path table is monotonic non-decreasing. -/
theorem pmMpi_mono {c : α → α → Bool} {src : ℕ → α}
    {aBeg aEnd bBeg bEnd threads : ℕ}
    (H : PMCtx c src aBeg aEnd bBeg bEnd threads)
    {k k' : ℕ} (hkk : k ≤ k') (hk' : k' ≤ threads) :
    pmMpi c src aBeg aEnd bBeg bEnd threads k
      ≤ pmMpi c src aBeg aEnd bBeg bEnd threads k' := by
  induction k' with
  | zero =>
    have : k = 0 := by omega
    subst this
    exact le_refl _
  | succ m ih =>
    rcases Nat.eq_or_lt_of_le hkk with heq | hlt
    · rw [heq]
    · exact le_trans (ih (by omega) (by omega)) (pmMpi_mono_succ H (by omega))

/-- crossing inequality of consecutive table entries: the A-consumption
cannot grow faster than the output grid, so the implied B slices are also
non-empty-or-forward (grid_k - mpi[k] is monotonic in k). -/
theorem pmMpi_pmG_cross {c : α → α → Bool} {src : ℕ → α}
    {aBeg aEnd bBeg bEnd threads : ℕ}
    (H : PMCtx c src aBeg aEnd bBeg bEnd threads)
    {k : ℕ} (hk : k < threads) :
    pmMpi c src aBeg aEnd bBeg bEnd threads (k + 1)
        + pmG aBeg aEnd bBeg bEnd threads k
      ≤ pmMpi c src aBeg aEnd bBeg bEnd threads k
        + pmG aBeg aEnd bBeg bEnd threads (k + 1) := by
  rcases Nat.eq_zero_or_pos k with rfl | hk1
  · rw [pmMpi_zero H.hth, pmG_zero]
    have := pmMpi_le_pmG H (k := 0 + 1) hk
    omega
  rcases Nat.lt_or_ge (k + 1) threads with hk2 | hge
  swap
  · have h1 := pmBC_le H (le_of_lt hk)
    have h2 := pmMpi_le_pmG H (le_of_lt hk)
    unfold pmBC at h1
    rw [show k + 1 = threads from by omega, pmMpi_last H.ha,
      pmG_total H.ha H.hb H.hth]
    omega
  · by_contra hcon
    obtain ⟨c1k, c2k, c3k, c4k, c5k⟩ := pmMpi_char H hk1 hk
    obtain ⟨c1s, c2s, c3s, c4s, c5s⟩ := pmMpi_char H (by omega) hk2
    have hdm : pmDiag aBeg aEnd bBeg bEnd threads k
        ≤ pmDiag aBeg aEnd bBeg bEnd threads (k + 1) :=
      pmDiag_mono H.ha H.hb (by omega)
    have hgk := @pmG_cast aBeg aEnd bBeg bEnd threads k H.ha H.hb
    have hgs := @pmG_cast aBeg aEnd bBeg bEnd threads (k + 1) H.ha H.hb
    have hGm : pmG aBeg aEnd bBeg bEnd threads k
        ≤ pmG aBeg aEnd bBeg bEnd threads (k + 1) := pmG_mono H.ha H.hb (by omega)
    have hm_lt : pmMpi c src aBeg aEnd bBeg bEnd threads k
        + (pmG aBeg aEnd bBeg bEnd threads (k + 1)
          - pmG aBeg aEnd bBeg bEnd threads k)
        < pmMpi c src aBeg aEnd bBeg bEnd threads (k + 1) := by omega
    have hm_ge : pmDiag aBeg aEnd bBeg bEnd threads (k + 1)
          - ((bEnd + 1 - bBeg : ℕ) : ℤ)
        ≤ ((pmMpi c src aBeg aEnd bBeg bEnd threads k
          + (pmG aBeg aEnd bBeg bEnd threads (k + 1)
            - pmG aBeg aEnd bBeg bEnd threads k) : ℕ) : ℤ) := by
      push_cast
      omega
    have hP := c4s _ hm_ge hm_lt
    have hidx : (pmDiag aBeg aEnd bBeg bEnd threads (k + 1) - 1
          - ((pmMpi c src aBeg aEnd bBeg bEnd threads k
            + (pmG aBeg aEnd bBeg bEnd threads (k + 1)
              - pmG aBeg aEnd bBeg bEnd threads k) : ℕ) : ℕ)).toNat
        = (pmDiag aBeg aEnd bBeg bEnd threads k - 1
          - ((pmMpi c src aBeg aEnd bBeg bEnd threads k : ℕ) : ℕ)).toNat := by
      omega
    rw [hidx] at hP
    by_cases hcase : ((pmMpi c src aBeg aEnd bBeg bEnd threads k : ℕ) : ℤ)
        < min (pmDiag aBeg aEnd bBeg bEnd threads k) ((aEnd + 1 - aBeg : ℕ) : ℤ)
    · have hnP := c5k (pmMpi c src aBeg aEnd bBeg bEnd threads k)
        (le_refl _) hcase
      have step1 := H.swo.lt_of_lt_of_le _ _ _ hP hnP
      have le_a : c (src (aBeg + (pmMpi c src aBeg aEnd bBeg bEnd threads k
            + (pmG aBeg aEnd bBeg bEnd threads (k + 1)
              - pmG aBeg aEnd bBeg bEnd threads k))))
          (src (aBeg + pmMpi c src aBeg aEnd bBeg bEnd threads k)) = false :=
        H.haS _ _ (by omega) (by omega) (by omega)
      rw [step1] at le_a
      exact Bool.noConfusion le_a
    · omega

theorem pmBC_mono_succ {c : α → α → Bool} {src : ℕ → α}
    {aBeg aEnd bBeg bEnd threads : ℕ}
    (H : PMCtx c src aBeg aEnd bBeg bEnd threads)
    {k : ℕ} (hk : k < threads) :
    pmBC c src aBeg aEnd bBeg bEnd threads k
      ≤ pmBC c src aBeg aEnd bBeg bEnd threads (k + 1) := by
  have h1 := pmMpi_pmG_cross H hk
  have h2 := pmMpi_le_pmG H (le_of_lt hk)
  have h3 := pmMpi_le_pmG H (k := k + 1) hk
  unfold pmBC
  omega

theorem pmBC_mono {c : α → α → Bool} {src : ℕ → α}
    {aBeg aEnd bBeg bEnd threads : ℕ}
    (H : PMCtx c src aBeg aEnd bBeg bEnd threads)
    {k k' : ℕ} (hkk : k ≤ k') (hk' : k' ≤ threads) :
    pmBC c src aBeg aEnd bBeg bEnd threads k
      ≤ pmBC c src aBeg aEnd bBeg bEnd threads k' := by
  induction k' with
  | zero =>
    have : k = 0 := by omega
    subst this
    exact le_refl _
  | succ m ih =>
    rcases Nat.eq_or_lt_of_le hkk with heq | hlt
    · rw [heq]
    · exact le_trans (ih (by omega) (by omega)) (pmBC_mono_succ H (by omega))

/-- boundary dominance, A side: every A element consumed before boundary k
is not above any B element left at boundary k. -/
theorem pm_dom_AB {c : α → α → Bool} {src : ℕ → α}
    {aBeg aEnd bBeg bEnd threads : ℕ}
    (H : PMCtx c src aBeg aEnd bBeg bEnd threads)
    {k : ℕ} (h1 : 1 ≤ k) (h2 : k < threads) {i j : ℕ}
    (hi : i < pmMpi c src aBeg aEnd bBeg bEnd threads k)
    (hj1 : pmBC c src aBeg aEnd bBeg bEnd threads k ≤ j)
    (hj2 : j < bEnd + 1 - bBeg) :
    c (src (bBeg + j)) (src (aBeg + i)) = false := by
  obtain ⟨c1k, c2k, c3k, c4k, c5k⟩ := pmMpi_char H h1 h2
  have hbc := pmBC_cast H (le_of_lt h2)
  rcases Nat.lt_or_ge (pmMpi c src aBeg aEnd bBeg bEnd threads k - 1)
      ((0 ⊔ (pmDiag aBeg aEnd bBeg bEnd threads k
        - ((bEnd + 1 - bBeg : ℕ) : ℤ))).toNat) with hlo | hlo
  · -- mpi[k] coincides with the window bottom; then either mpi[k] = 0 (no i)
    -- or the B side is exhausted at this boundary (no j)
    omega
  · have hP := c4k (pmMpi c src aBeg aEnd bBeg bEnd threads k - 1)
      (by omega) (by omega)
    have hidx : (pmDiag aBeg aEnd bBeg bEnd threads k - 1
          - ((pmMpi c src aBeg aEnd bBeg bEnd threads k - 1 : ℕ) : ℕ)).toNat
        = pmBC c src aBeg aEnd bBeg bEnd threads k := by
      omega
    rw [hidx] at hP
    have le_a : c (src (aBeg + (pmMpi c src aBeg aEnd bBeg bEnd threads k - 1)))
        (src (aBeg + i)) = false :=
      H.haS _ _ (by omega) (by omega) (by omega)
    have le_b : c (src (bBeg + j))
        (src (bBeg + pmBC c src aBeg aEnd bBeg bEnd threads k)) = false :=
      H.hbS _ _ (by omega) (by omega) (by omega)
    have s1 := H.swo.lt_of_le_of_lt _ _ _ le_a hP
    have s2 := H.swo.lt_of_lt_of_le _ _ _ s1 le_b
    exact H.swo.asym _ _ s2

/-- boundary dominance, B side: every B element consumed before boundary k
is not above any A element left at boundary k. -/
theorem pm_dom_BA {c : α → α → Bool} {src : ℕ → α}
    {aBeg aEnd bBeg bEnd threads : ℕ}
    (H : PMCtx c src aBeg aEnd bBeg bEnd threads)
    {k : ℕ} (h1 : 1 ≤ k) (h2 : k < threads) {i j : ℕ}
    (hj : j < pmBC c src aBeg aEnd bBeg bEnd threads k)
    (hi1 : pmMpi c src aBeg aEnd bBeg bEnd threads k ≤ i)
    (hi2 : i < aEnd + 1 - aBeg) :
    c (src (aBeg + i)) (src (bBeg + j)) = false := by
  obtain ⟨c1k, c2k, c3k, c4k, c5k⟩ := pmMpi_char H h1 h2
  have hbc := pmBC_cast H (le_of_lt h2)
  have hcase : ((pmMpi c src aBeg aEnd bBeg bEnd threads k : ℕ) : ℤ)
      < min (pmDiag aBeg aEnd bBeg bEnd threads k) ((aEnd + 1 - aBeg : ℕ) : ℤ) := by
    omega
  have hnP := c5k (pmMpi c src aBeg aEnd bBeg bEnd threads k) (le_refl _) hcase
  have hidx : (pmDiag aBeg aEnd bBeg bEnd threads k - 1
        - ((pmMpi c src aBeg aEnd bBeg bEnd threads k : ℕ) : ℕ)).toNat
      = pmBC c src aBeg aEnd bBeg bEnd threads k - 1 := by
    omega
  rw [hidx] at hnP
  have le_b : c (src (bBeg + (pmBC c src aBeg aEnd bBeg bEnd threads k - 1)))
      (src (bBeg + j)) = false :=
    H.hbS _ _ (by omega) (by omega)
      (by have := pmBC_le H (le_of_lt h2); omega)
  have le_a : c (src (aBeg + i))
      (src (aBeg + pmMpi c src aBeg aEnd bBeg bEnd threads k)) = false :=
    H.haS _ _ (by omega) (by omega) (by omega)
  have s1 := H.swo.leTrans _ _ _ le_b hnP
  exact H.swo.leTrans _ _ _ s1 le_a

theorem sliceH_mem {f : ℕ → α} {i j : ℕ} {x : α} :
    x ∈ sliceH f i j ↔ ∃ t, i ≤ t ∧ t < j ∧ f t = x := by
  simp only [sliceH, List.mem_map, List.mem_range]
  constructor
  · rintro ⟨a, ha, rfl⟩
    exact ⟨i + a, by omega, by omega, rfl⟩
  · rintro ⟨t, h1, h2, rfl⟩
    exact ⟨t - i, by omega, by rw [show i + (t - i) = t from by omega]⟩

theorem pmWorkerOut_eq (c : α → α → Bool) (src : ℕ → α)
    (aBeg aEnd bBeg bEnd threads k : ℕ) :
    pmWorkerOut c src aBeg aEnd bBeg bEnd threads k
      = if pmMpi c src aBeg aEnd bBeg bEnd threads k + aBeg
          = pmMpi c src aBeg aEnd bBeg bEnd threads (k + 1) + aBeg then
          sliceH src (pmBC c src aBeg aEnd bBeg bEnd threads k + bBeg)
            (pmBC c src aBeg aEnd bBeg bEnd threads (k + 1) + bBeg)
        else if pmBC c src aBeg aEnd bBeg bEnd threads k + bBeg
            = pmBC c src aBeg aEnd bBeg bEnd threads (k + 1) + bBeg then
          sliceH src (pmMpi c src aBeg aEnd bBeg bEnd threads k + aBeg)
            (pmMpi c src aBeg aEnd bBeg bEnd threads (k + 1) + aBeg)
        else
          mergeFFrun c src (pmMpi c src aBeg aEnd bBeg bEnd threads k + aBeg)
            (pmMpi c src aBeg aEnd bBeg bEnd threads (k + 1) + aBeg - 1)
            (pmBC c src aBeg aEnd bBeg bEnd threads k + bBeg)
            (pmBC c src aBeg aEnd bBeg bEnd threads (k + 1) + bBeg - 1) := rfl

/-- each parallelMerge worker emits a sorted run that is a permutation of
its two implied source slices, of length exactly grid_(k+1) - grid_k. -/
theorem pmWorkerOut_spec {c : α → α → Bool} {src : ℕ → α}
    {aBeg aEnd bBeg bEnd threads : ℕ}
    (H : PMCtx c src aBeg aEnd bBeg bEnd threads)
    {k : ℕ} (hk : k < threads) :
    (pmWorkerOut c src aBeg aEnd bBeg bEnd threads k).length
        = pmG aBeg aEnd bBeg bEnd threads (k + 1)
          - pmG aBeg aEnd bBeg bEnd threads k
    ∧ SortedLe c (pmWorkerOut c src aBeg aEnd bBeg bEnd threads k)
    ∧ List.Perm (pmWorkerOut c src aBeg aEnd bBeg bEnd threads k)
        (sliceH src (aBeg + pmMpi c src aBeg aEnd bBeg bEnd threads k)
            (aBeg + pmMpi c src aBeg aEnd bBeg bEnd threads (k + 1))
          ++ sliceH src (bBeg + pmBC c src aBeg aEnd bBeg bEnd threads k)
            (bBeg + pmBC c src aBeg aEnd bBeg bEnd threads (k + 1))) := by
  have hMm := pmMpi_mono_succ H hk
  have hBm := pmBC_mono_succ H hk
  have hMa := pmMpi_le_aN H (k := k + 1) hk
  have hBb := pmBC_le H (k := k + 1) hk
  have hMG : pmMpi c src aBeg aEnd bBeg bEnd threads k
      ≤ pmG aBeg aEnd bBeg bEnd threads k := pmMpi_le_pmG H (le_of_lt hk)
  have hMG' : pmMpi c src aBeg aEnd bBeg bEnd threads (k + 1)
      ≤ pmG aBeg aEnd bBeg bEnd threads (k + 1) := pmMpi_le_pmG H (k := k + 1) hk
  have hGm : pmG aBeg aEnd bBeg bEnd threads k
      ≤ pmG aBeg aEnd bBeg bEnd threads (k + 1) := pmG_mono H.ha H.hb (by omega)
  have hBC : pmBC c src aBeg aEnd bBeg bEnd threads k
      = pmG aBeg aEnd bBeg bEnd threads k
        - pmMpi c src aBeg aEnd bBeg bEnd threads k := rfl
  have hBC' : pmBC c src aBeg aEnd bBeg bEnd threads (k + 1)
      = pmG aBeg aEnd bBeg bEnd threads (k + 1)
        - pmMpi c src aBeg aEnd bBeg bEnd threads (k + 1) := rfl
  have hbb : pmBC c src aBeg aEnd bBeg bEnd threads (k + 1) + bBeg ≤ bEnd + 1 := by
    have := H.hb
    omega
  have haa : pmMpi c src aBeg aEnd bBeg bEnd threads (k + 1) + aBeg ≤ aEnd + 1 := by
    have := H.ha
    omega
  rw [pmWorkerOut_eq,
    show pmMpi c src aBeg aEnd bBeg bEnd threads k + aBeg
      = aBeg + pmMpi c src aBeg aEnd bBeg bEnd threads k from by omega,
    show pmMpi c src aBeg aEnd bBeg bEnd threads (k + 1) + aBeg
      = aBeg + pmMpi c src aBeg aEnd bBeg bEnd threads (k + 1) from by omega,
    show pmBC c src aBeg aEnd bBeg bEnd threads k + bBeg
      = bBeg + pmBC c src aBeg aEnd bBeg bEnd threads k from by omega,
    show pmBC c src aBeg aEnd bBeg bEnd threads (k + 1) + bBeg
      = bBeg + pmBC c src aBeg aEnd bBeg bEnd threads (k + 1) from by omega]
  by_cases ha1 : aBeg + pmMpi c src aBeg aEnd bBeg bEnd threads k
      = aBeg + pmMpi c src aBeg aEnd bBeg bEnd threads (k + 1)
  · rw [if_pos ha1]
    have hMeq : pmMpi c src aBeg aEnd bBeg bEnd threads k
        = pmMpi c src aBeg aEnd bBeg bEnd threads (k + 1) := by omega
    refine ⟨?_, ?_, ?_⟩
    · rw [sliceH_length]
      omega
    · exact (rangeSorted_iff_sortedLe H.swo).1
        (H.hbS.mono (by omega) (by omega))
    · rw [sliceH_empty src
        (i := aBeg + pmMpi c src aBeg aEnd bBeg bEnd threads k) (by omega),
        List.nil_append]
  · rw [if_neg ha1]
    by_cases hb1 : bBeg + pmBC c src aBeg aEnd bBeg bEnd threads k
        = bBeg + pmBC c src aBeg aEnd bBeg bEnd threads (k + 1)
    · rw [if_pos hb1]
      have hBeq : pmBC c src aBeg aEnd bBeg bEnd threads k
          = pmBC c src aBeg aEnd bBeg bEnd threads (k + 1) := by omega
      refine ⟨?_, ?_, ?_⟩
      · rw [sliceH_length]
        omega
      · exact (rangeSorted_iff_sortedLe H.swo).1
          (H.haS.mono (by omega) (by omega))
      · rw [sliceH_empty src
          (i := bBeg + pmBC c src aBeg aEnd bBeg bEnd threads k) (by omega),
          List.append_nil]
    · rw [if_neg hb1]
      have hMlt : pmMpi c src aBeg aEnd bBeg bEnd threads k
          < pmMpi c src aBeg aEnd bBeg bEnd threads (k + 1) := by omega
      have hBlt : pmBC c src aBeg aEnd bBeg bEnd threads k
          < pmBC c src aBeg aEnd bBeg bEnd threads (k + 1) := by omega
      have haS' : RangeSorted c src
          (aBeg + pmMpi c src aBeg aEnd bBeg bEnd threads k)
          ((aBeg + pmMpi c src aBeg aEnd bBeg bEnd threads (k + 1) - 1) + 1) := by
        rw [show aBeg + pmMpi c src aBeg aEnd bBeg bEnd threads (k + 1) - 1 + 1
          = aBeg + pmMpi c src aBeg aEnd bBeg bEnd threads (k + 1) from by omega]
        exact H.haS.mono (by omega) (by omega)
      have hbS' : RangeSorted c src
          (bBeg + pmBC c src aBeg aEnd bBeg bEnd threads k)
          ((bBeg + pmBC c src aBeg aEnd bBeg bEnd threads (k + 1) - 1) + 1) := by
        rw [show bBeg + pmBC c src aBeg aEnd bBeg bEnd threads (k + 1) - 1 + 1
          = bBeg + pmBC c src aBeg aEnd bBeg bEnd threads (k + 1) from by omega]
        exact H.hbS.mono (by omega) (by omega)
      have heq := mergeFFrun_eq H.swo src (by omega) (by omega) haS' hbS'
      rw [show aBeg + pmMpi c src aBeg aEnd bBeg bEnd threads (k + 1) - 1 + 1
          = aBeg + pmMpi c src aBeg aEnd bBeg bEnd threads (k + 1) from by omega,
        show bBeg + pmBC c src aBeg aEnd bBeg bEnd threads (k + 1) - 1 + 1
          = bBeg + pmBC c src aBeg aEnd bBeg bEnd threads (k + 1) from by omega]
        at heq
      have hs1 : SortedLe c (sliceH src
          (aBeg + pmMpi c src aBeg aEnd bBeg bEnd threads k)
          (aBeg + pmMpi c src aBeg aEnd bBeg bEnd threads (k + 1))) :=
        (rangeSorted_iff_sortedLe H.swo).1 (H.haS.mono (by omega) (by omega))
      have hs2 : SortedLe c (sliceH src
          (bBeg + pmBC c src aBeg aEnd bBeg bEnd threads k)
          (bBeg + pmBC c src aBeg aEnd bBeg bEnd threads (k + 1))) :=
        (rangeSorted_iff_sortedLe H.swo).1 (H.hbS.mono (by omega) (by omega))
      rw [heq]
      by_cases hbr : c (src (aBeg + pmMpi c src aBeg aEnd bBeg bEnd threads (k + 1)
          - 1))
          (src (bBeg + pmBC c src aBeg aEnd bBeg bEnd threads (k + 1) - 1)) = true
      · rw [if_pos hbr]
        have hperm := mergeSeq_perm c
          (sliceH src (aBeg + pmMpi c src aBeg aEnd bBeg bEnd threads k)
            (aBeg + pmMpi c src aBeg aEnd bBeg bEnd threads (k + 1)))
          (sliceH src (bBeg + pmBC c src aBeg aEnd bBeg bEnd threads k)
            (bBeg + pmBC c src aBeg aEnd bBeg bEnd threads (k + 1)))
        refine ⟨?_, mergeSeq_sorted H.swo _ _ hs1 hs2, hperm⟩
        rw [hperm.length_eq, List.length_append, sliceH_length, sliceH_length]
        omega
      · rw [if_neg hbr]
        have hperm := (mergeSeq_perm c
          (sliceH src (bBeg + pmBC c src aBeg aEnd bBeg bEnd threads k)
            (bBeg + pmBC c src aBeg aEnd bBeg bEnd threads (k + 1)))
          (sliceH src (aBeg + pmMpi c src aBeg aEnd bBeg bEnd threads k)
            (aBeg + pmMpi c src aBeg aEnd bBeg bEnd threads (k + 1)))).trans
          List.perm_append_comm
        refine ⟨?_, mergeSeq_sorted H.swo _ _ hs2 hs1, hperm⟩
        rw [hperm.length_eq, List.length_append, sliceH_length, sliceH_length]
        omega

theorem writeAt_nil (f : ℕ → α) (p : ℕ) : writeAt f p ([] : List α) = f := by
  funext q
  unfold writeAt
  simp

theorem flatMap_range_succ (f : ℕ → List α) (n : ℕ) :
    (List.range (n + 1)).flatMap f = (List.range n).flatMap f ++ f n := by
  rw [List.range_succ, List.flatMap_append]
  simp

theorem mono_chain (N : ℕ → ℕ) (n : ℕ) (hmono : ∀ k, k < n → N k ≤ N (k + 1))
    {i j : ℕ} (hij : i ≤ j) (hj : j ≤ n) : N i ≤ N j := by
  induction j with
  | zero =>
    have : i = 0 := by omega
    subst this
    exact le_refl _
  | succ t ih =>
    rcases Nat.eq_or_lt_of_le hij with rfl | hlt
    · exact le_refl _
    · exact le_trans (ih (by omega) (by omega)) (hmono t (by omega))

theorem sortedLe_flatMap_range {c : α → α → Bool} (f : ℕ → List α) (n : ℕ)
    (hs : ∀ k, k < n → SortedLe c (f k))
    (hd : ∀ p q, p < q → q < n → ∀ x ∈ f p, ∀ y ∈ f q, c y x = false) :
    SortedLe c ((List.range n).flatMap f) := by
  induction n with
  | zero => simp [SortedLe]
  | succ m ih =>
    rw [flatMap_range_succ]
    unfold SortedLe
    rw [List.pairwise_append]
    refine ⟨ih (fun k hk => hs k (by omega))
      (fun p q h1 h2 => hd p q h1 (by omega)), hs m (by omega), ?_⟩
    intro x hx y hy
    obtain ⟨p, hp, hxp⟩ := List.mem_flatMap.1 hx
    exact hd p m (List.mem_range.1 hp) (by omega) x hxp y hy

theorem flatMap_range_perm {f g : ℕ → List α} (n : ℕ)
    (h : ∀ k, k < n → List.Perm (f k) (g k)) :
    List.Perm ((List.range n).flatMap f) ((List.range n).flatMap g) := by
  induction n with
  | zero => simp
  | succ m ih =>
    rw [flatMap_range_succ, flatMap_range_succ]
    exact (ih (fun k hk => h k (by omega))).append (h m (by omega))

theorem perm_append_swap (U V w x : List α) :
    List.Perm ((U ++ V) ++ (w ++ x)) ((U ++ w) ++ (V ++ x)) := by
  simp only [List.append_assoc]
  apply List.Perm.append_left
  rw [← List.append_assoc, ← List.append_assoc]
  exact (List.perm_append_comm).append_right x

theorem flatMap_range_append_perm (u v : ℕ → List α) (n : ℕ) :
    List.Perm ((List.range n).flatMap fun k => u k ++ v k)
      (((List.range n).flatMap u) ++ ((List.range n).flatMap v)) := by
  induction n with
  | zero => simp
  | succ m ih =>
    rw [flatMap_range_succ, flatMap_range_succ, flatMap_range_succ]
    exact (ih.append_right _).trans (perm_append_swap _ _ _ _)

theorem flatMap_range_sliceH (f : ℕ → α) (N : ℕ → ℕ) (base n : ℕ)
    (hmono : ∀ k, k < n → N k ≤ N (k + 1)) :
    (List.range n).flatMap (fun k => sliceH f (base + N k) (base + N (k + 1)))
      = sliceH f (base + N 0) (base + N n) := by
  induction n with
  | zero => simp [sliceH_self]
  | succ m ih =>
    rw [flatMap_range_succ, ih (fun k hk => hmono k (by omega))]
    have hm0 : N 0 ≤ N m := mono_chain N (m + 1)
      (fun k hk => hmono k hk) (by omega) (by omega)
    have hmm : N m ≤ N (m + 1) := hmono m (by omega)
    rw [← sliceH_append f (by omega) (by omega)]

/-- the concatenation, in worker order, of the runs of one parallelMerge is
sorted under the comparator. -/
theorem pmOut_sorted {c : α → α → Bool} {src : ℕ → α}
    {aBeg aEnd bBeg bEnd threads : ℕ}
    (H : PMCtx c src aBeg aEnd bBeg bEnd threads) :
    SortedLe c (pmOut c src aBeg aEnd bBeg bEnd threads) := by
  unfold pmOut
  apply sortedLe_flatMap_range
  · intro k hk
    exact (pmWorkerOut_spec H hk).2.1
  · intro p q hpq hq x hx y hy
    have hp' := (pmWorkerOut_spec H (show p < threads by omega)).2.2
    have hq' := (pmWorkerOut_spec H hq).2.2
    have hMpq : pmMpi c src aBeg aEnd bBeg bEnd threads (p + 1)
        ≤ pmMpi c src aBeg aEnd bBeg bEnd threads q :=
      pmMpi_mono H (by omega) (by omega)
    have hBpq : pmBC c src aBeg aEnd bBeg bEnd threads (p + 1)
        ≤ pmBC c src aBeg aEnd bBeg bEnd threads q :=
      pmBC_mono H (by omega) (by omega)
    have hMaN : pmMpi c src aBeg aEnd bBeg bEnd threads (q + 1)
        ≤ aEnd + 1 - aBeg := pmMpi_le_aN H hq
    have hBbN : pmBC c src aBeg aEnd bBeg bEnd threads (q + 1)
        ≤ bEnd + 1 - bBeg := pmBC_le H hq
    have hha := H.ha
    have hhb := H.hb
    rcases List.mem_append.1 (hp'.mem_iff.1 hx) with hxa | hxb
      <;> rcases List.mem_append.1 (hq'.mem_iff.1 hy) with hya | hyb
    · obtain ⟨ti, hti1, hti2, hti3⟩ := sliceH_mem.1 hxa
      obtain ⟨tj, htj1, htj2, htj3⟩ := sliceH_mem.1 hya
      subst hti3
      subst htj3
      exact H.haS ti tj (by omega) (by omega) (by omega)
    · obtain ⟨ti, hti1, hti2, hti3⟩ := sliceH_mem.1 hxa
      obtain ⟨tj, htj1, htj2, htj3⟩ := sliceH_mem.1 hyb
      subst hti3
      subst htj3
      have hdom := pm_dom_AB H (k := q) (by omega) hq
        (i := ti - aBeg) (j := tj - bBeg) (by omega) (by omega) (by omega)
      rw [show bBeg + (tj - bBeg) = tj from by omega,
        show aBeg + (ti - aBeg) = ti from by omega] at hdom
      exact hdom
    · obtain ⟨ti, hti1, hti2, hti3⟩ := sliceH_mem.1 hxb
      obtain ⟨tj, htj1, htj2, htj3⟩ := sliceH_mem.1 hya
      subst hti3
      subst htj3
      have hdom := pm_dom_BA H (k := q) (by omega) hq
        (i := tj - aBeg) (j := ti - bBeg) (by omega) (by omega) (by omega)
      rw [show aBeg + (tj - aBeg) = tj from by omega,
        show bBeg + (ti - bBeg) = ti from by omega] at hdom
      exact hdom
    · obtain ⟨ti, hti1, hti2, hti3⟩ := sliceH_mem.1 hxb
      obtain ⟨tj, htj1, htj2, htj3⟩ := sliceH_mem.1 hyb
      subst hti3
      subst htj3
      exact H.hbS ti tj (by omega) (by omega) (by omega)

/-- the concatenated worker runs are a permutation of the two source
slices. -/
theorem pmOut_perm {c : α → α → Bool} {src : ℕ → α}
    {aBeg aEnd bBeg bEnd threads : ℕ}
    (H : PMCtx c src aBeg aEnd bBeg bEnd threads) :
    List.Perm (pmOut c src aBeg aEnd bBeg bEnd threads)
      (sliceH src aBeg (aEnd + 1) ++ sliceH src bBeg (bEnd + 1)) := by
  unfold pmOut
  have h1 := flatMap_range_perm (n := threads)
    (fun k hk => (pmWorkerOut_spec H hk).2.2)
  have h2 := flatMap_range_append_perm
    (fun k => sliceH src (aBeg + pmMpi c src aBeg aEnd bBeg bEnd threads k)
      (aBeg + pmMpi c src aBeg aEnd bBeg bEnd threads (k + 1)))
    (fun k => sliceH src (bBeg + pmBC c src aBeg aEnd bBeg bEnd threads k)
      (bBeg + pmBC c src aBeg aEnd bBeg bEnd threads (k + 1))) threads
  have h3 := flatMap_range_sliceH src
    (fun k => pmMpi c src aBeg aEnd bBeg bEnd threads k) aBeg threads
    (fun k hk => pmMpi_mono_succ H hk)
  have h4 := flatMap_range_sliceH src
    (fun k => pmBC c src aBeg aEnd bBeg bEnd threads k) bBeg threads
    (fun k hk => pmBC_mono_succ H hk)
  simp only [] at h3 h4
  rw [pmMpi_zero H.hth, pmMpi_last H.ha,
    show aBeg + 0 = aBeg from by omega,
    show aBeg + (aEnd + 1 - aBeg) = aEnd + 1 from by
      have := H.ha
      omega] at h3
  rw [pmBC_zero, pmBC_last H,
    show bBeg + 0 = bBeg from by omega,
    show bBeg + (bEnd + 1 - bBeg) = bEnd + 1 from by
      have := H.hb
      omega] at h4
  rw [h3, h4] at h2
  exact h1.trans h2

/-- total length of the concatenated worker runs. -/
theorem pmOut_length {c : α → α → Bool} {src : ℕ → α}
    {aBeg aEnd bBeg bEnd threads : ℕ}
    (H : PMCtx c src aBeg aEnd bBeg bEnd threads) :
    (pmOut c src aBeg aEnd bBeg bEnd threads).length
      = (aEnd + 1 - aBeg) + (bEnd + 1 - bBeg) := by
  rw [(pmOut_perm H).length_eq, List.length_append, sliceH_length, sliceH_length]

/-- the first n worker runs together have length grid_n. -/
theorem pmOutPrefix_length {c : α → α → Bool} {src : ℕ → α}
    {aBeg aEnd bBeg bEnd threads : ℕ}
    (H : PMCtx c src aBeg aEnd bBeg bEnd threads)
    {n : ℕ} (hn : n ≤ threads) :
    ((List.range n).flatMap
        (fun k => pmWorkerOut c src aBeg aEnd bBeg bEnd threads k)).length
      = pmG aBeg aEnd bBeg bEnd threads n := by
  induction n with
  | zero =>
    rw [pmG_zero]
    simp
  | succ m ih =>
    rw [flatMap_range_succ, List.length_append, ih (by omega),
      (pmWorkerOut_spec H (show m < threads by omega)).1]
    have := @pmG_mono aBeg aEnd bBeg bEnd threads H.ha H.hb m (m + 1)
      (show m ≤ m + 1 by omega)
    omega

theorem rangeZ_zero_natCast (n : ℕ) :
    rangeZ 0 (n : ℤ) = (List.range n).map (fun k : ℕ => (k : ℤ)) := by
  unfold rangeZ
  simp

/-- parallelMerge writes exactly the concatenation of its worker runs at
consecutive destination positions starting at dBeg. -/
theorem pmWrite_eq {c : α → α → Bool} {src : ℕ → α}
    {aBeg aEnd bBeg bEnd threads : ℕ}
    (H : PMCtx c src aBeg aEnd bBeg bEnd threads) (dst : ℕ → α) (dBeg : ℕ) :
    pmWrite c dst src aBeg aEnd bBeg bEnd dBeg threads
      = writeAt dst dBeg (pmOut c src aBeg aEnd bBeg bEnd threads) := by
  unfold pmWrite pmOut
  rw [pfIndices_eq 0 (threads : ℤ) threads (by exact_mod_cast Nat.zero_le threads)
    H.hth, rangeZ_zero_natCast, List.foldl_map]
  simp only [Int.toNat_natCast]
  have main : ∀ n, n ≤ threads →
      List.foldl (fun buf k =>
          writeAt buf (pmWtid c src aBeg aEnd bBeg bEnd threads dBeg k)
            (pmWorkerOut c src aBeg aEnd bBeg bEnd threads k)) dst (List.range n)
        = writeAt dst dBeg ((List.range n).flatMap
            (fun k => pmWorkerOut c src aBeg aEnd bBeg bEnd threads k)) := by
    intro n
    induction n with
    | zero =>
      intro _
      simp [writeAt_nil]
    | succ m ih =>
      intro hm
      rw [flatMap_range_succ, List.range_succ, List.foldl_append, ih (by omega)]
      simp only [List.foldl_cons, List.foldl_nil]
      have hwt : pmWtid c src aBeg aEnd bBeg bEnd threads dBeg m
          = dBeg + ((List.range m).flatMap
              (fun k => pmWorkerOut c src aBeg aEnd bBeg bEnd threads k)).length := by
        rw [pmOutPrefix_length H (by omega)]
        rfl
      rw [hwt, writeAt_writeAt]
  exact main threads (le_refl _)

theorem swo_c2cmp : SWO c2cmp := by
  refine ⟨?_, ?_, ?_⟩
  · intro a
    simp [c2cmp]
  · intro a b d hab hbd
    simp only [c2cmp, decide_eq_true_eq] at *
    omega
  · intro a b d hba hdb
    simp only [c2cmp, decide_eq_false_iff_not] at *
    omega

/-- C2: refuted as stated.  On the sorted ranges A = [(1,0),(2,0)],
B = [(2,1),(3,1)] under a strict-weak-order comparator that compares only
first components, with P = 2 workers, the partition table is well formed
(mpi[0] = 0, mpi[P] = aCount, monotonic) but the concatenation of the two
workers' runs is [(1,0),(2,1),(2,0),(3,1)], which differs byte-for-byte from
the single sequential merge [(1,0),(2,0),(2,1),(3,1)] of the entire ranges:
equal keys cross worker boundaries in a different order, so the reproduction
is only up to permutation of tied elements, not byte-for-byte. -/
theorem C2_counterexample :
    SWO c2cmp
    ∧ RangeSorted c2cmp c2src 0 2
    ∧ RangeSorted c2cmp c2src 2 4
    ∧ pmMpi c2cmp c2src 0 1 2 3 2 0 = 0
    ∧ pmMpi c2cmp c2src 0 1 2 3 2 2 = 2
    ∧ pmMpi c2cmp c2src 0 1 2 3 2 0 ≤ pmMpi c2cmp c2src 0 1 2 3 2 1
    ∧ pmMpi c2cmp c2src 0 1 2 3 2 1 ≤ pmMpi c2cmp c2src 0 1 2 3 2 2
    ∧ pmOut c2cmp c2src 0 1 2 3 2 ≠ mergeFFrun c2cmp c2src 0 1 2 3 := by
  refine ⟨swo_c2cmp, ?_, ?_, by decide, by decide, by decide, by decide, by decide⟩
  · intro i j h1 h2 h3
    interval_cases j <;> interval_cases i <;> decide
  · intro i j h1 h2 h3
    interval_cases j <;> interval_cases i <;> decide

/-- C2 (amended): for sorted ranges under a strict-weak-order comparator and
any worker count P >= 1, the table satisfies mpi[0] = 0, mpi[P] = aCount and
is monotonic non-decreasing; the concatenation, in worker order, of the P
worker runs is sorted and is a permutation of the sequential merge of the
entire ranges, lands via parallelMerge exactly at destination positions
dBeg..dBeg+total-1, and coincides byte-for-byte with the sequential merge
whenever the comparator is additionally antisymmetric (no distinguishable
tied elements). -/
theorem C2_amended {c : α → α → Bool} {src : ℕ → α}
    {aBeg aEnd bBeg bEnd threads : ℕ}
    (H : PMCtx c src aBeg aEnd bBeg bEnd threads) :
    pmMpi c src aBeg aEnd bBeg bEnd threads 0 = 0
    ∧ pmMpi c src aBeg aEnd bBeg bEnd threads threads = aEnd + 1 - aBeg
    ∧ (∀ k, k < threads → pmMpi c src aBeg aEnd bBeg bEnd threads k
        ≤ pmMpi c src aBeg aEnd bBeg bEnd threads (k + 1))
    ∧ SortedLe c (pmOut c src aBeg aEnd bBeg bEnd threads)
    ∧ List.Perm (pmOut c src aBeg aEnd bBeg bEnd threads)
        (mergeSeq c (sliceH src aBeg (aEnd + 1)) (sliceH src bBeg (bEnd + 1)))
    ∧ (∀ (dst : ℕ → α) (dBeg : ℕ),
        pmWrite c dst src aBeg aEnd bBeg bEnd dBeg threads
          = writeAt dst dBeg (pmOut c src aBeg aEnd bBeg bEnd threads))
    ∧ ((∀ x y : α, c x y = false → c y x = false → x = y) →
        pmOut c src aBeg aEnd bBeg bEnd threads
          = mergeSeq c (sliceH src aBeg (aEnd + 1)) (sliceH src bBeg (bEnd + 1))) := by
  have hperm : List.Perm (pmOut c src aBeg aEnd bBeg bEnd threads)
      (mergeSeq c (sliceH src aBeg (aEnd + 1)) (sliceH src bBeg (bEnd + 1))) :=
    (pmOut_perm H).trans (mergeSeq_perm c _ _).symm
  refine ⟨pmMpi_zero H.hth, pmMpi_last H.ha,
    fun k hk => pmMpi_mono_succ H hk, pmOut_sorted H, hperm,
    fun dst dBeg => pmWrite_eq H dst dBeg, ?_⟩
  intro hanti
  exact sorted_perm_eq hanti hperm (pmOut_sorted H)
    (mergeSeq_sorted H.swo _ _
      ((rangeSorted_iff_sortedLe H.swo).1 H.haS)
      ((rangeSorted_iff_sortedLe H.swo).1 H.hbS))

theorem C2_amended_witness :
    pmOut natLt c2srcW 0 1 2 3 2
        = mergeSeq natLt (sliceH c2srcW 0 2) (sliceH c2srcW 2 4)
    ∧ pmOut natLt c2srcW 0 1 2 3 2 = [1, 2, 3, 4] := by
  have hctx : PMCtx natLt c2srcW 0 1 2 3 2 := by
    refine ⟨swo_natLt, by omega, by omega, by omega, ?_, ?_⟩
    · intro i j h1 h2 h3
      interval_cases j <;> interval_cases i <;> decide
    · intro i j h1 h2 h3
      interval_cases j <;> interval_cases i <;> decide
  refine ⟨(C2_amended hctx).2.2.2.2.2.2 ?_, by decide⟩
  intro x y hxy hyx
  simp only [natLt, decide_eq_false_iff_not] at hxy hyx
  omega

theorem sortDelta_nonneg (len t : ℕ) : 0 ≤ sortDelta len t := by
  unfold sortDelta
  positivity

theorem roundDelta_nonneg (len t r : ℕ) : 0 ≤ roundDelta len t r := by
  unfold roundDelta
  have := sortDelta_nonneg len t
  positivity

theorem sortDelta_ge_one {len t : ℕ} (h2 : 2 ≤ t) (hcap : 128 * t ≤ len + 64) :
    (1 : ℚ) ≤ sortDelta len t := by
  unfold sortDelta
  have htq : (0 : ℚ) < (t : ℚ) := by
    have : (0 : ℕ) < t := by omega
    exact_mod_cast this
  rw [le_div_iff htq]
  have ht : t ≤ len := by omega
  have : (t : ℚ) ≤ (len : ℚ) := by exact_mod_cast ht
  linarith

theorem roundDelta_ge_one {len t : ℕ} (r : ℕ) (h2 : 2 ≤ t)
    (hcap : 128 * t ≤ len + 64) : (1 : ℚ) ≤ roundDelta len t r := by
  unfold roundDelta
  have h1 := sortDelta_ge_one h2 hcap
  have h2r : (1 : ℚ) ≤ 2 ^ r := by
    have hn : (1 : ℕ) ≤ 2 ^ r := Nat.one_le_two_pow
    calc (1 : ℚ) ≤ ((2 ^ r : ℕ) : ℚ) := by exact_mod_cast hn
      _ = 2 ^ r := by push_cast; ring
  nlinarith

theorem sortDelta_mul_t {len t : ℕ} (ht : 1 ≤ t) :
    (t : ℚ) * sortDelta len t = (len : ℚ) := by
  unfold sortDelta
  have htq : ((t : ℚ)) ≠ 0 := Nat.cast_ne_zero.2 (by omega)
  field_simp

theorem roundBound_zero (len t r : ℕ) : roundBound len t r 0 = 0 := by
  unfold roundBound llrN
  norm_num [llrZ_zero]

theorem roundBound_mono (len t r : ℕ) {j j' : ℕ} (h : j ≤ j') :
    roundBound len t r j ≤ roundBound len t r j' := by
  unfold roundBound
  apply llrN_mono
  · have := roundDelta_nonneg len t r
    positivity
  · have hd := roundDelta_nonneg len t r
    have hj : (j : ℚ) ≤ (j' : ℚ) := by exact_mod_cast h
    exact mul_le_mul_of_nonneg_right hj hd

theorem roundBound_lt {len t : ℕ} (r : ℕ) (h2 : 2 ≤ t)
    (hcap : 128 * t ≤ len + 64) (j : ℕ) :
    roundBound len t r j < roundBound len t r (j + 1) := by
  have hδ := roundDelta_ge_one r h2 hcap
  have hδ0 := roundDelta_nonneg len t r
  unfold roundBound llrN
  have hcast : ((j + 1 : ℕ) : ℚ) * roundDelta len t r
      = (j : ℚ) * roundDelta len t r + roundDelta len t r := by
    push_cast
    ring
  rw [hcast]
  have h1 := llrZ_add_ge ((j : ℚ) * roundDelta len t r) (roundDelta len t r)
  have h2f : (1 : ℤ) ≤ Int.floor (roundDelta len t r) := by
    rw [Int.le_floor]
    exact_mod_cast hδ
  have h3 : 0 ≤ llrZ ((j : ℚ) * roundDelta len t r) :=
    llrZ_nonneg (by positivity)
  omega

theorem roundBound_le_len {len t r j : ℕ}
    (h : (j : ℚ) * roundDelta len t r ≤ (len : ℚ)) :
    roundBound len t r j ≤ len := by
  unfold roundBound
  exact llrN_le_of_le h

theorem len_le_roundBound {len t r j : ℕ}
    (h : (len : ℚ) ≤ (j : ℚ) * roundDelta len t r) :
    len ≤ roundBound len t r j := by
  unfold roundBound
  exact le_llrN_of_le h

theorem roundBound_next (len t r i : ℕ) :
    roundBound len t (r + 1) i = roundBound len t r (2 * i) := by
  unfold roundBound roundDelta
  congr 1
  push_cast
  rw [pow_succ]
  ring

theorem roundLoStart_eq (len t r : ℕ) :
    llrN (roundLoStart len t r) = roundBound len t r (2 * roundLoops len t r) := by
  unfold roundLoStart roundBound
  congr 1
  push_cast
  ring

theorem roundMid_eq (len t r : ℕ) :
    llrN (roundLoStart len t r + roundDelta len t r)
      = roundBound len t r (2 * roundLoops len t r + 1) := by
  unfold roundLoStart roundBound
  congr 1
  push_cast
  ring

theorem roundLoops_mul_le (len t r : ℕ) :
    ((2 * roundLoops len t r : ℕ) : ℚ) * roundDelta len t r ≤ (len : ℚ) := by
  have hδ0 := roundDelta_nonneg len t r
  rcases eq_or_lt_of_le hδ0 with heq | hpos
  · push_cast
    rw [← heq]
    norm_num
  · have hfl : ((roundLoops len t r : ℕ) : ℚ)
        ≤ (len : ℚ) / (2 * roundDelta len t r) := by
      unfold roundLoops
      have h1 : (Int.floor ((len : ℚ) / (2 * roundDelta len t r)) : ℚ)
          ≤ (len : ℚ) / (2 * roundDelta len t r) := Int.floor_le _
      have h2 : 0 ≤ Int.floor ((len : ℚ) / (2 * roundDelta len t r)) := by
        apply Int.floor_nonneg.2
        positivity
      have h3 : ((Int.floor ((len : ℚ) / (2 * roundDelta len t r))).toNat : ℚ)
          = (Int.floor ((len : ℚ) / (2 * roundDelta len t r)) : ℚ) := by
        exact_mod_cast Int.toNat_of_nonneg h2
      rw [h3]
      exact h1
    have h4 : ((2 * roundLoops len t r : ℕ) : ℚ)
        ≤ 2 * ((len : ℚ) / (2 * roundDelta len t r)) := by
      push_cast
      push_cast at hfl
      linarith
    calc ((2 * roundLoops len t r : ℕ) : ℚ) * roundDelta len t r
        ≤ 2 * ((len : ℚ) / (2 * roundDelta len t r)) * roundDelta len t r :=
          mul_le_mul_of_nonneg_right h4 hδ0
      _ = (len : ℚ) := by
          field_simp
          ring

theorem len_lt_roundLoops_add (len t r : ℕ) (hδ : (1 : ℚ) ≤ roundDelta len t r) :
    (len : ℚ) < ((2 * roundLoops len t r + 2 : ℕ) : ℚ) * roundDelta len t r := by
  have hpos : (0 : ℚ) < roundDelta len t r := lt_of_lt_of_le (by norm_num) hδ
  have hfl : (len : ℚ) / (2 * roundDelta len t r)
      < ((roundLoops len t r : ℕ) : ℚ) + 1 := by
    unfold roundLoops
    have h2 : 0 ≤ Int.floor ((len : ℚ) / (2 * roundDelta len t r)) := by
      apply Int.floor_nonneg.2
      positivity
    have h3 : ((Int.floor ((len : ℚ) / (2 * roundDelta len t r))).toNat : ℚ)
        = (Int.floor ((len : ℚ) / (2 * roundDelta len t r)) : ℚ) := by
      exact_mod_cast Int.toNat_of_nonneg h2
    rw [h3]
    exact Int.lt_floor_add_one _
  have h5 : (len : ℚ) < (((roundLoops len t r : ℕ) : ℚ) + 1)
      * (2 * roundDelta len t r) := by
    rw [div_lt_iff (by positivity)] at hfl
    linarith
  push_cast
  push_cast at h5
  linarith

theorem localSegBound_zero (len t : ℕ) : localSegBound len t 0 = 0 := by
  unfold localSegBound llrN
  norm_num [llrZ_zero]

theorem localSegBound_last {len t : ℕ} (ht : 1 ≤ t) :
    localSegBound len t t = len := by
  unfold localSegBound
  rw [sortDelta_mul_t ht]
  exact llrN_natCast len

theorem localSegBound_mono (len t : ℕ) {j j' : ℕ} (h : j ≤ j') :
    localSegBound len t j ≤ localSegBound len t j' := by
  unfold localSegBound
  apply llrN_mono
  · have := sortDelta_nonneg len t
    positivity
  · have hd := sortDelta_nonneg len t
    have hj : (j : ℚ) ≤ (j' : ℚ) := by exact_mod_cast h
    exact mul_le_mul_of_nonneg_right hj hd

theorem localSegBound_le_len {len t : ℕ} (ht : 1 ≤ t) {j : ℕ} (hj : j ≤ t) :
    localSegBound len t j ≤ len := by
  exact le_trans (localSegBound_mono len t hj)
    (le_of_eq (localSegBound_last ht))

theorem roundBound_round_zero (len t j : ℕ) :
    roundBound len t 0 j = localSegBound len t j := by
  unfold roundBound roundDelta localSegBound
  congr 1
  rw [pow_zero, mul_one]

theorem foldl_range_congr {β : Type v} (f g : β → ℕ → β) (n : ℕ) (b : β)
    (h : ∀ x k, k < n → f x k = g x k) :
    (List.range n).foldl f b = (List.range n).foldl g b := by
  induction n generalizing b with
  | zero => rfl
  | succ m ih =>
    rw [List.range_succ, List.foldl_append, List.foldl_append]
    simp only [List.foldl_cons, List.foldl_nil]
    rw [ih b (fun x k hk => h x k (by omega)), h _ m (by omega)]

/-- consecutive block stores collapse to one store of the concatenation. -/
theorem foldl_writeAt_blocks (dst : ℕ → α) (out : ℕ → List α) (B : ℕ → ℕ)
    (n : ℕ) (hmono : ∀ k, k < n → B k ≤ B (k + 1))
    (hlen : ∀ k, k < n → (out k).length = B (k + 1) - B k) :
    (List.range n).foldl (fun b k => writeAt b (B k) (out k)) dst
      = writeAt dst (B 0) ((List.range n).flatMap out) := by
  induction n with
  | zero => simp [writeAt_nil]
  | succ m ih =>
    rw [flatMap_range_succ, List.range_succ, List.foldl_append,
      ih (fun k hk => hmono k (by omega)) (fun k hk => hlen k (by omega))]
    simp only [List.foldl_cons, List.foldl_nil]
    have hpre : ((List.range m).flatMap out).length = B m - B 0 := by
      clear ih
      induction m with
      | zero => simp
      | succ p ihp =>
        rw [flatMap_range_succ, List.length_append,
          ihp (fun k hk => hmono k (by omega)) (fun k hk => hlen k (by omega)),
          hlen p (by omega)]
        have h1 : B 0 ≤ B p := mono_chain B (p + 1)
          (fun k hk => hmono k (by omega)) (by omega) (by omega)
        have h2 : B p ≤ B (p + 1) := hmono p (by omega)
        omega
    have hBm : B m = B 0 + ((List.range m).flatMap out).length := by
      rw [hpre]
      have h1 : B 0 ≤ B m := mono_chain B (m + 1)
        (fun k hk => hmono k (by omega)) (by omega) (by omega)
      omega
    rw [hBm, writeAt_writeAt]

theorem rangeSorted_vacuous {c : α → α → Bool} {f : ℕ → α} {lo hi : ℕ}
    (h : hi ≤ lo) : RangeSorted c f lo hi := by
  intro i j h1 h2 h3
  omega

/-- reading back the middle run of a three-part store. -/
theorem sliceH_writeAt_middle (f : ℕ → α) (p : ℕ) (xs ys zs : List α) :
    sliceH (writeAt f p (xs ++ ys ++ zs)) (p + xs.length)
      (p + xs.length + ys.length) = ys := by
  apply list_ext_getD
  · rw [sliceH_length]
    omega
  · intro k d hk
    rw [sliceH_length] at hk
    rw [sliceH_get _ _ _ _ (by omega)]
    have e1 : writeAt f p (xs ++ ys ++ zs) (p + xs.length + k)
        = (xs ++ ys ++ zs).getD (p + xs.length + k - p) d :=
      writeAt_in (by omega) (by
        rw [List.length_append, List.length_append]
        omega) d
    rw [e1, show p + xs.length + k - p = xs.length + k from by omega]
    rw [getD_append_lt (xs ++ ys) zs (xs.length + k) (by
      rw [List.length_append]
      omega)]
    rw [getD_append_ge xs ys (xs.length + k) (by omega)]
    congr 1
    omega

theorem flatMap_range_split (out : ℕ → List α) (n j : ℕ) (hj : j < n) :
    (List.range n).flatMap out
      = (List.range j).flatMap out ++ out j
        ++ (List.range (n - j - 1)).flatMap (fun k => out (j + 1 + k)) := by
  have hn : n = (j + 1) + (n - j - 1) := by omega
  rw [hn, List.range_add, List.flatMap_append, List.range_succ,
    List.flatMap_append]
  simp only [List.flatMap_cons, List.flatMap_nil, List.append_nil]
  rw [List.flatMap_map]
  rw [show j + 1 + (n - j - 1) - j - 1 = n - j - 1 from by omega]

theorem flatMap_range_sliceH0 (f : ℕ → α) (N : ℕ → ℕ) (n : ℕ)
    (hmono : ∀ k, k < n → N k ≤ N (k + 1)) :
    (List.range n).flatMap (fun k => sliceH f (N k) (N (k + 1)))
      = sliceH f (N 0) (N n) := by
  have h := flatMap_range_sliceH f N 0 n hmono
  simpa using h

theorem phase1_prefix_length (c : α → α → Bool) (buf : ℕ → α) (len t m : ℕ) :
    ((List.range m).flatMap (fun k => stdSort c
        (sliceH buf (localSegBound len t k) (localSegBound len t (k + 1))))).length
      = localSegBound len t m := by
  induction m with
  | zero => simp [localSegBound_zero]
  | succ p ih =>
    rw [flatMap_range_succ, List.length_append, ih, stdSort_length, sliceH_length]
    have h1 : localSegBound len t p ≤ localSegBound len t (p + 1) :=
      localSegBound_mono len t (by omega)
    omega

/-- phase 1 acts as a single store, at position 0, of the per-segment sorted
slices of the original buffer. -/
theorem phase1_eq (c : α → α → Bool) (len t : ℕ) (buf : ℕ → α) :
    phase1 c len t buf
      = writeAt buf 0 ((List.range t).flatMap
          (fun k => stdSort c (sliceH buf (localSegBound len t k)
            (localSegBound len t (k + 1))))) := by
  unfold phase1
  have main : ∀ n,
      (List.range n).foldl (fun b k =>
        writeAt b (localSegBound len t k)
          (stdSort c (sliceH b (localSegBound len t k)
            (localSegBound len t (k + 1))))) buf
        = writeAt buf 0 ((List.range n).flatMap
            (fun k => stdSort c (sliceH buf (localSegBound len t k)
              (localSegBound len t (k + 1))))) := by
    intro n
    induction n with
    | zero => simp [writeAt_nil]
    | succ m ih =>
      rw [flatMap_range_succ, List.range_succ, List.foldl_append, ih]
      simp only [List.foldl_cons, List.foldl_nil]
      have hpre := phase1_prefix_length c buf len t m
      have hslice : sliceH (writeAt buf 0 ((List.range m).flatMap
            (fun k => stdSort c (sliceH buf (localSegBound len t k)
              (localSegBound len t (k + 1))))))
            (localSegBound len t m) (localSegBound len t (m + 1))
          = sliceH buf (localSegBound len t m) (localSegBound len t (m + 1)) := by
        apply sliceH_congr
        intro q hq1 hq2
        exact writeAt_ge (by omega)
      rw [hslice, show localSegBound len t m
          = 0 + ((List.range m).flatMap
            (fun k => stdSort c (sliceH buf (localSegBound len t k)
              (localSegBound len t (k + 1))))).length from by omega,
        writeAt_writeAt]
  exact main t

/-- after phase 1, every local segment is the std::sort of its original
contents: each segment is sorted, the range [0, len) is a permutation of the
original, and nothing beyond len is touched. -/
theorem phase1_spec {c : α → α → Bool} (h : SWO c) {len t : ℕ} (ht : 1 ≤ t)
    (buf : ℕ → α) :
    (∀ j, RangeSorted c (phase1 c len t buf) (localSegBound len t j)
        (min (localSegBound len t (j + 1)) len))
    ∧ List.Perm (sliceH (phase1 c len t buf) 0 len) (sliceH buf 0 len)
    ∧ (∀ q, len ≤ q → phase1 c len t buf q = buf q) := by
  rw [phase1_eq]
  have hlen : ((List.range t).flatMap (fun k => stdSort c
      (sliceH buf (localSegBound len t k) (localSegBound len t (k + 1))))).length
      = len := by
    rw [phase1_prefix_length, localSegBound_last ht]
  refine ⟨?_, ?_, ?_⟩
  · intro j
    rcases Nat.lt_or_ge j t with hj | hj
    · have hminj : min (localSegBound len t (j + 1)) len
          = localSegBound len t (j + 1) := by
        have := @localSegBound_le_len len t ht (j + 1) (show j + 1 ≤ t by omega)
        omega
      rw [hminj]
      have hsplit := flatMap_range_split (fun k => stdSort c
        (sliceH buf (localSegBound len t k) (localSegBound len t (k + 1)))) t j hj
      rw [hsplit]
      apply (rangeSorted_iff_sortedLe h).2
      have hpre := phase1_prefix_length c buf len t j
      have hmono := localSegBound_mono len t (show j ≤ j + 1 by omega)
      have hmid := sliceH_writeAt_middle buf 0
        ((List.range j).flatMap (fun k => stdSort c
          (sliceH buf (localSegBound len t k) (localSegBound len t (k + 1)))))
        (stdSort c (sliceH buf (localSegBound len t j) (localSegBound len t (j + 1))))
        ((List.range (t - j - 1)).flatMap (fun k => stdSort c
          (sliceH buf (localSegBound len t (j + 1 + k))
            (localSegBound len t (j + 1 + k + 1)))))
      rw [hpre, stdSort_length, sliceH_length] at hmid
      rw [show localSegBound len t j = 0 + localSegBound len t j from by omega,
        show localSegBound len t (j + 1) = 0 + localSegBound len t j
          + (localSegBound len t (j + 1) - localSegBound len t j) from by omega]
      rw [hmid]
      exact stdSort_sorted h _
    · apply rangeSorted_vacuous
      have h1 : localSegBound len t t ≤ localSegBound len t j :=
        localSegBound_mono len t hj
      rw [localSegBound_last ht] at h1
      omega
  · have hs : sliceH (writeAt buf 0 ((List.range t).flatMap (fun k => stdSort c
        (sliceH buf (localSegBound len t k) (localSegBound len t (k + 1)))))) 0 len
        = (List.range t).flatMap (fun k => stdSort c
          (sliceH buf (localSegBound len t k) (localSegBound len t (k + 1)))) := by
      have h2 := sliceH_writeAt buf 0 ((List.range t).flatMap (fun k => stdSort c
        (sliceH buf (localSegBound len t k) (localSegBound len t (k + 1)))))
      rw [hlen] at h2
      simpa using h2
    rw [hs]
    have hp := flatMap_range_perm (n := t) (fun k hk => stdSort_perm c
      (sliceH buf (localSegBound len t k) (localSegBound len t (k + 1))))
    have hconcat := flatMap_range_sliceH0 buf
      (fun k => localSegBound len t k) t
      (fun k hk => localSegBound_mono len t (by omega))
    simp only [] at hconcat
    rw [localSegBound_zero, localSegBound_last ht] at hconcat
    rw [← hconcat]
    exact hp
  · intro q hq
    exact writeAt_ge (by omega)

theorem iDivUp_pos {a b : ℕ} (ha : 1 ≤ a) : 1 ≤ iDivUp a b := by
  unfold iDivUp
  split
  · next hmod =>
    rcases Nat.eq_zero_or_pos b with rfl | hb
    · rw [Nat.mod_zero] at hmod
      omega
    · have hba : b ≤ a := by
        by_contra hcon
        have : a % b = a := Nat.mod_eq_of_lt (by omega)
        omega
      exact Nat.one_le_div_iff hb |>.2 hba
  · next _ => exact Nat.le_add_left 1 _

theorem roundBound_le_len_of_le {len t r j : ℕ}
    (hj : j ≤ 2 * roundLoops len t r) : roundBound len t r j ≤ len := by
  apply roundBound_le_len
  have h1 := roundLoops_mul_le len t r
  have h2 : (j : ℚ) ≤ ((2 * roundLoops len t r : ℕ) : ℚ) := by exact_mod_cast hj
  have h3 := roundDelta_nonneg len t r
  calc (j : ℚ) * roundDelta len t r
      ≤ ((2 * roundLoops len t r : ℕ) : ℚ) * roundDelta len t r :=
        mul_le_mul_of_nonneg_right h2 h3
    _ ≤ (len : ℚ) := h1

theorem len_le_roundBound_top {len t r : ℕ} (h2 : 2 ≤ t)
    (hcap : 128 * t ≤ len + 64) :
    len ≤ roundBound len t r (2 * roundLoops len t r + 2) := by
  apply len_le_roundBound
  exact le_of_lt (len_lt_roundLoops_add len t r (roundDelta_ge_one r h2 hcap))

/-- the merge-pass context of one full-pair merge task. -/
theorem mergePass_ctx_main {c : α → α → Bool} {len t r : ℕ} (h : SWO c)
    (h2 : 2 ≤ t) (hcap : 128 * t ≤ len + 64) (src : ℕ → α)
    (hP : ∀ j, RangeSorted c src (roundBound len t r j)
      (min (roundBound len t r (j + 1)) len))
    {i : ℕ} (hi : i < roundLoops len t r) :
    PMCtx c src (roundBound len t r (2 * i))
      (roundBound len t r (2 * i + 1) - 1)
      (roundBound len t r (2 * i + 1))
      (roundBound len t r (2 * i + 2) - 1) (roundPm len t r) := by
  have hlt1 := roundBound_lt r h2 hcap (2 * i)
  have hlt2 := roundBound_lt r h2 hcap (2 * i + 1)
  rw [show 2 * i + 1 + 1 = 2 * i + 2 from by omega] at hlt2
  have hle1 : roundBound len t r (2 * i + 1) ≤ len :=
    roundBound_le_len_of_le (by omega)
  have hle2 : roundBound len t r (2 * i + 2) ≤ len :=
    roundBound_le_len_of_le (by omega)
  refine ⟨h, iDivUp_pos (by omega), by omega, by omega, ?_, ?_⟩
  · rw [show roundBound len t r (2 * i + 1) - 1 + 1
      = roundBound len t r (2 * i + 1) from by omega]
    have hp := hP (2 * i)
    rwa [show min (roundBound len t r (2 * i + 1)) len
      = roundBound len t r (2 * i + 1) from by omega] at hp
  · rw [show roundBound len t r (2 * i + 2) - 1 + 1
      = roundBound len t r (2 * i + 2) from by omega]
    have hp := hP (2 * i + 1)
    rwa [show min (roundBound len t r (2 * i + 1 + 1)) len
      = roundBound len t r (2 * i + 2) from by
        rw [show 2 * i + 1 + 1 = 2 * i + 2 from by omega]
        omega] at hp

/-- the merge-pass context of the leftover merge task. -/
theorem mergePass_ctx_left {c : α → α → Bool} {len t r : ℕ} (h : SWO c)
    (h2 : 2 ≤ t) (hcap : 128 * t ≤ len + 64) (src : ℕ → α)
    (hP : ∀ j, RangeSorted c src (roundBound len t r j)
      (min (roundBound len t r (j + 1)) len))
    (hleft : roundHasLeftover len t r = true) :
    PMCtx c src (llrN (roundLoStart len t r))
      (min len (llrN (roundLoStart len t r + roundDelta len t r)) - 1)
      (min len (llrN (roundLoStart len t r + roundDelta len t r)))
      (len - 1) ((roundLo len t r).toNat) := by
  have hlen1 : 1 ≤ len := by omega
  have hlo := roundLo_pos len t r hlen1 (by omega) hleft
  have hlt1 := roundBound_lt r h2 hcap (2 * roundLoops len t r)
  have hlt2 := roundBound_lt r h2 hcap (2 * roundLoops len t r + 1)
  rw [show 2 * roundLoops len t r + 1 + 1 = 2 * roundLoops len t r + 2
    from by omega] at hlt2
  have hlts : llrZ (roundLoStart len t r) < (len : ℤ) := by
    unfold roundHasLeftover at hleft
    exact of_decide_eq_true hleft
  have hlow : llrN (roundLoStart len t r)
      = roundBound len t r (2 * roundLoops len t r) := roundLoStart_eq len t r
  have hlzn : 0 ≤ llrZ (roundLoStart len t r) := by
    apply llrZ_nonneg
    unfold roundLoStart
    have := roundDelta_nonneg len t r
    positivity
  have hstart_lt : llrN (roundLoStart len t r) < len := by
    unfold llrN
    omega
  have hmid : llrN (roundLoStart len t r + roundDelta len t r)
      = roundBound len t r (2 * roundLoops len t r + 1) := roundMid_eq len t r
  have htop := len_le_roundBound_top (r := r) h2 hcap
  refine ⟨h, by omega, ?_, by omega, ?_, ?_⟩
  · rw [hlow, hmid]
    omega
  · rw [show min len (llrN (roundLoStart len t r + roundDelta len t r)) - 1 + 1
      = min len (llrN (roundLoStart len t r + roundDelta len t r)) from by
        rw [hmid]
        omega]
    have hp := hP (2 * roundLoops len t r)
    rw [show min (roundBound len t r (2 * roundLoops len t r + 1)) len
      = min len (llrN (roundLoStart len t r + roundDelta len t r)) from by
        rw [hmid, Nat.min_comm]] at hp
    rwa [hlow]
  · rw [show len - 1 + 1 = len from by omega]
    rcases le_or_lt len (llrN (roundLoStart len t r + roundDelta len t r))
      with hc | hc
    · rw [show min len (llrN (roundLoStart len t r + roundDelta len t r))
        = len from by omega]
      exact rangeSorted_vacuous (le_refl len)
    · rw [show min len (llrN (roundLoStart len t r + roundDelta len t r))
        = llrN (roundLoStart len t r + roundDelta len t r) from by omega]
      have hp := hP (2 * roundLoops len t r + 1)
      rw [show min (roundBound len t r (2 * roundLoops len t r + 1 + 1)) len
        = len from by
          rw [show 2 * roundLoops len t r + 1 + 1
            = 2 * roundLoops len t r + 2 from by omega]
          omega] at hp
      rwa [hmid]

theorem flatMap_length_blocks (out : ℕ → List α) (B : ℕ → ℕ) (n : ℕ)
    (hmono : ∀ k, k < n → B k ≤ B (k + 1))
    (hlen : ∀ k, k < n → (out k).length = B (k + 1) - B k) :
    ((List.range n).flatMap out).length = B n - B 0 := by
  induction n with
  | zero => simp
  | succ p ih =>
    rw [flatMap_range_succ, List.length_append,
      ih (fun k hk => hmono k (by omega)) (fun k hk => hlen k (by omega)),
      hlen p (by omega)]
    have h1 : B 0 ≤ B p := mono_chain B (p + 1)
      (fun k hk => hmono k (by omega)) (by omega) (by omega)
    have h2 : B p ≤ B (p + 1) := hmono p (by omega)
    omega

theorem flatMap_range_congr (f g : ℕ → List α) (n : ℕ)
    (h : ∀ k, k < n → f k = g k) :
    (List.range n).flatMap f = (List.range n).flatMap g := by
  induction n with
  | zero => rfl
  | succ m ih =>
    rw [flatMap_range_succ, flatMap_range_succ,
      ih (fun k hk => h k (by omega)), h m (by omega)]

/-- a store of consecutive sorted blocks produces a buffer whose blocks are
sorted. -/
theorem blocks_sorted_of_store {c : α → α → Bool} (h : SWO c) (dst : ℕ → α)
    (out : ℕ → List α) (B : ℕ → ℕ) (n : ℕ) (hB0 : B 0 = 0)
    (hmono : ∀ k, k < n → B k ≤ B (k + 1))
    (hlen : ∀ k, k < n → (out k).length = B (k + 1) - B k)
    (hsorted : ∀ k, k < n → SortedLe c (out k)) :
    ∀ j, j < n → RangeSorted c (writeAt dst 0 ((List.range n).flatMap out))
      (B j) (B (j + 1)) := by
  intro j hj
  have hsplit := flatMap_range_split out n j hj
  rw [hsplit]
  apply (rangeSorted_iff_sortedLe h).2
  have hpre := flatMap_length_blocks out B j
    (fun k hk => hmono k (by omega)) (fun k hk => hlen k (by omega))
  have hmid := sliceH_writeAt_middle dst 0 ((List.range j).flatMap out) (out j)
    ((List.range (n - j - 1)).flatMap (fun k => out (j + 1 + k)))
  rw [hpre, hlen j hj] at hmid
  have h0j : B 0 ≤ B j := mono_chain B n (fun k hk => hmono k hk) (by omega)
    (by omega)
  have hjj : B j ≤ B (j + 1) := hmono j hj
  rw [show B j = 0 + (B j - B 0) from by omega,
    show B (j + 1) = 0 + (B j - B 0) + (B (j + 1) - B j) from by omega, hmid]
  exact hsorted j hj

/-- one merge pass: every level-(r+1) block of the destination is sorted,
the destination's [0, len) is a permutation of the source's [0, len), and
nothing beyond len is touched. -/
theorem mergePass_spec {c : α → α → Bool} {len t r : ℕ} (h : SWO c)
    (h2 : 2 ≤ t) (hcap : 128 * t ≤ len + 64) (dst src : ℕ → α)
    (hP : ∀ j, RangeSorted c src (roundBound len t r j)
      (min (roundBound len t r (j + 1)) len)) :
    (∀ j, RangeSorted c (mergePass c len t r dst src)
        (roundBound len t (r + 1) j)
        (min (roundBound len t (r + 1) (j + 1)) len))
    ∧ List.Perm (sliceH (mergePass c len t r dst src) 0 len)
        (sliceH src 0 len)
    ∧ (∀ q, len ≤ q → mergePass c len t r dst src q = dst q) := by
  have hlen1 : 1 ≤ len := by omega
  have hstep : ∀ (x : ℕ → α) (i : ℕ), i < roundLoops len t r →
      pmWrite c x src (roundBound len t r (2 * i))
        (roundBound len t r (2 * i + 1) - 1)
        (roundBound len t r (2 * i + 1))
        (roundBound len t r (2 * i + 2) - 1)
        (roundBound len t r (2 * i))
        (roundPm len t r)
      = writeAt x (roundBound len t r (2 * i))
          (pmOut c src (roundBound len t r (2 * i))
            (roundBound len t r (2 * i + 1) - 1)
            (roundBound len t r (2 * i + 1))
            (roundBound len t r (2 * i + 2) - 1) (roundPm len t r)) :=
    fun x i hi => pmWrite_eq (mergePass_ctx_main h h2 hcap src hP hi) x _
  have hmonoM : ∀ k, k < roundLoops len t r →
      roundBound len t r (2 * k) ≤ roundBound len t r (2 * (k + 1)) :=
    fun k _ => roundBound_mono len t r (by omega)
  have hlensM : ∀ k, k < roundLoops len t r →
      (pmOut c src (roundBound len t r (2 * k))
        (roundBound len t r (2 * k + 1) - 1)
        (roundBound len t r (2 * k + 1))
        (roundBound len t r (2 * k + 2) - 1) (roundPm len t r)).length
      = roundBound len t r (2 * (k + 1)) - roundBound len t r (2 * k) := by
    intro k hk
    have hl := pmOut_length (mergePass_ctx_main h h2 hcap src hP hk)
    have hlt1 := roundBound_lt r h2 hcap (2 * k)
    have hlt2 := roundBound_lt r h2 hcap (2 * k + 1)
    rw [show 2 * k + 1 + 1 = 2 * k + 2 from by omega] at hlt2
    rw [hl, show 2 * (k + 1) = 2 * k + 2 from by omega]
    omega
  have hsortM : ∀ k, k < roundLoops len t r →
      SortedLe c (pmOut c src (roundBound len t r (2 * k))
        (roundBound len t r (2 * k + 1) - 1)
        (roundBound len t r (2 * k + 1))
        (roundBound len t r (2 * k + 2) - 1) (roundPm len t r)) :=
    fun k hk => pmOut_sorted (mergePass_ctx_main h h2 hcap src hP hk)
  have hpermM : ∀ k, k < roundLoops len t r →
      List.Perm (pmOut c src (roundBound len t r (2 * k))
        (roundBound len t r (2 * k + 1) - 1)
        (roundBound len t r (2 * k + 1))
        (roundBound len t r (2 * k + 2) - 1) (roundPm len t r))
        (sliceH src (roundBound len t r (2 * k)) (roundBound len t r (2 * k + 1))
          ++ sliceH src (roundBound len t r (2 * k + 1))
            (roundBound len t r (2 * k + 2))) := by
    intro k hk
    have hp := pmOut_perm (mergePass_ctx_main h h2 hcap src hP hk)
    have hlt1 := roundBound_lt r h2 hcap (2 * k)
    have hlt2 := roundBound_lt r h2 hcap (2 * k + 1)
    rw [show 2 * k + 1 + 1 = 2 * k + 2 from by omega] at hlt2
    rwa [show roundBound len t r (2 * k + 1) - 1 + 1
        = roundBound len t r (2 * k + 1) from by omega,
      show roundBound len t r (2 * k + 2) - 1 + 1
        = roundBound len t r (2 * k + 2) from by omega] at hp
  have hfold : (List.range (roundLoops len t r)).foldl
      (fun b i => pmWrite c b src (roundBound len t r (2 * i))
        (roundBound len t r (2 * i + 1) - 1)
        (roundBound len t r (2 * i + 1))
        (roundBound len t r (2 * i + 2) - 1)
        (roundBound len t r (2 * i))
        (roundPm len t r)) dst
      = writeAt dst 0 ((List.range (roundLoops len t r)).flatMap
          (fun i => pmOut c src (roundBound len t r (2 * i))
            (roundBound len t r (2 * i + 1) - 1)
            (roundBound len t r (2 * i + 1))
            (roundBound len t r (2 * i + 2) - 1) (roundPm len t r))) := by
    rw [foldl_range_congr _
      (fun b i => writeAt b (roundBound len t r (2 * i))
        (pmOut c src (roundBound len t r (2 * i))
          (roundBound len t r (2 * i + 1) - 1)
          (roundBound len t r (2 * i + 1))
          (roundBound len t r (2 * i + 2) - 1) (roundPm len t r)))
      (roundLoops len t r) dst hstep]
    rw [foldl_writeAt_blocks dst _ (fun i => roundBound len t r (2 * i))
      (roundLoops len t r) hmonoM hlensM]
    simp only [Nat.mul_zero, roundBound_zero]
  have hmainlen : ((List.range (roundLoops len t r)).flatMap
      (fun i => pmOut c src (roundBound len t r (2 * i))
        (roundBound len t r (2 * i + 1) - 1)
        (roundBound len t r (2 * i + 1))
        (roundBound len t r (2 * i + 2) - 1) (roundPm len t r))).length
      = roundBound len t r (2 * roundLoops len t r) := by
    rw [flatMap_length_blocks _ (fun i => roundBound len t r (2 * i))
      (roundLoops len t r) hmonoM hlensM]
    simp only [Nat.mul_zero, roundBound_zero]
    omega
  have hmainperm : List.Perm ((List.range (roundLoops len t r)).flatMap
      (fun i => pmOut c src (roundBound len t r (2 * i))
        (roundBound len t r (2 * i + 1) - 1)
        (roundBound len t r (2 * i + 1))
        (roundBound len t r (2 * i + 2) - 1) (roundPm len t r)))
      (sliceH src 0 (roundBound len t r (2 * roundLoops len t r))) := by
    have hp1 := flatMap_range_perm (n := roundLoops len t r) hpermM
    have hp2 : (List.range (roundLoops len t r)).flatMap
        (fun k => sliceH src (roundBound len t r (2 * k))
            (roundBound len t r (2 * k + 1))
          ++ sliceH src (roundBound len t r (2 * k + 1))
            (roundBound len t r (2 * k + 2)))
        = (List.range (roundLoops len t r)).flatMap
          (fun k => sliceH src (roundBound len t r (2 * k))
            (roundBound len t r (2 * (k + 1)))) := by
      apply flatMap_range_congr
      intro k hk
      rw [show 2 * (k + 1) = 2 * k + 2 from by omega,
        ← sliceH_append src (roundBound_mono len t r (by omega))
          (roundBound_mono len t r (by omega))]
    have hp3 := flatMap_range_sliceH0 src (fun i => roundBound len t r (2 * i))
      (roundLoops len t r) hmonoM
    simp only [] at hp3
    rw [hp2, hp3] at hp1
    simp only [Nat.mul_zero, roundBound_zero] at hp1
    exact hp1
  rcases hbl : roundHasLeftover len t r with hfalse | htrue
  · -- no leftover: the main merges already tile [0, len)
    have hBL : roundBound len t r (2 * roundLoops len t r) = len := by
      have ha1 := roundBound_le_len_of_le (le_refl (2 * roundLoops len t r))
      have ha2 : ¬ llrZ (roundLoStart len t r) < (len : ℤ) := by
        have : roundHasLeftover len t r = false := hbl
        unfold roundHasLeftover at this
        exact of_decide_eq_false this
      have ha3 := roundLoStart_eq len t r
      unfold llrN at ha3
      omega
    have hpass : mergePass c len t r dst src
        = writeAt dst 0 ((List.range (roundLoops len t r)).flatMap
          (fun i => pmOut c src (roundBound len t r (2 * i))
            (roundBound len t r (2 * i + 1) - 1)
            (roundBound len t r (2 * i + 1))
            (roundBound len t r (2 * i + 2) - 1) (roundPm len t r))) := by
      unfold mergePass
      rw [hbl]
      simp only [Bool.false_eq_true, if_false]
      exact hfold
    rw [hpass]
    refine ⟨?_, ?_, ?_⟩
    · intro j
      rcases Nat.lt_or_ge j (roundLoops len t r) with hj | hj
      · have hmin : min (roundBound len t (r + 1) (j + 1)) len
            = roundBound len t (r + 1) (j + 1) := by
          rw [roundBound_next]
          have := roundBound_le_len_of_le (j := 2 * (j + 1))
            (show 2 * (j + 1) ≤ 2 * roundLoops len t r by omega)
          omega
        rw [hmin, roundBound_next, roundBound_next]
        exact blocks_sorted_of_store h dst _ (fun i => roundBound len t r (2 * i))
          (roundLoops len t r) (by simp only [Nat.mul_zero, roundBound_zero])
          hmonoM hlensM hsortM j hj
      · apply rangeSorted_vacuous
        have hge : len ≤ roundBound len t (r + 1) j := by
          rw [roundBound_next]
          have hm := roundBound_mono len t r
            (show 2 * roundLoops len t r ≤ 2 * j by omega)
          omega
        omega
    · have hs : sliceH (writeAt dst 0 ((List.range (roundLoops len t r)).flatMap
          (fun i => pmOut c src (roundBound len t r (2 * i))
            (roundBound len t r (2 * i + 1) - 1)
            (roundBound len t r (2 * i + 1))
            (roundBound len t r (2 * i + 2) - 1) (roundPm len t r)))) 0 len
          = (List.range (roundLoops len t r)).flatMap
            (fun i => pmOut c src (roundBound len t r (2 * i))
              (roundBound len t r (2 * i + 1) - 1)
              (roundBound len t r (2 * i + 1))
              (roundBound len t r (2 * i + 2) - 1) (roundPm len t r)) := by
        have h3 := sliceH_writeAt dst 0 ((List.range (roundLoops len t r)).flatMap
          (fun i => pmOut c src (roundBound len t r (2 * i))
            (roundBound len t r (2 * i + 1) - 1)
            (roundBound len t r (2 * i + 1))
            (roundBound len t r (2 * i + 2) - 1) (roundPm len t r)))
        rw [hmainlen, hBL] at h3
        simpa using h3
      rw [hs]
      have hmp := hmainperm
      rw [hBL] at hmp
      exact hmp
    · intro q hq
      exact writeAt_ge (by omega)
  · -- with leftover: the main merges tile [0, B(2*loops)), the leftover
    -- task tiles [B(2*loops), len)
    have hctxL := mergePass_ctx_left h h2 hcap src hP hbl
    have hlow := roundLoStart_eq len t r
    have hmidq := roundMid_eq len t r
    have hlt1 := roundBound_lt r h2 hcap (2 * roundLoops len t r)
    have htop := len_le_roundBound_top (r := r) h2 hcap
    have hlts : llrZ (roundLoStart len t r) < (len : ℤ) := by
      unfold roundHasLeftover at hbl
      exact of_decide_eq_true hbl
    have hlzn : 0 ≤ llrZ (roundLoStart len t r) := by
      apply llrZ_nonneg
      unfold roundLoStart
      have := roundDelta_nonneg len t r
      positivity
    have hstart_lt : roundBound len t r (2 * roundLoops len t r) < len := by
      rw [← hlow]
      unfold llrN
      omega
    have hlolen : (pmOut c src (llrN (roundLoStart len t r))
        (min len (llrN (roundLoStart len t r + roundDelta len t r)) - 1)
        (min len (llrN (roundLoStart len t r + roundDelta len t r)))
        (len - 1) ((roundLo len t r).toNat)).length
        = len - roundBound len t r (2 * roundLoops len t r) := by
      rw [pmOut_length hctxL, hlow, hmidq]
      omega
    have hpass : mergePass c len t r dst src
        = writeAt dst 0 (((List.range (roundLoops len t r)).flatMap
          (fun i => pmOut c src (roundBound len t r (2 * i))
            (roundBound len t r (2 * i + 1) - 1)
            (roundBound len t r (2 * i + 1))
            (roundBound len t r (2 * i + 2) - 1) (roundPm len t r)))
          ++ pmOut c src (llrN (roundLoStart len t r))
            (min len (llrN (roundLoStart len t r + roundDelta len t r)) - 1)
            (min len (llrN (roundLoStart len t r + roundDelta len t r)))
            (len - 1) ((roundLo len t r).toNat)) := by
      unfold mergePass
      rw [hbl]
      simp only [if_true]
      rw [hfold, pmWrite_eq hctxL, hlow,
        show roundBound len t r (2 * roundLoops len t r)
          = 0 + ((List.range (roundLoops len t r)).flatMap
            (fun i => pmOut c src (roundBound len t r (2 * i))
              (roundBound len t r (2 * i + 1) - 1)
              (roundBound len t r (2 * i + 1))
              (roundBound len t r (2 * i + 2) - 1) (roundPm len t r))).length
          from by rw [hmainlen]; omega,
        writeAt_writeAt]
    rw [hpass]
    refine ⟨?_, ?_, ?_⟩
    · intro j
      rcases Nat.lt_or_ge j (roundLoops len t r + 1) with hj | hj
      · have hblocks := blocks_sorted_of_store h dst
          (fun i => if i < roundLoops len t r then
            pmOut c src (roundBound len t r (2 * i))
              (roundBound len t r (2 * i + 1) - 1)
              (roundBound len t r (2 * i + 1))
              (roundBound len t r (2 * i + 2) - 1) (roundPm len t r)
            else pmOut c src (llrN (roundLoStart len t r))
              (min len (llrN (roundLoStart len t r + roundDelta len t r)) - 1)
              (min len (llrN (roundLoStart len t r + roundDelta len t r)))
              (len - 1) ((roundLo len t r).toNat))
          (fun i => min (roundBound len t r (2 * i)) len)
          (roundLoops len t r + 1)
          (by simp only [Nat.mul_zero, roundBound_zero]; omega)
          (fun k hk => by
            have := roundBound_mono len t r (show 2 * k ≤ 2 * (k + 1) by omega)
            simp only []
            omega)
          (fun k hk => by
            simp only []
            rcases Nat.lt_or_ge k (roundLoops len t r) with hk2 | hk2
            · rw [if_pos hk2, hlensM k hk2]
              have hle1 : roundBound len t r (2 * k) ≤ len :=
                roundBound_le_len_of_le (by omega)
              have hle2 : roundBound len t r (2 * (k + 1)) ≤ len :=
                roundBound_le_len_of_le (by omega)
              omega
            · have hk3 : k = roundLoops len t r := by omega
              subst hk3
              rw [if_neg (by omega), hlolen]
              have hle1 : roundBound len t r (2 * roundLoops len t r) ≤ len :=
                roundBound_le_len_of_le (by omega)
              have hge2 : len ≤ roundBound len t r (2 * (roundLoops len t r + 1)) := by
                rw [show 2 * (roundLoops len t r + 1)
                  = 2 * roundLoops len t r + 2 from by omega]
                exact htop
              omega)
          (fun k hk => by
            simp only []
            rcases Nat.lt_or_ge k (roundLoops len t r) with hk2 | hk2
            · rw [if_pos hk2]
              exact hsortM k hk2
            · rw [if_neg (by omega)]
              exact pmOut_sorted hctxL)
          j hj
        have hflat : (List.range (roundLoops len t r + 1)).flatMap
            (fun i => if i < roundLoops len t r then
              pmOut c src (roundBound len t r (2 * i))
                (roundBound len t r (2 * i + 1) - 1)
                (roundBound len t r (2 * i + 1))
                (roundBound len t r (2 * i + 2) - 1) (roundPm len t r)
              else pmOut c src (llrN (roundLoStart len t r))
                (min len (llrN (roundLoStart len t r + roundDelta len t r)) - 1)
                (min len (llrN (roundLoStart len t r + roundDelta len t r)))
                (len - 1) ((roundLo len t r).toNat))
            = ((List.range (roundLoops len t r)).flatMap
              (fun i => pmOut c src (roundBound len t r (2 * i))
                (roundBound len t r (2 * i + 1) - 1)
                (roundBound len t r (2 * i + 1))
                (roundBound len t r (2 * i + 2) - 1) (roundPm len t r)))
              ++ pmOut c src (llrN (roundLoStart len t r))
                (min len (llrN (roundLoStart len t r + roundDelta len t r)) - 1)
                (min len (llrN (roundLoStart len t r + roundDelta len t r)))
                (len - 1) ((roundLo len t r).toNat) := by
          rw [flatMap_range_succ]
          rw [flatMap_range_congr _ (fun i => pmOut c src
              (roundBound len t r (2 * i))
              (roundBound len t r (2 * i + 1) - 1)
              (roundBound len t r (2 * i + 1))
              (roundBound len t r (2 * i + 2) - 1) (roundPm len t r))
            (roundLoops len t r) (fun k hk => by rw [if_pos hk])]
          rw [if_neg (by omega)]
        rw [hflat] at hblocks
        have hminj : min (roundBound len t (r + 1) (j + 1)) len
            = min (roundBound len t r (2 * (j + 1))) len := by
          rw [roundBound_next]
        have hlead : roundBound len t (r + 1) j
            = min (roundBound len t r (2 * j)) len := by
          rw [roundBound_next]
          have : roundBound len t r (2 * j)
              ≤ roundBound len t r (2 * roundLoops len t r) :=
            roundBound_mono len t r (by omega)
          omega
        rw [hminj, hlead]
        exact hblocks
      · apply rangeSorted_vacuous
        have hge : len ≤ roundBound len t (r + 1) j := by
          rw [roundBound_next]
          have h1 : roundBound len t r (2 * (roundLoops len t r + 1))
              ≤ roundBound len t r (2 * j) :=
            roundBound_mono len t r (by omega)
          rw [show 2 * (roundLoops len t r + 1)
            = 2 * roundLoops len t r + 2 from by omega] at h1
          omega
        omega
    · have htotlen : (((List.range (roundLoops len t r)).flatMap
          (fun i => pmOut c src (roundBound len t r (2 * i))
            (roundBound len t r (2 * i + 1) - 1)
            (roundBound len t r (2 * i + 1))
            (roundBound len t r (2 * i + 2) - 1) (roundPm len t r)))
          ++ pmOut c src (llrN (roundLoStart len t r))
            (min len (llrN (roundLoStart len t r + roundDelta len t r)) - 1)
            (min len (llrN (roundLoStart len t r + roundDelta len t r)))
            (len - 1) ((roundLo len t r).toNat)).length = len := by
        rw [List.length_append, hmainlen, hlolen]
        omega
      have hs := sliceH_writeAt dst 0 (((List.range (roundLoops len t r)).flatMap
          (fun i => pmOut c src (roundBound len t r (2 * i))
            (roundBound len t r (2 * i + 1) - 1)
            (roundBound len t r (2 * i + 1))
            (roundBound len t r (2 * i + 2) - 1) (roundPm len t r)))
          ++ pmOut c src (llrN (roundLoStart len t r))
            (min len (llrN (roundLoStart len t r + roundDelta len t r)) - 1)
            (min len (llrN (roundLoStart len t r + roundDelta len t r)))
            (len - 1) ((roundLo len t r).toNat))
      rw [htotlen] at hs
      simp only [Nat.zero_add] at hs
      rw [hs, hlow, hmidq]
      have hloperm := pmOut_perm hctxL
      rw [hlow, hmidq] at hloperm
      rw [show min len (roundBound len t r (2 * roundLoops len t r + 1)) - 1 + 1
          = min len (roundBound len t r (2 * roundLoops len t r + 1))
          from by omega,
        show len - 1 + 1 = len from by omega] at hloperm
      have hjoin : List.Perm
          (sliceH src (roundBound len t r (2 * roundLoops len t r))
            (min len (roundBound len t r (2 * roundLoops len t r + 1)))
          ++ sliceH src (min len (roundBound len t r (2 * roundLoops len t r + 1)))
            len)
          (sliceH src (roundBound len t r (2 * roundLoops len t r)) len) := by
        rw [← sliceH_append src (by omega) (by omega)]
      have hcomb := (hmainperm.append (hloperm.trans hjoin)).trans
        (List.Perm.of_eq (sliceH_append src
          (show 0 ≤ roundBound len t r (2 * roundLoops len t r) by omega)
          (le_of_lt hstart_lt)).symm)
      exact hcomb
    · intro q hq
      apply writeAt_ge
      rw [List.length_append, hmainlen, hlolen]
      omega

/-- the merge-pass loop maintains sortedness of the (doubling) blocks and
permutes only [0, len). -/
theorem sortPasses_spec {α : Type u} {c : α → α → Bool} {len t : ℕ}
    (h : SWO c) (h2 : 2 ≤ t) (hcap : 128 * t ≤ len + 64) :
    ∀ (n r : ℕ) (buf swp : ℕ → α),
      (∀ j, RangeSorted c buf (roundBound len t r j)
        (min (roundBound len t r (j + 1)) len)) →
      (∀ j, RangeSorted c (sortPasses c len t n r buf swp).1
          (roundBound len t (r + n) j)
          (min (roundBound len t (r + n) (j + 1)) len))
      ∧ List.Perm (sliceH (sortPasses c len t n r buf swp).1 0 len)
          (sliceH buf 0 len) := by
  intro n
  induction n with
  | zero =>
    intro r buf swp hB
    exact ⟨hB, List.Perm.refl _⟩
  | succ m ih =>
    intro r buf swp hB
    obtain ⟨hmp1, hmp2, hmp3⟩ := mergePass_spec h h2 hcap swp buf hB
    obtain ⟨ih1, ih2⟩ := ih (r + 1) (mergePass c len t r swp buf) buf hmp1
    constructor
    · rw [show r + (m + 1) = r + 1 + m from by omega]
      exact ih1
    · exact ih2.trans hmp2

/-- positions at or beyond len ping-pong between the two buffers and are
never written: after an even number of passes they hold the original
contents of the first buffer. -/
theorem sortPasses_beyond {α : Type u} {c : α → α → Bool} {len t : ℕ}
    (h : SWO c) (h2 : 2 ≤ t) (hcap : 128 * t ≤ len + 64) :
    ∀ (n r : ℕ) (buf swp : ℕ → α),
      (∀ j, RangeSorted c buf (roundBound len t r j)
        (min (roundBound len t r (j + 1)) len)) →
      ∀ q, len ≤ q →
        (sortPasses c len t n r buf swp).1 q
          = (if n % 2 = 0 then buf q else swp q) := by
  intro n
  induction n with
  | zero =>
    intro r buf swp hB q hq
    simp [sortPasses]
  | succ m ih =>
    intro r buf swp hB q hq
    obtain ⟨hmp1, hmp2, hmp3⟩ := mergePass_spec h h2 hcap swp buf hB
    have hrec := ih (r + 1) (mergePass c len t r swp buf) buf hmp1 q hq
    rcases Nat.mod_two_eq_zero_or_one m with hm | hm
    · rw [hm, if_pos rfl] at hrec
      rw [show (m + 1) % 2 = 1 from by omega, show sortPasses c len t (m + 1) r
        buf swp = sortPasses c len t m (r + 1) (mergePass c len t r swp buf) buf
        from rfl, hrec]
      simp only [Nat.one_ne_zero, if_false]
      exact hmp3 q hq
    · rw [hm] at hrec
      simp only [Nat.one_ne_zero, if_false] at hrec
      rw [show (m + 1) % 2 = 0 from by omega, show sortPasses c len t (m + 1) r
        buf swp = sortPasses c len t m (r + 1) (mergePass c len t r swp buf) buf
        from rfl, hrec]
      simp

theorem t_le_two_pow_numPasses (t : ℕ) : t ≤ 2 ^ numPasses t := by
  have h1 := clog2_spec t
  have h2 : clog2 t ≤ numPasses t := by
    unfold numPasses
    omega
  exact le_trans h1 (Nat.pow_le_pow_right (by omega) h2)

theorem len_le_roundBound_final {len t : ℕ} (ht : 1 ≤ t) (r : ℕ)
    (hr : t ≤ 2 ^ r) : len ≤ roundBound len t r 1 := by
  apply len_le_roundBound
  have e1 : ((1 : ℕ) : ℚ) * roundDelta len t r = sortDelta len t * 2 ^ r := by
    unfold roundDelta
    push_cast
    ring
  rw [e1]
  have e2 : (len : ℚ) = (t : ℚ) * sortDelta len t := (sortDelta_mul_t ht).symm
  rw [e2]
  have h3 : (t : ℚ) ≤ ((2 ^ r : ℕ) : ℚ) := by exact_mod_cast hr
  have h4 : ((2 ^ r : ℕ) : ℚ) = (2 : ℚ) ^ r := by
    push_cast
    ring
  have h5 := sortDelta_nonneg len t
  calc (t : ℚ) * sortDelta len t ≤ (2 : ℚ) ^ r * sortDelta len t := by
        apply mul_le_mul_of_nonneg_right _ h5
        rw [← h4]
        exact h3
    _ = sortDelta len t * 2 ^ r := by ring

/-- C1: for every buffer, every strict-weak-order comparator and every
requested thread count (with at least one hardware core), parallelSort
leaves in the caller's original buffer a non-descending permutation of the
original [0, len) contents, and touches nothing at or beyond len; the
authoritative result is the returned original buffer (the merge passes come
in pairs, so the data ping-pongs back), not the scratch buffer. -/
theorem C1_parallelSort {c : α → α → Bool} (h : SWO c) {hw len req : ℕ}
    (hhw : 1 ≤ hw) (buf swap0 : ℕ → α) :
    RangeSorted c (parallelSortBuf c hw len req buf swap0) 0 len
    ∧ List.Perm (sliceH (parallelSortBuf c hw len req buf swap0) 0 len)
        (sliceH buf 0 len)
    ∧ (∀ q, len ≤ q → parallelSortBuf c hw len req buf swap0 q = buf q) := by
  have ht1 : 1 ≤ effThreads hw len req := effThreads_pos hw len req hhw
  unfold parallelSortBuf
  by_cases hle : effThreads hw len req ≤ 1
  · rw [if_pos hle]
    obtain ⟨p1, p2, p3⟩ := phase1_spec h ht1 buf
    refine ⟨?_, p2, p3⟩
    have ht : effThreads hw len req = 1 := by omega
    have hb := p1 0
    rw [localSegBound_zero, show (0 : ℕ) + 1 = 1 from rfl] at hb
    rw [show localSegBound len (effThreads hw len req) 1 = len from by
        rw [ht]
        exact localSegBound_last (le_refl 1)] at hb
    rwa [min_self] at hb
  · rw [if_neg hle]
    have h2 : 2 ≤ effThreads hw len req := by omega
    have hcap := effThreads_cap hw len req h2
    obtain ⟨p1, p2, p3⟩ := phase1_spec h ht1 buf
    have hB0 : ∀ j, RangeSorted c (phase1 c len (effThreads hw len req) buf)
        (roundBound len (effThreads hw len req) 0 j)
        (min (roundBound len (effThreads hw len req) 0 (j + 1)) len) := by
      intro j
      rw [roundBound_round_zero, roundBound_round_zero]
      exact p1 j
    obtain ⟨s1, s2⟩ := sortPasses_spec h h2 hcap
      (numPasses (effThreads hw len req)) 0
      (phase1 c len (effThreads hw len req) buf) swap0 hB0
    refine ⟨?_, s2.trans p2, ?_⟩
    · have hb := s1 0
      rw [roundBound_zero, show (0 : ℕ) + 1 = 1 from rfl] at hb
      have hget : len ≤ roundBound len (effThreads hw len req)
          (0 + numPasses (effThreads hw len req)) 1 := by
        apply len_le_roundBound_final (by omega)
        rw [show 0 + numPasses (effThreads hw len req)
          = numPasses (effThreads hw len req) from by omega]
        exact t_le_two_pow_numPasses _
      rwa [show min (roundBound len (effThreads hw len req)
          (0 + numPasses (effThreads hw len req)) 1) len = len from by omega] at hb
    · intro q hq
      have hbey := sortPasses_beyond h h2 hcap
        (numPasses (effThreads hw len req)) 0
        (phase1 c len (effThreads hw len req) buf) swap0 hB0 q hq
      rw [show numPasses (effThreads hw len req) % 2 = 0 from by
          unfold numPasses
          omega, if_pos rfl] at hbey
      rw [hbey]
      exact p3 q hq

theorem C1_witness :
    RangeSorted natLt (parallelSortBuf natLt 2 256 2 c1buf (fun _ => 0)) 0 256
    ∧ List.Perm (sliceH (parallelSortBuf natLt 2 256 2 c1buf (fun _ => 0)) 0 256)
        (sliceH c1buf 0 256)
    ∧ (∀ q, 256 ≤ q → parallelSortBuf natLt 2 256 2 c1buf (fun _ => 0) q
        = c1buf q) :=
  C1_parallelSort swo_natLt (by omega) c1buf (fun _ => 0)

/-- C3: whenever the effective thread count resolves to 1 - a direct request
of threadCount = 1, or a small input collapsing the cap (e.g. N = 130 with
minimum-per-thread 128 and requested threadCount = 8) - parallelSort reduces
to writing std::sort of the whole range back into the caller's buffer
(element-for-element the sequential sort), and the scratch buffer is never
allocated: the early return precedes the allocation. -/
theorem C3_singleThread {c : α → α → Bool} {hw len req : ℕ}
    (heff : effThreads hw len req = 1) (buf swap0 : ℕ → α) :
    parallelSortBuf c hw len req buf swap0
      = writeAt buf 0 (stdSort c (sliceH buf 0 len))
    ∧ usesScratch hw len req = false := by
  constructor
  · unfold parallelSortBuf
    rw [heff, if_pos (by omega : (1 : ℕ) ≤ 1)]
    unfold phase1
    rw [show List.range 1 = [0] from rfl]
    simp only [List.foldl_cons, List.foldl_nil]
    rw [localSegBound_zero]
    rw [show localSegBound len 1 (0 + 1) = len from by
      rw [show (0 : ℕ) + 1 = 1 from rfl]
      exact localSegBound_last (le_refl 1)]
  · unfold usesScratch
    rw [heff]
    decide

/-- C3 witness: the spec's concrete scenario N = 130, requested threadCount
= 8: the cap (130 + 64) / 128 = 1 collapses the effective thread count to 1,
the output is the sequential std::sort written back in place, and no scratch
buffer is allocated. -/
theorem C3_witness :
    effThreads 4 130 8 = 1
    ∧ parallelSortBuf natLt 4 130 8 (fun n => n) (fun _ => 0)
        = writeAt (fun n => n) 0 (stdSort natLt (sliceH (fun n => n) 0 130))
    ∧ usesScratch 4 130 8 = false := by
  have heff : effThreads 4 130 8 = 1 := by decide
  obtain ⟨ha, hb⟩ := C3_singleThread (c := natLt) heff (fun n => n) (fun _ => 0)
  exact ⟨heff, ha, hb⟩
